import Mathlib

/-! MaaEnd go-service: essence filter.

A shallow embedding of `agent/go-service/essencefilter` (`matcher.go`, `actions.go`,
`types.go`) together with theorems about the fuzzy matcher, the combination resolver and
the grid-traversal callbacks; and, after it, of the queue of `importtask/blueprints.go`,
the number extraction and record selection of `resell/Resell.go` and the skill rotation
of `realtime/autofight.go`.

Conventions of the embedding

* A Go `string` is the list of its runes (`Str`).  Every text the matcher looks at went
  through `cleanChinese`, came out of a JSON document, or is a literal, so it is valid
  UTF-8; on valid UTF-8 the byte-wise `strings.HasSuffix`, `strings.Contains` and
  `strings.ReplaceAll` coincide with their rune-wise counterparts.
* Go `int` is `Int`; no quantity here comes near the machine bounds, except the argument
  of `strconv.Atoi`, whose range error is modelled with `maxInt`.
* `unicode.Is(unicode.Han, r)` is a table of the Go standard library; the matcher takes it
  as the parameter `isHan`.
* A `map[string][]int` is read as the total function giving `nil` for an absent key.
* Package-level variables are threaded explicitly: pure helpers take the variables they
  read as arguments, callbacks transform a `State`.
* Log calls are dropped.
-/

namespace EssenceFilter

set_option linter.unusedVariables false

/-- Go string as a sequence of runes. -/
abbrev Str := List Char

/-! ## types.go -/

/-- Record `WeaponData`. -/
structure WeaponData where
  InternalID : String
  ChineseName : Str
  TypeID : Int
  Rarity : Int
  SkillIDs : List Int
  SkillsChinese : List Str
  deriving DecidableEq

/-- Record `SkillPool`: one entry of a slot's skill pool. -/
structure SkillPool where
  ID : Int
  English : String
  Chinese : Str
  deriving DecidableEq

/-- Field `SkillPools` of `WeaponDatabase`. -/
structure SkillPools where
  Slot1 : List SkillPool
  Slot2 : List SkillPool
  Slot3 : List SkillPool
  deriving DecidableEq

/-- Record `WeaponDatabase` (the weapon-type table is only logged and is left out). -/
structure WeaponDatabase where
  SkillPools : SkillPools
  Weapons : List WeaponData
  deriving DecidableEq

/-- Record `SkillCombination`: one target combination, owned by one weapon. -/
structure SkillCombination where
  Weapon : WeaponData
  SkillsChinese : List Str
  SkillIDs : List Int
  deriving DecidableEq

/-- Record `SkillCombinationMatch`: the aggregated resolver result. -/
structure SkillCombinationMatch where
  SkillIDs : List Int
  SkillsChinese : List Str
  Weapons : List WeaponData
  deriving DecidableEq

/-- Record `MatcherConfig`.  `SimilarWordMap` is a Go map; the list gives its pairs
(misread, correct) in the order in which `normalizeSimilar` iterates over them. -/
structure MatcherConfig where
  SimilarWordMap : List (Str × Str)
  SuffixStopwords : List Str
  deriving DecidableEq

/-! ## matcher.go: small tools -/

/-- Go `abs`. -/
def abs (x : Int) : Int := if x < 0 then -x else x

/-- Go `min`. -/
def min (a b : Int) : Int := if a < b then a else b

/-- Go `min3`. -/
def min3 (a b c : Int) : Int := min a (min b c)

/-- Go `firstChar`: the first rune, only for a text of exactly two runes. -/
def firstChar (s : Str) : Str :=
  match s with
  | [c, _] => [c]
  | _ => []

/-- Go `lastChar`: the second rune, only for a text of exactly two runes. -/
def lastChar (s : Str) : Str :=
  match s with
  | [_, c] => [c]
  | _ => []

/-! ## Standard-library string functions used by the matcher -/

/-- Go `strings.HasSuffix`. -/
def HasSuffix (s suf : Str) : Bool := suf.isSuffixOf s

/-- Go `strings.TrimSuffix`. -/
def TrimSuffix (s suf : Str) : Str :=
  if HasSuffix s suf then s.take (s.length - suf.length) else s

/-- Go `strings.Contains`. -/
def Contains (s sub : Str) : Bool := s.tails.any (fun t => sub.isPrefixOf t)

/-- Scan of `strings.ReplaceAll` for a non-empty `old`: `skip` counts the runes of a match
that are still to be passed over. -/
def replaceScan (old new : Str) : Str → Nat → Str
  | [], _ => []
  | _ :: rest, skip + 1 => replaceScan old new rest skip
  | c :: rest, 0 =>
    if old.isPrefixOf (c :: rest) then new ++ replaceScan old new rest (old.length - 1)
    else c :: replaceScan old new rest 0

/-- Go `strings.ReplaceAll`: non-overlapping matches from the left; an empty `old` matches
before every rune and at the end. -/
def ReplaceAll (s old new : Str) : Str :=
  match old with
  | [] => new ++ s.flatMap (fun c => c :: new)
  | _ :: _ => replaceScan old new s 0

/-! ## matcher.go: cleaning, trimming, normalising -/

/-- Go `cleanChinese`: keep the Han runes only. -/
def cleanChinese (isHan : Char → Bool) (text : Str) : Str := text.filter isHan

/-- Loop of `trimStopSuffix` over the configured suffixes: the first suffix in list order
that `s` ends with and that is shorter than `s` is cut off. -/
def trimStopSuffixLoop : List Str → Str → Str
  | [], s => s
  | suf :: rest, s =>
    if HasSuffix s suf && decide (s.length > suf.length) then TrimSuffix s suf
    else trimStopSuffixLoop rest s

/-- Go `trimStopSuffix`. -/
def trimStopSuffix (matcherConfig : MatcherConfig) (s : Str) : Str :=
  trimStopSuffixLoop matcherConfig.SuffixStopwords s

/-- Go `normalizeSimilar`: one `ReplaceAll` per pair of the substitution table. -/
def normalizeSimilar (matcherConfig : MatcherConfig) (s : Str) : Str :=
  matcherConfig.SimilarWordMap.foldl (fun s p => ReplaceAll s p.1 p.2) s

/-! ## matcher.go: editDistance -/

/-- The `dp` matrix of `editDistance`. -/
abbrev Table := List (List Int)

/-- Read `dp[i][j]`. -/
def Table.get (dp : Table) (i j : Nat) : Int := (dp.getD i []).getD j 0

/-- Assignment `dp[i][j] = v`. -/
def Table.set (dp : Table) (i j : Nat) (v : Int) : Table :=
  List.set dp i (List.set (dp.getD i []) j v)

/-- Allocation of `dp`: `rows` rows of `cols` zeros. -/
def makeTable (rows cols : Nat) : Table := List.replicate rows (List.replicate cols 0)

/-- Shape of the `dp` matrix: `rows` rows of `cols` cells. -/
def Table.Shaped (dp : Table) (rows cols : Nat) : Prop :=
  dp.length = rows ∧ ∀ r ∈ dp, r.length = cols

/-- Body of the inner loop of `editDistance` at cell `(i, j)`, `1 ≤ i`, `1 ≤ j`. -/
def cellUpdate (ra rb : Str) (dp : Table) (i j : Nat) : Table :=
  let cost : Int := if ra[i - 1]? ≠ rb[j - 1]? then 1 else 0
  let dp := dp.set i j (min3 (dp.get (i - 1) j + 1) (dp.get i (j - 1) + 1)
    (dp.get (i - 1) (j - 1) + cost))
  if i > 1 ∧ j > 1 ∧ ra[i - 1]? = rb[j - 2]? ∧ ra[i - 2]? = rb[j - 1]? then
    dp.set i j (min (dp.get i j) (dp.get (i - 2) (j - 2) + cost))
  else dp

/-- The filled matrix of `editDistance` (everything between the early exit and the final
comparison). -/
def editTable (ra rb : Str) : Table :=
  let la := ra.length
  let lb := rb.length
  let dp := makeTable (la + 1) (lb + 1)
  let dp := (List.range (la + 1)).foldl (fun dp i => dp.set i 0 (i : Int)) dp
  let dp := (List.range (lb + 1)).foldl (fun dp j => dp.set 0 j (j : Int)) dp
  (List.range' 1 la).foldl
    (fun dp i => (List.range' 1 lb).foldl (fun dp j => cellUpdate ra rb dp i j) dp) dp

/-- Go `editDistance`: Damerau-Levenshtein with early stop above `max`. -/
def editDistance (a b : Str) (max : Int) : Int :=
  let la := a.length
  let lb := b.length
  if abs ((la : Int) - (lb : Int)) > max then max + 1
  else
    let dp := editTable a b
    if dp.get la lb > max then max + 1 else dp.get la lb

/-! ## matcher.go: slot index -/

/-- Record `skillEntry`: a pool entry after preprocessing. -/
structure skillEntry where
  ID : Int
  RawFull : Str
  RawCore : Str
  NormFull : Str
  NormCore : Str
  RawLen : Int
  NormLen : Int
  FirstCharRaw : Str
  LastCharRaw : Str
  FirstCharNorm : Str
  LastCharNorm : Str
  deriving DecidableEq

/-- Go `map[string][]int`, read as a total function (`nil` for an absent key). -/
abbrev IdMap := Str → List Int

/-- Statement `m[k] = append(m[k], v)`. -/
def IdMap.append (m : IdMap) (k : Str) (v : Int) : IdMap :=
  fun q => if q = k then m q ++ [v] else m q

/-- Record `slotIndex`. -/
structure slotIndex where
  rawFullIndex : IdMap
  rawCoreIndex : IdMap
  normFullIndex : IdMap
  normCoreIndex : IdMap
  firstCharRaw : IdMap
  lastCharRaw : IdMap
  firstCharNorm : IdMap
  lastCharNorm : IdMap
  entries : List skillEntry

/-- The index `buildSlotIndices` starts a slot with: empty maps, no entries.  It is also
the zero value of `slotIndices` before the first build. -/
def emptySlotIndex : slotIndex :=
  { rawFullIndex := fun _ => [], rawCoreIndex := fun _ => [],
    normFullIndex := fun _ => [], normCoreIndex := fun _ => [],
    firstCharRaw := fun _ => [], lastCharRaw := fun _ => [],
    firstCharNorm := fun _ => [], lastCharNorm := fun _ => [],
    entries := [] }

/-- The `skillEntry` that `buildSlotIndices` computes for pool entry `s`.  The pool text is
never substituted: the normalised texts are the raw ones. -/
def mkEntry (isHan : Char → Bool) (matcherConfig : MatcherConfig) (s : SkillPool) :
    skillEntry :=
  let rawFull := cleanChinese isHan s.Chinese
  let rawCore := trimStopSuffix matcherConfig rawFull
  let normFull := rawFull
  let normCore := rawCore
  { ID := s.ID, RawFull := rawFull, RawCore := rawCore, NormFull := normFull,
    NormCore := normCore, RawLen := (rawFull.length : Int), NormLen := (normFull.length : Int),
    FirstCharRaw := firstChar rawFull, LastCharRaw := lastChar rawFull,
    FirstCharNorm := firstChar normFull, LastCharNorm := lastChar normFull }

/-- Body of the pool loop of `buildSlotIndices`: register pool entry `s` in `idx`. -/
def addEntry (isHan : Char → Bool) (matcherConfig : MatcherConfig) (idx : slotIndex)
    (s : SkillPool) : slotIndex :=
  let e := mkEntry isHan matcherConfig s
  let idx := if e.FirstCharRaw ≠ [] then
    { idx with firstCharRaw := idx.firstCharRaw.append e.FirstCharRaw s.ID } else idx
  let idx := if e.LastCharRaw ≠ [] then
    { idx with lastCharRaw := idx.lastCharRaw.append e.LastCharRaw s.ID } else idx
  let idx := if e.FirstCharNorm ≠ [] then
    { idx with firstCharNorm := idx.firstCharNorm.append e.FirstCharNorm s.ID } else idx
  let idx := if e.LastCharNorm ≠ [] then
    { idx with lastCharNorm := idx.lastCharNorm.append e.LastCharNorm s.ID } else idx
  { idx with
    entries := idx.entries ++ [e]
    rawFullIndex := idx.rawFullIndex.append e.RawFull s.ID
    rawCoreIndex := idx.rawCoreIndex.append e.RawCore s.ID
    normFullIndex := idx.normFullIndex.append e.NormFull s.ID
    normCoreIndex := idx.normCoreIndex.append e.NormCore s.ID }

/-- Go `getPoolBySlot`. -/
def getPoolBySlot (weaponDB : WeaponDatabase) (slot : Int) : List SkillPool :=
  if slot = 1 then weaponDB.SkillPools.Slot1
  else if slot = 2 then weaponDB.SkillPools.Slot2
  else if slot = 3 then weaponDB.SkillPools.Slot3
  else []

/-- One iteration of the outer loop of `buildSlotIndices`: the index of one pool. -/
def buildSlotIndex (isHan : Char → Bool) (matcherConfig : MatcherConfig)
    (pool : List SkillPool) : slotIndex :=
  pool.foldl (addEntry isHan matcherConfig) emptySlotIndex

/-- Go `buildSlotIndices`: the new value of the array `slotIndices`, position `i` holding
the index of slot `i + 1`. -/
def buildSlotIndices (isHan : Char → Bool) (matcherConfig : MatcherConfig)
    (weaponDB : WeaponDatabase) : List slotIndex :=
  (List.range 3).map
    (fun i => buildSlotIndex isHan matcherConfig (getPoolBySlot weaponDB ((i : Int) + 1)))

/-! ## matcher.go: the match cascade -/

/-- Stage 3 of `attemptMatch`: first entry, within the length window, whose full text
contains `cleaned`. -/
def substringFull (useNorm : Bool) (cleaned : Str) (cLen : Int) :
    List skillEntry → Option Int
  | [] => none
  | e :: rest =>
    let tFull := if useNorm then e.NormFull else e.RawFull
    let tLen := if useNorm then e.NormLen else e.RawLen
    if abs (tLen - cLen) > 2 then substringFull useNorm cleaned cLen rest
    else if Contains tFull cleaned then some e.ID
    else substringFull useNorm cleaned cLen rest

/-- Stage 4 of `attemptMatch`: first entry, within the length window, whose core text
contains the non-empty `core`. -/
def substringCore (useNorm : Bool) (core : Str) (coreLen : Int) :
    List skillEntry → Option Int
  | [] => none
  | e :: rest =>
    let tCore := if useNorm then e.NormCore else e.RawCore
    let tLen := if useNorm then e.NormLen else e.RawLen
    if abs (tLen - coreLen) > 2 then substringCore useNorm core coreLen rest
    else if core ≠ [] ∧ Contains tCore core then some e.ID
    else substringCore useNorm core coreLen rest

/-- Stage 5 of `attemptMatch`: a one-rune text that is the first, else the last, rune of
exactly one registered two-rune entry. -/
def singleChar (firstChar lastChar : IdMap) (cleaned : Str) (cLen : Int) : Option Int :=
  if cLen = 1 then
    match firstChar cleaned with
    | [id] => some id
    | _ =>
      match lastChar cleaned with
      | [id] => some id
      | _ => none
  else none

/-- The bound `maxEd` of stage 6 of `attemptMatch`: 2 for a cleaned text of at least four
runes, else 1. -/
def maxEdOf (cLen : Int) : Int := if cLen ≥ 4 then 2 else 1

/-- Body of the stage-6 loop of `attemptMatch` on the pair `(bestID, bestDist)`. -/
def editStep (useNorm : Bool) (cleaned : Str) (maxEd : Int) (best : Int × Int)
    (e : skillEntry) : Int × Int :=
  let tFull := if useNorm then e.NormFull else e.RawFull
  let dist := editDistance cleaned tFull maxEd
  if dist ≤ maxEd ∧ dist < best.2 then (e.ID, dist) else best

/-- Stage 6 of `attemptMatch`: bounded edit distance; `bestID = 0` means no hit. -/
def editFallback (useNorm : Bool) (cleaned : Str) (cLen : Int) (entries : List skillEntry) :
    Int × Bool :=
  let maxEd : Int := maxEdOf cLen
  let best := entries.foldl (editStep useNorm cleaned maxEd) (0, maxEd + 1)
  if best.1 ≠ 0 then (best.1, true) else (0, false)

/-- Go `attemptMatch` (the `idToName` argument only feeds the log). -/
def attemptMatch (phase : String) (slot : Int) (cleaned core : Str) (idx : slotIndex) :
    Int × Bool :=
  let useNorm := decide (phase = "norm")
  let fullIndex := if useNorm then idx.normFullIndex else idx.rawFullIndex
  let coreIndex := if useNorm then idx.normCoreIndex else idx.rawCoreIndex
  let firstChar := if useNorm then idx.firstCharNorm else idx.firstCharRaw
  let lastChar := if useNorm then idx.lastCharNorm else idx.lastCharRaw
  let cLen : Int := cleaned.length
  let coreLen : Int := core.length
  match fullIndex cleaned with
  | id :: _ => (id, true)
  | [] =>
  match coreIndex core with
  | id :: _ => (id, true)
  | [] =>
  match substringFull useNorm cleaned cLen idx.entries with
  | some id => (id, true)
  | none =>
  match substringCore useNorm core coreLen idx.entries with
  | some id => (id, true)
  | none =>
  match singleChar firstChar lastChar cleaned cLen with
  | some id => (id, true)
  | none => editFallback useNorm cleaned cLen idx.entries

/-- Go `matchSkillIDEnhanced`.  `none` is the run-time panic of `slotIndices[slot-1]` for a
slot outside 1..3; the pool is read for the log only. -/
def matchSkillIDEnhanced (isHan : Char → Bool) (matcherConfig : MatcherConfig)
    (slotIndices : List slotIndex) (slot : Int) (ocrText : Str) : Option (Int × Bool) :=
  if slot < 1 ∨ slot > 3 then none
  else
    match slotIndices[(slot - 1).toNat]? with
    | none => none
    | some idx =>
      let cleanedRaw := cleanChinese isHan ocrText
      if cleanedRaw = [] then some (0, false)
      else
        let coreRaw := trimStopSuffix matcherConfig cleanedRaw
        match attemptMatch "raw" slot cleanedRaw coreRaw idx with
        | (id, true) => some (id, true)
        | (_, false) =>
          let cleanedNorm := normalizeSimilar matcherConfig cleanedRaw
          let coreNorm := trimStopSuffix matcherConfig cleanedNorm
          match attemptMatch "norm" slot cleanedNorm coreNorm idx with
          | (id, true) => some (id, true)
          | (_, false) => some (0, false)

/-! ## Package state -/

/-- A box `[4]int{x, y, width, height}`. -/
structure Box where
  x : Int
  y : Int
  w : Int
  h : Int
  deriving DecidableEq

/-- The package-level variables of `types.go` and `matcher.go`.  `filteredSkillStats`,
`matchedCombinationSummary` and `weaponDataPath` only feed logs and file loading and are
left out.  `buildSlotIndicesOnce` is the done flag of the `sync.Once`. -/
structure State where
  weaponDB : WeaponDatabase
  targetSkillCombinations : List SkillCombination
  visitedCount : Int
  matchedCount : Int
  statsLogged : Bool
  currentCol : Int
  currentRow : Int
  maxItemsPerRow : Int
  firstRowSwipeDone : Bool
  finalLargeScanUsed : Bool
  currentSkills : Str × Str × Str
  rowBoxes : List Box
  rowIndex : Int
  matcherConfig : MatcherConfig
  buildSlotIndicesOnce : Bool
  slotIndices : List slotIndex

/-! ## matcher.go: MatchEssenceSkills -/

/-- The label loop of `MatchEssenceSkills`: label `i` is resolved in slot `i + 1`; the
first label that does not resolve ends the loop without a result. -/
def resolveLabels (isHan : Char → Bool) (matcherConfig : MatcherConfig)
    (slotIndices : List slotIndex) : Int → List Str → Option (List Int)
  | _, [] => some []
  | slot, skill :: rest =>
    match matchSkillIDEnhanced isHan matcherConfig slotIndices slot skill with
    | some (id, true) =>
      match resolveLabels isHan matcherConfig slotIndices (slot + 1) rest with
      | some ids => some (id :: ids)
      | none => none
    | _ => none

/-- Test of the combination loop of `MatchEssenceSkills`. -/
def comboMatches (ocrSkillIDs : List Int) (combination : SkillCombination) : Bool :=
  decide (combination.SkillIDs.length = 3 ∧
    ocrSkillIDs[0]? = combination.SkillIDs[0]? ∧
    ocrSkillIDs[1]? = combination.SkillIDs[1]? ∧
    ocrSkillIDs[2]? = combination.SkillIDs[2]?)

/-- Body of the combination loop of `MatchEssenceSkills` on
`(matchedWeapons, skillIDs, skillsChinese)`. -/
def comboStep (ocrSkillIDs : List Int) (acc : List WeaponData × List Int × List Str)
    (combination : SkillCombination) : List WeaponData × List Int × List Str :=
  if comboMatches ocrSkillIDs combination then
    let acc := if acc.1.length = 0 then
      (acc.1, combination.SkillIDs, combination.SkillsChinese) else acc
    (acc.1 ++ [combination.Weapon], acc.2.1, acc.2.2)
  else acc

/-- The call `buildSlotIndicesOnce.Do(buildSlotIndices)`: the first call builds the three
indices from the current pools and configuration, every later call does nothing. -/
def ensureBuilt (isHan : Char → Bool) (s : State) : State :=
  if s.buildSlotIndicesOnce then s
  else
    { s with buildSlotIndicesOnce := true
             slotIndices := buildSlotIndices isHan s.matcherConfig s.weaponDB }

/-- Go `MatchEssenceSkills`: `none` is the result `(nil, false)`.  The state changes only
through the one-time index build. -/
def MatchEssenceSkills (isHan : Char → Bool) (s : State) (ocrSkills : List Str) :
    Option SkillCombinationMatch × State :=
  if ocrSkills.length ≠ 3 then (none, s)
  else
    let s := ensureBuilt isHan s
    match resolveLabels isHan s.matcherConfig s.slotIndices 1 ocrSkills with
    | none => (none, s)
    | some ocrSkillIDs =>
      let acc := s.targetSkillCombinations.foldl (comboStep ocrSkillIDs) ([], [], [])
      if acc.1.length > 0 then
        (some { SkillIDs := acc.2.1, SkillsChinese := acc.2.2, Weapons := acc.1 }, s)
      else (none, s)

/-! ## actions.go: the grid-traversal callbacks -/

/-- What a callback hands back to the scheduler: its success flag, the last
`ctx.OverrideNext` target, and the target of the `NodeClick` task it ran. -/
structure Outcome where
  ok : Bool
  next : Option String
  click : Option Box
  deriving DecidableEq

/-- One recognition result handed to `RowCollect`, with what the collaborators answer for
it: whether it is a template match, its box, and the answer of the colour match run on
its sub-region (`colorErr`: the call failed; `colorHit`: a detail came back and hit). -/
structure ScanResult where
  isTemplateMatch : Bool
  box : Box
  colorErr : Bool
  colorHit : Bool
  deriving DecidableEq

/-- Argument of `EssenceFilterRowCollectAction.Run` and the answers of the controller.
`detailOk`: the recognition detail and its results are present and hit. -/
structure RowCollectArg where
  detailOk : Bool
  filtered : List ScanResult
  all : List ScanResult
  controllerOk : Bool
  imageOk : Bool
  CurrentTaskName : String
  deriving DecidableEq

/-- The result loop of `RowCollect`: the boxes appended to `rowBoxes`. -/
def collectBoxes : List ScanResult → List Box
  | [] => []
  | res :: rest =>
    if !res.isTemplateMatch then collectBoxes rest
    else
      let colorMatchROIW := res.box.w
      let colorMatchROIH := res.box.h - 90
      if colorMatchROIW ≤ 0 ∨ colorMatchROIH ≤ 0 then collectBoxes rest
      else if res.colorErr then collectBoxes rest
      else if res.colorHit then res.box :: collectBoxes rest
      else collectBoxes rest

/-- The `less` function given to `sort.Slice` in `RowCollect`: by y, then by x. -/
def boxLess (a b : Box) : Bool :=
  if a.y = b.y then decide (a.x < b.x) else decide (a.y < b.y)

/-- The call `sort.Slice(rowBoxes, less)`.  The library sort is not stable; the model
keeps boxes that compare equal in their scan order. -/
def sortBoxes (boxes : List Box) : List Box :=
  boxes.insertionSort (fun a b => boxLess b a = false)

/-- Go `EssenceFilterRowCollectAction.Run`. -/
def RowCollect (s : State) (arg : RowCollectArg) : State × Outcome :=
  if !arg.detailOk then (s, { ok := false, next := none, click := none })
  else
    let results := if arg.filtered.length = 0 then arg.all else arg.filtered
    if !arg.controllerOk then (s, { ok := false, next := none, click := none })
    else if !arg.imageOk then (s, { ok := false, next := none, click := none })
    else
      let s := { s with rowBoxes := sortBoxes (collectBoxes results) }
      let isFallbackScan := decide (arg.CurrentTaskName = "EssenceDetectFinal")
      if isFallbackScan && !s.finalLargeScanUsed then
        ({ s with finalLargeScanUsed := true },
          { ok := true, next := some "EssenceDetectFinal", click := none })
      else if decide ((s.rowBoxes.length : Int) > s.maxItemsPerRow) && !isFallbackScan then
        (s, { ok := true, next := some "EssenceFilterFinish", click := none })
      else if s.rowBoxes.length = 0 then
        (s, { ok := true, next := some "EssenceFilterFinish", click := none })
      else
        ({ s with rowIndex := 0 },
          { ok := true, next := some "EssenceFilterRowNextItem", click := none })

/-- Go `EssenceFilterRowNextItemAction.Run`.  Reading `rowBoxes[rowIndex]` at a negative
`rowIndex` would panic; `rowIndex` is only ever reset to 0 and incremented, and the model
answers failure without a state change there. -/
def RowNextItem (s : State) : State × Outcome :=
  if s.rowIndex ≥ (s.rowBoxes.length : Int) then
    if decide ((s.rowBoxes.length : Int) = s.maxItemsPerRow) && !s.finalLargeScanUsed then
      let nextSwipe := if !s.firstRowSwipeDone then "EssenceFilterSwipeFirst"
        else "EssenceFilterSwipeNext"
      let s := if !s.firstRowSwipeDone then { s with firstRowSwipeDone := true } else s
      ({ s with currentRow := s.currentRow + 1 },
        { ok := true, next := some nextSwipe, click := none })
    else (s, { ok := true, next := some "EssenceFilterFinish", click := none })
  else
    match (if s.rowIndex < 0 then none else s.rowBoxes[s.rowIndex.toNat]?) with
    | none => (s, { ok := false, next := none, click := none })
    | some box =>
      let clickingBox : Box := ⟨box.x + 10, box.y + 10, box.w - 20, box.h - 20⟩
      ({ s with visitedCount := s.visitedCount + 1, rowIndex := s.rowIndex + 1 },
        { ok := true, next := some "EssenceFilterCheckItemSlot1", click := some clickingBox })

/-- Argument of `EssenceFilterCheckItemAction.Run`: the parsed parameters (`Slot` is 0 and
`IsLast` false when the parameter is empty or does not parse) and the recognition
detail (`detailOk`: detail, results and JSON present and hit; `filtered`: the texts of
the filtered OCR results). -/
structure CheckItemArg where
  Slot : Int
  IsLast : Bool
  detailOk : Bool
  filtered : List Str
  deriving DecidableEq

/-- Assignment `currentSkills[i] = text` for `i` in 0..2. -/
def setSkill (cs : Str × Str × Str) (i : Int) (text : Str) : Str × Str × Str :=
  if i = 0 then (text, cs.2.1, cs.2.2)
  else if i = 1 then (cs.1, text, cs.2.2)
  else (cs.1, cs.2.1, text)

/-- Go `EssenceFilterCheckItemAction.Run`. -/
def CheckItem (s : State) (arg : CheckItemArg) : State × Outcome :=
  let s := if !s.statsLogged then { s with statsLogged := true } else s
  if arg.Slot < 1 ∨ arg.Slot > 3 then (s, { ok := false, next := none, click := none })
  else
    let s := if arg.Slot = 1 then { s with currentSkills := ([], [], []) } else s
    if !arg.detailOk then (s, { ok := false, next := none, click := none })
    else
      match arg.filtered with
      | [] => (s, { ok := false, next := none, click := none })
      | text :: _ =>
        if text = [] then (s, { ok := false, next := none, click := none })
        else
          let s := { s with currentSkills := setSkill s.currentSkills (arg.Slot - 1) text }
          if !arg.IsLast then (s, { ok := true, next := none, click := none })
          else if s.currentSkills.1 = [] ∨ s.currentSkills.2.1 = [] ∨ s.currentSkills.2.2 = []
          then (s, { ok := false, next := none, click := none })
          else (s, { ok := true, next := none, click := none })

/-- Go `EssenceFilterSkillDecisionAction.Run`. -/
def SkillDecision (isHan : Char → Bool) (s : State) : State × Outcome :=
  let skills := [s.currentSkills.1, s.currentSkills.2.1, s.currentSkills.2.2]
  let r := MatchEssenceSkills isHan s skills
  let s := r.2
  match r.1 with
  | some _ =>
    ({ s with matchedCount := s.matchedCount + 1, currentSkills := ([], [], []) },
      { ok := true, next := some "EssenceFilterLockItemLog", click := none })
  | none =>
    ({ s with currentSkills := ([], [], []) },
      { ok := true, next := some "EssenceFilterRowNextItem", click := none })

/-- Go `EssenceFilterFinishAction.Run`. -/
def Finish (s : State) : State × Outcome :=
  ({ s with
      targetSkillCombinations := []
      matchedCount := 0
      visitedCount := 0
      statsLogged := false
      currentCol := 1
      currentRow := 1
      finalLargeScanUsed := false
      firstRowSwipeDone := false
      rowBoxes := []
      rowIndex := 0 },
    { ok := true, next := none, click := none })

/-- Argument of `OCREssenceInventoryNumberAction.Run`, reduced to what decides its
outcome: `count` is the number parsed from the recognised text, `none` when the detail
is missing, the text is empty, or no number can be read. -/
structure InventoryArg where
  count : Option Int
  deriving DecidableEq

/-- Go `OCREssenceInventoryNumberAction.Run`; it touches no package variable. -/
def InventoryNumber (s : State) (arg : InventoryArg) : State × Outcome :=
  match arg.count with
  | none => (s, { ok := false, next := none, click := none })
  | some n =>
    if n ≤ 45 then (s, { ok := true, next := some "EssenceDetectFinal", click := none })
    else (s, { ok := true, next := none, click := none })

/-- Go `EssenceFilterTraceAction.Run`: logs only. -/
def Trace (s : State) : State × Outcome :=
  (s, { ok := true, next := none, click := none })

/-- The callbacks the scheduler can invoke inside a run, i.e. after
`EssenceFilterInitAction` and before `EssenceFilterFinishAction`, with their inputs. -/
inductive Callback where
  | rowCollect (arg : RowCollectArg)
  | rowNextItem
  | checkItem (arg : CheckItemArg)
  | skillDecision
  | inventoryNumber (arg : InventoryArg)
  | trace
  deriving DecidableEq

/-- One callback invocation. -/
def step (isHan : Char → Bool) (s : State) : Callback → State × Outcome
  | .rowCollect arg => RowCollect s arg
  | .rowNextItem => RowNextItem s
  | .checkItem arg => CheckItem s arg
  | .skillDecision => SkillDecision isHan s
  | .inventoryNumber arg => InventoryNumber s arg
  | .trace => Trace s

/-- The run of a callback sequence from state `s`: for each callback, in order, the
callback, the state it left and what it handed back. -/
def runTrace (isHan : Char → Bool) : State → List Callback → List (Callback × State × Outcome)
  | _, [] => []
  | s, cb :: rest =>
    let r := step isHan s cb
    (cb, r.1, r.2) :: runTrace isHan r.1 rest

/-- Whether a trace entry is a `RowCollect` call that took the branch triggering the
fallback full scan (the only branch of `RowCollect` that re-routes to
`EssenceDetectFinal`). -/
def isFallbackTrigger (t : Callback × State × Outcome) : Bool :=
  match t.1 with
  | .rowCollect _ => decide (t.2.2.next = some "EssenceDetectFinal")
  | _ => false

/-! ## The optimal-string-alignment distance, as the specification words it -/

/-- Restricted Damerau-Levenshtein (optimal string alignment) distance between the first
`i` runes of `a` and the first `j` runes of `b`, by the textbook recurrence: insertion,
deletion and substitution cost 1 each, and exchanging two adjacent runes costs 1. -/
def osa (a b : Str) : Nat → Nat → Nat
  | 0, j => j
  | i + 1, 0 => i + 1
  | 1, j + 1 =>
    Nat.min (Nat.min (osa a b 0 (j + 1) + 1) (osa a b 1 j + 1))
      (osa a b 0 j + (if a[0]? = b[j]? then 0 else 1))
  | i + 2, 1 =>
    Nat.min (Nat.min (osa a b (i + 1) 1 + 1) (osa a b (i + 2) 0 + 1))
      (osa a b (i + 1) 0 + (if a[i + 1]? = b[0]? then 0 else 1))
  | i + 2, j + 2 =>
    let d := Nat.min (Nat.min (osa a b (i + 1) (j + 2) + 1) (osa a b (i + 2) (j + 1) + 1))
      (osa a b (i + 1) (j + 1) + (if a[i + 1]? = b[j + 1]? then 0 else 1))
    if a[i + 1]? = b[j]? ∧ a[i]? = b[j + 1]? then Nat.min d (osa a b i j + 1) else d
termination_by i j => i + j

/-- The distance of the specification between two whole texts. -/
def osaDistance (a b : Str) : Nat := osa a b a.length b.length

/-- Invariant of the fill loops of `editDistance`: the matrix has its shape, and the border
cells and every cell before `(i, j)` in row-major order hold the specified distance of the
corresponding prefixes. -/
def Table.Filled (a b : Str) (dp : Table) (i j : Nat) : Prop :=
  dp.Shaped (a.length + 1) (b.length + 1) ∧
    ∀ i2 j2, i2 ≤ a.length → j2 ≤ b.length →
      (i2 = 0 ∨ j2 = 0 ∨ i2 < i ∨ (i2 = i ∧ j2 < j)) →
      dp.get i2 j2 = ((osa a b i2 j2 : Nat) : Int)

/-! ## Notions used to state the single-edit property -/

/-- Text `c` arises from text `t` by one single-rune substitution, insertion or deletion. -/
def SingleEdit (t c : Str) : Prop :=
  ∃ (u v : Str) (x y : Char),
    (t = u ++ x :: v ∧ c = u ++ y :: v) ∨
    (t = u ++ v ∧ c = u ++ y :: v) ∨
    (t = u ++ x :: v ∧ c = u ++ v)

/-- Stages 1 to 5 of `attemptMatch` all miss on `(cleaned, core)`. -/
def earlyMiss (useNorm : Bool) (cleaned core : Str) (idx : slotIndex) : Prop :=
  (if useNorm then idx.normFullIndex else idx.rawFullIndex) cleaned = [] ∧
  (if useNorm then idx.normCoreIndex else idx.rawCoreIndex) core = [] ∧
  substringFull useNorm cleaned (cleaned.length : Int) idx.entries = none ∧
  substringCore useNorm core (core.length : Int) idx.entries = none ∧
  singleChar (if useNorm then idx.firstCharNorm else idx.firstCharRaw)
    (if useNorm then idx.lastCharNorm else idx.lastCharRaw) cleaned (cleaned.length : Int) = none

/-- The pair `(bestID, bestDist)` of stage 6 holds the identifier of a pool entry whose
full text is within the bound of `cleaned`. -/
def BestHit (isHan : Char → Bool) (pool : List SkillPool) (cleaned : Str) (maxEd : Int)
    (best : Int × Int) : Prop :=
  best.2 ≤ maxEd ∧ ∃ f ∈ pool, f.ID = best.1 ∧
    editDistance cleaned (cleanChinese isHan f.Chinese) maxEd ≤ maxEd

/-! ## types.go: filter presets -/

/-- Record `FilterConfig`: an empty `TypeIDs` means no restriction on the type. -/
structure FilterConfig where
  TypeIDs : List Int
  MinRarity : Int
  MaxRarity : Int
  deriving DecidableEq

/-- Record `FilterPreset`. -/
structure FilterPreset where
  Name : String
  Label : String
  Filter : FilterConfig
  deriving DecidableEq

/-! ## Functions of the package whose files are not among the sources -/

/-- Modelled from the spec: the test of `FilterWeaponsByConfig` (file `filter.go` is not
among the sources).  "An item passes iff (type-id set empty OR its type ∈ set) AND
rarity ∈ [min, max]." -/
def weaponPasses (cfg : FilterConfig) (w : WeaponData) : Bool :=
  (decide (cfg.TypeIDs = []) || decide (w.TypeID ∈ cfg.TypeIDs)) &&
    (decide (cfg.MinRarity ≤ w.Rarity) && decide (w.Rarity ≤ cfg.MaxRarity))

/-- Modelled from the spec: `FilterWeaponsByConfig` (file `filter.go` is not among the
sources), the contract `select(criteria)` of the Filter Engine: one pass over the catalog
items that keeps, in catalog order, the items passing the test; no error condition. -/
def FilterWeaponsByConfig (weaponDB : WeaponDatabase) (cfg : FilterConfig) : List WeaponData :=
  weaponDB.Weapons.foldl (fun acc w => if weaponPasses cfg w then acc ++ [w] else acc) []

/-- Modelled from the spec: `ExtractSkillCombinations` (its file is not among the sources):
one target combination per selected item, "its three canonical attribute identifiers plus
their display labels" and the owning item. -/
def ExtractSkillCombinations (weapons : List WeaponData) : List SkillCombination :=
  weapons.map (fun w => { Weapon := w, SkillsChinese := w.SkillsChinese, SkillIDs := w.SkillIDs })

/-! ## actions.go: Init -/

/-- Argument of `EssenceFilterInitAction.Run` and what the loaders answer: `paramOk` tells
whether the parameter parsed, and each `Option` is what `LoadMatcherConfig`,
`LoadWeaponDatabase` and `LoadPresets` read (`none`: the loader returned an error). -/
structure InitArg where
  paramOk : Bool
  PresetName : String
  matcherConfig : Option MatcherConfig
  weaponDB : Option WeaponDatabase
  presets : Option (List FilterPreset)
  deriving DecidableEq

/-- The call `sort.Slice(filteredWeapons, ...)` of Init: by descending rarity.  The library
sort is not stable; the model keeps weapons of equal rarity in their order. -/
def sortByRarity (weapons : List WeaponData) : List WeaponData :=
  weapons.insertionSort (fun a b => a.Rarity ≥ b.Rarity)

/-- Go `EssenceFilterInitAction.Run`.  The loaders are not among the sources; a loader that
succeeds is taken to store what it read in its package variable (`matcherConfig`,
`weaponDB`), a loader that fails to leave it as it was.  The call
`buildFilteredSkillStats(filteredWeapons)` fills the log statistics only and is left out;
it indexes a three-element array by the position of each skill identifier, so it panics on
a filtered weapon with more than three skill identifiers, a case in which the model still
answers success. -/
def Init (s : State) (arg : InitArg) : State × Outcome :=
  if !arg.paramOk then (s, { ok := false, next := none, click := none })
  else
    match arg.matcherConfig with
    | none => (s, { ok := false, next := none, click := none })
    | some mc =>
      let s := { s with matcherConfig := mc }
      match arg.weaponDB with
      | none => (s, { ok := false, next := none, click := none })
      | some db =>
        let s := { s with weaponDB := db }
        match arg.presets with
        | none => (s, { ok := false, next := none, click := none })
        | some presets =>
          match presets.find? (fun p => decide (p.Name = arg.PresetName)) with
          | none => (s, { ok := false, next := none, click := none })
          | some selectedPreset =>
            let filteredWeapons := FilterWeaponsByConfig s.weaponDB selectedPreset.Filter
            let filteredWeapons := sortByRarity filteredWeapons
            ({ s with
                targetSkillCombinations := ExtractSkillCombinations filteredWeapons
                visitedCount := 0
                matchedCount := 0
                currentCol := 1
                currentRow := 1
                maxItemsPerRow := 9
                firstRowSwipeDone := false
                finalLargeScanUsed := false
                statsLogged := false },
              { ok := true, next := none, click := none })

/-! ## Runs and what they collect -/

/-- The state a callback sequence leaves when run from `s`. -/
def runState (isHan : Char → Bool) (s : State) (cbs : List Callback) : State :=
  cbs.foldl (fun st cb => (step isHan st cb).1) s

/-- The number of boxes a `RowCollect` call accepts into `rowBoxes`: the boxes its result
loop appends, and none when the call returns before that loop. -/
def acceptedBoxes (arg : RowCollectArg) : Nat :=
  if !arg.detailOk || !arg.controllerOk || !arg.imageOk then 0
  else (collectBoxes (if arg.filtered.length = 0 then arg.all else arg.filtered)).length

/-- The sum, over the `RowCollect` calls of a callback sequence, of the boxes accepted. -/
def collectedSum : List Callback → Nat
  | [] => 0
  | .rowCollect arg :: rest => acceptedBoxes arg + collectedSum rest
  | _ :: rest => collectedSum rest

/-- The boxes of `rowBoxes` that `RowNextItem` has not clicked yet: those from position
`rowIndex` on. -/
def pendingBoxes (s : State) : Nat :=
  if s.rowIndex < 0 then 0 else s.rowBoxes.length - s.rowIndex.toNat

/-- The pair `best` names the first closest entry of `es`: an entry within the bound such
that the entries before it are farther from `cleaned` and the entries after it are not
nearer, with that entry's identifier and distance. -/
def FirstClosest (cleaned : Str) (maxEd : Int) (es : List skillEntry) (best : Int × Int) :
    Prop :=
  ∃ (pre : List skillEntry) (e : skillEntry) (post : List skillEntry),
    es = pre ++ e :: post ∧
    best = (e.ID, editDistance cleaned e.RawFull maxEd) ∧
    editDistance cleaned e.RawFull maxEd ≤ maxEd ∧
    (∀ x ∈ pre, editDistance cleaned e.RawFull maxEd < editDistance cleaned x.RawFull maxEd) ∧
    (∀ x ∈ post, editDistance cleaned e.RawFull maxEd ≤ editDistance cleaned x.RawFull maxEd)

/-! ## Notions used to state the traversal properties -/

/-- The order "top to bottom, then left to right" on boxes: ascending y, and ascending x
among boxes of equal y. -/
def boxOrdered (a b : Box) : Prop := a.y < b.y ∨ (a.y = b.y ∧ a.x ≤ b.x)

/-- Whether a callback is a `RowCollect` call. -/
def isRowCollect : Callback → Bool
  | .rowCollect _ => true
  | _ => false

/-- Whether a callback is a `RowNextItem` call. -/
def isRowNextItem : Callback → Bool
  | .rowNextItem => true
  | _ => false

/-- The swipe step an outcome requests, if it requests one. -/
def swipeOf (o : Outcome) : Option String :=
  match o.next with
  | some n =>
    if n = "EssenceFilterSwipeFirst" ∨ n = "EssenceFilterSwipeNext" then some n else none
  | none => none

/-- The swipe steps requested along a run, in order. -/
def swipeRequests (trace : List (Callback × State × Outcome)) : List String :=
  trace.filterMap (fun t => swipeOf t.2.2)

/-- For each `RowNextItem` call of a run, in order, whether it issued a click. -/
def clickFlags (trace : List (Callback × State × Outcome)) : List Bool :=
  trace.filterMap (fun t => if isRowNextItem t.1 then some t.2.2.click.isSome else none)

/-- A `RowNextItem` call that leaves the row: no click, and a swipe or Finish requested. -/
def leavesRow (o : Outcome) : Prop :=
  o.click = none ∧ (o.next = some "EssenceFilterSwipeFirst" ∨
    o.next = some "EssenceFilterSwipeNext" ∨ o.next = some "EssenceFilterFinish")

/-- A `RowNextItem` call that clicks a box and goes on to the inspection of slot 1. -/
def clicksItem (o : Outcome) : Prop :=
  o.click ≠ none ∧ o.next = some "EssenceFilterCheckItemSlot1"

/-! ## Notions used to state the properties of the built index and of the counters -/

/-- The normalised side of an index repeats its raw side: the four normalised lookups
are the raw ones and every entry carries its raw texts and length as normalised ones. -/
def slotIndex.NormIsRaw (idx : slotIndex) : Prop :=
  idx.normFullIndex = idx.rawFullIndex ∧ idx.normCoreIndex = idx.rawCoreIndex ∧
    idx.firstCharNorm = idx.firstCharRaw ∧ idx.lastCharNorm = idx.lastCharRaw ∧
    ∀ e ∈ idx.entries, e.NormFull = e.RawFull ∧ e.NormCore = e.RawCore ∧ e.NormLen = e.RawLen

/-- Whether an entry is one that stage 3 accepts for the one-rune text `[c]`: at most three
runes long and containing `c`. -/
def shortWith (c : Char) (e : skillEntry) : Bool :=
  decide (e.RawLen ≤ 3) && Contains e.RawFull [c]

/-- Whether every `SkillDecision` call of a trace comes after a clicking `RowNextItem`
call made since the previous `SkillDecision` call; `clicked` tells whether such a click is
pending where the trace starts. -/
def clickedBefore : Bool → List (Callback × State × Outcome) → Bool
  | _, [] => true
  | clicked, (.skillDecision, _, _) :: rest => clicked && clickedBefore false rest
  | clicked, (.rowNextItem, _, o) :: rest => clickedBefore (clicked || o.click.isSome) rest
  | clicked, (_, _, _) :: rest => clickedBefore clicked rest

/-! ## Standard-library functions used by the other packages -/

/-- Class `\d` of Go regular expressions: the ASCII digits. -/
def isDigit (c : Char) : Bool := decide (48 ≤ c.toNat ∧ c.toNat ≤ 57)

/-- Class `[a-zA-Z0-9]`. -/
def isAlnum (c : Char) : Bool :=
  decide ((97 ≤ c.toNat ∧ c.toNat ≤ 122) ∨ (65 ≤ c.toNat ∧ c.toNat ≤ 90)) || isDigit c

/-- Go `unicode.IsSpace`, the test of `strings.TrimSpace`. -/
def isSpace (c : Char) : Bool :=
  decide (c.toNat ∈ [0x09, 0x0A, 0x0B, 0x0C, 0x0D, 0x20, 0x85, 0xA0, 0x1680, 0x2028, 0x2029,
    0x202F, 0x205F, 0x3000]) || decide (0x2000 ≤ c.toNat ∧ c.toNat ≤ 0x200A)

/-- Go `strings.TrimSpace`. -/
def TrimSpace (s : Str) : Str :=
  ((s.dropWhile isSpace).reverse.dropWhile isSpace).reverse

/-- Scan of `regexp.FindAllString(text, -1)` for the pattern `\d+`: `cur` is the run of
digits read so far; a run ends at the first rune that is not a digit, or with the text. -/
def digitRunsScan : Str → Str → List Str
  | [], cur => if cur = [] then [] else [cur]
  | c :: rest, cur =>
    if isDigit c then digitRunsScan rest (cur ++ [c])
    else if cur = [] then digitRunsScan rest []
    else cur :: digitRunsScan rest []

/-- The call `regexp.MustCompile("\\d+").FindAllString(text, -1)`: the maximal runs of
ASCII digits, from left to right. -/
def digitRuns (text : Str) : List Str := digitRunsScan text []

/-- Largest value of a Go `int` (64 bits wide on the platforms the service is built for). -/
def maxInt : Int := 9223372036854775807

/-- Value of one ASCII digit. -/
def digitVal (c : Char) : Int := (c.toNat : Int) - 48

/-- The accumulation loop of `strconv.Atoi`: `n = n*10 + digit`, from the left. -/
def digitsValue (s : Str) : Int := s.foldl (fun n c => n * 10 + digitVal c) 0

/-- Go `strconv.Atoi` on a string of ASCII digits, which is all it is given here (signs
are not modelled): the decimal value, and `none` for the error it reports on an empty
string, on a rune that is not a digit, or on a value above `maxInt`. -/
def Atoi (s : Str) : Option Int :=
  if s = [] ∨ s.all isDigit = false then none
  else if digitsValue s ≤ maxInt then some (digitsValue s) else none

/-- Decimal value of a string of digits as a positional numeral, the way the specification
words it: the last digit counts ones, the one before it tens, and so on. -/
def decimalValue (s : Str) : Nat :=
  Nat.ofDigits 10 (s.reverse.map (fun c => c.toNat - 48))

/-! ## actions.go: the inventory count, from the recognised text -/

/-- The part of `OCREssenceInventoryNumberAction.Run` that reads the count.  `detail` is
the text of the first filtered recognition result, `none` when the detail, its results or
the filtered list are missing; the answer `none` is the return of `false`. -/
def inventoryCount (detail : Option Str) : Option Int :=
  match detail with
  | none => none
  | some raw =>
    let text := TrimSpace raw
    if text = [] then none
    else
      match digitRuns text with
      | [] => none
      | nStr :: _ => Atoi nStr

/-- Go `OCREssenceInventoryNumberAction.Run` on the recognised text. -/
def OCREssenceInventoryNumber (s : State) (detail : Option Str) : State × Outcome :=
  InventoryNumber s ⟨inventoryCount detail⟩

/-! ## resell/Resell.go -/

/-- Go `extractNumbersFromText`: all digit runs of the text, concatenated and parsed. -/
def extractNumbersFromText (text : Str) : Int × Bool :=
  let runs := digitRuns text
  if runs.length > 0 then
    let digitsOnly := runs.foldl (fun acc run => acc ++ run) []
    match Atoi digitsOnly with
    | some num => (num, true)
    | none => (0, false)
  else (0, false)

/-- Record `ProfitRecord`. -/
structure ProfitRecord where
  Row : Int
  Col : Int
  CostPrice : Int
  SalePrice : Int
  Profit : Int
  deriving DecidableEq

/-- The record the scan loop of `ResellInitAction.Run` appends for the item in row
`rowIdx + 1` at ROI offset `currentROIX`, with the two prices it read. -/
def scanRecord (rowIdx currentROIX costPrice salePrice : Int) : ProfitRecord :=
  { Row := rowIdx + 1, Col := Int.tdiv (currentROIX - 72) 150 + 1, CostPrice := costPrice,
    SalePrice := salePrice, Profit := salePrice - costPrice }

/-- The variable `maxProfit` of `ResellInitAction.Run` after the scan loop: it starts at 0
and is raised by every appended record with a larger profit. -/
def trackMaxProfit (records : List ProfitRecord) : Int :=
  records.foldl (fun maxProfit record =>
    if record.Profit > maxProfit then record.Profit else maxProfit) 0

/-- The search loop of `ResellInitAction.Run`: the first record whose profit equals
`maxProfit`; `none` stands for `maxProfitIdx = -1`. -/
def findMaxRecord (maxProfit : Int) (records : List ProfitRecord) : Option ProfitRecord :=
  records.find? (fun record => decide (record.Profit = maxProfit))

/-- The task name built by `fmt.Sprintf("ResellSelectProductRow%dCol%d", row, col)`. -/
def selectTaskName (row col : Int) : String :=
  "ResellSelectProductRow" ++ toString row ++ "Col" ++ toString col

/-- What `ResellInitAction.Run` does after its scan loop. -/
structure ResellOutcome where
  ok : Bool
  selected : Option ProfitRecord
  next : Option String
  deriving DecidableEq

/-- Go `ResellInitAction.Run` from the end of the scan loop on: `records` are the records
the loop appended, in scan order.  The parameter and the controller are present. -/
def ResellInit (MinimumProfit : Int) (records : List ProfitRecord) : ResellOutcome :=
  let maxProfit := trackMaxProfit records
  match findMaxRecord maxProfit records with
  | some maxRecord =>
    if maxRecord.Profit ≥ MinimumProfit then
      { ok := true, selected := some maxRecord,
        next := some (selectTaskName maxRecord.Row maxRecord.Col) }
    else { ok := true, selected := some maxRecord, next := none }
  | none => { ok := true, selected := none, next := none }

/-! ## importtask/blueprints.go -/

/-- A match of the pattern `EF[a-zA-Z0-9]+` that starts at the head of the text: the
longest one, as the repetition is greedy. -/
def codeAt : Str → Option Str
  | c1 :: c2 :: rest =>
    if c1 = 'E' ∧ c2 = 'F' ∧ rest.takeWhile isAlnum ≠ [] then
      some (c1 :: c2 :: rest.takeWhile isAlnum)
    else none
  | _ => none

/-- Scan of `regexp.FindAllString(text, -1)` for the pattern `EF[a-zA-Z0-9]+`: leftmost
matches that do not overlap; `skip` counts the runes of a match still to be passed over. -/
def codeScan : Str → Nat → List Str
  | [], _ => []
  | _ :: rest, skip + 1 => codeScan rest skip
  | c :: rest, 0 =>
    match codeAt (c :: rest) with
    | some code => code :: codeScan rest (code.length - 1)
    | none => codeScan rest 0

/-- Go `parseBlueprintCodes`. -/
def parseBlueprintCodes (text : Str) : List Str := codeScan text 0

/-- What a blueprint callback hands back: its success flag, the text it posted to the
controller, and whether it asked the tasker to stop. -/
structure BlueprintOutcome where
  ok : Bool
  input : Option Str
  stop : Bool
  deriving DecidableEq

/-- Go `ImportBluePrintsInitTextAction.Run` on the queue `blueprintCodes`; `param` is the
text of the parsed parameter, `none` when the parameter does not parse. -/
def ImportBluePrintsInitText (blueprintCodes : List Str) (param : Option Str) :
    List Str × BlueprintOutcome :=
  match param with
  | none => (blueprintCodes, { ok := false, input := none, stop := false })
  | some text =>
    let codes := parseBlueprintCodes text
    if codes.length = 0 then (blueprintCodes, { ok := false, input := none, stop := false })
    else (codes, { ok := true, input := none, stop := false })

/-- Go `ImportBluePrintsFinishAction.Run`. -/
def ImportBluePrintsFinish (blueprintCodes : List Str) : List Str × BlueprintOutcome :=
  if blueprintCodes.length = 0 then
    (blueprintCodes, { ok := true, input := none, stop := true })
  else (blueprintCodes, { ok := true, input := none, stop := false })

/-- Go `ImportBluePrintsEnterCodeAction.Run`. -/
def ImportBluePrintsEnterCode (blueprintCodes : List Str) : List Str × BlueprintOutcome :=
  match blueprintCodes with
  | [] => ([], { ok := false, input := none, stop := false })
  | code :: rest => (rest, { ok := true, input := some code, stop := false })

/-- The outcomes of `k` successive `ImportBluePrintsEnterCodeAction` calls, and the queue
they leave. -/
def enterCodes : Nat → List Str → List Str × List BlueprintOutcome
  | 0, queue => (queue, [])
  | k + 1, queue =>
    let r := ImportBluePrintsEnterCode queue
    let t := enterCodes k r.1
    (t.1, r.2 :: t.2)

/-! ## realtime/autofight.go -/

/-- The two package variables the skill rotation uses. -/
structure AutoFight where
  autoFightCharacterCount : Int
  autoFightSkillLastIndex : Int
  deriving DecidableEq

/-- Go `RealTimeAutoFightEntryRecognition.Run`, reduced to what it does to the two
variables: `found` is the number of character slots of the last template match, `none`
when one of the recognitions before it misses or its detail does not parse. -/
def RealTimeAutoFightEntryRecognition (s : AutoFight) (found : Option Nat) :
    AutoFight × Bool :=
  match found with
  | none => (s, false)
  | some n => ({ autoFightCharacterCount := (n : Int), autoFightSkillLastIndex := 0 }, true)

/-- Go `RealTimeAutoFightSkillAction.Run`: the new variables and the key code posted to
the controller, `none` when no key is pressed.  The action always returns `true`. -/
def RealTimeAutoFightSkillAction (s : AutoFight) : AutoFight × Option Int :=
  let count := s.autoFightCharacterCount
  if count = 0 ∨ count > 4 then (s, none)
  else
    let keycode : Int :=
      if count = 1 then 49 else 50 + Int.tmod s.autoFightSkillLastIndex (count - 1)
    let s := if count > 1 then
      { s with autoFightSkillLastIndex := Int.tmod (s.autoFightSkillLastIndex + 1) (count - 1) }
      else s
    (s, some keycode)

/-- The key codes of `k` successive `RealTimeAutoFightSkillAction` calls, and the
variables they leave. -/
def skillActions : Nat → AutoFight → AutoFight × List (Option Int)
  | 0, s => (s, [])
  | k + 1, s =>
    let r := RealTimeAutoFightSkillAction s
    let t := skillActions k r.1
    (t.1, r.2 :: t.2)

/-! ## Notion used to state which entry a corrupted text resolves to -/

/-- Whether one of the six stages of the raw pass of `attemptMatch` accepts entry `e` for
the pair `(cleaned, core)`: the test each stage applies to an entry, in stage order. -/
def stageAccepts (cleaned core : Str) (e : skillEntry) : Bool :=
  decide (e.RawFull = cleaned) || decide (e.RawCore = core) ||
    (decide (¬ abs (e.RawLen - (cleaned.length : Int)) > 2) && Contains e.RawFull cleaned) ||
    (decide (¬ abs (e.RawLen - (core.length : Int)) > 2) && decide (core ≠ []) &&
      Contains e.RawCore core) ||
    (decide ((cleaned.length : Int) = 1) &&
      (decide (e.FirstCharRaw = cleaned) || decide (e.LastCharRaw = cleaned))) ||
    decide (editDistance cleaned e.RawFull (maxEdOf (cleaned.length : Int))
      ≤ maxEdOf (cleaned.length : Int))

/-! ## Concrete data used in the examples below -/

/-- The CJK Unified Ideographs block U+4E00..U+9FA5, which belongs to `unicode.Han`:
the Han test used on the concrete texts of the examples. -/
def hanBlock (c : Char) : Bool := decide (0x4E00 ≤ c.toNat ∧ c.toNat ≤ 0x9FA5)

/-- Matcher configuration with the single stop-suffix "之力" and no substitution. -/
def cfgZhiLi : MatcherConfig :=
  { SimilarWordMap := [], SuffixStopwords := ["之力".toList] }

/-- Matcher configuration listing the stop-suffix "力" before "之力". -/
def cfgTwoSuffixes : MatcherConfig :=
  { SimilarWordMap := [], SuffixStopwords := ["力".toList, "之力".toList] }

/-- Matcher configuration listing the stop-suffix "的" before "之力". -/
def cfgDeZhiLi : MatcherConfig :=
  { SimilarWordMap := [], SuffixStopwords := ["的".toList, "之力".toList] }

/-- Database whose only non-empty pool is the given slot-1 pool. -/
def dbOfSlot1 (pool : List SkillPool) : WeaponDatabase :=
  { SkillPools := { Slot1 := pool, Slot2 := [], Slot3 := [] }, Weapons := [] }

/-- The pool of the scenario of the specification. -/
def poolScenario : List SkillPool := [⟨1, "", "强击".toList⟩, ⟨2, "", "守护".toList⟩]

/-- A pool in which two entries with different identifiers carry the same text. -/
def poolSameText : List SkillPool := [⟨1, "", "强击".toList⟩, ⟨2, "", "强击".toList⟩]

/-- A pool holding both a text with the stop-suffix and the text without it. -/
def poolWithAndWithout : List SkillPool :=
  [⟨1, "", "强击之力".toList⟩, ⟨2, "", "强击".toList⟩]

/-- A pool with the single entry "强击之力". -/
def poolOneSuffixed : List SkillPool := [⟨1, "", "强击之力".toList⟩]

/-- A pool with two four-rune texts that differ in their last rune. -/
def poolNeighbours : List SkillPool :=
  [⟨1, "", "甲乙丙己".toList⟩, ⟨2, "", "甲乙丙丁".toList⟩]

/-- A pool with the single four-rune entry "甲乙丙丁". -/
def poolOneLong : List SkillPool := [⟨7, "", "甲乙丙丁".toList⟩]

/-- Two weapons that share the skill triple (1, 1, 1), and a third with another triple. -/
def weaponA : WeaponData :=
  { InternalID := "a", ChineseName := "甲".toList, TypeID := 1, Rarity := 6,
    SkillIDs := [1, 1, 1], SkillsChinese := ["强击".toList, "强击".toList, "强击".toList] }

/-- Second weapon with the triple (1, 1, 1). -/
def weaponB : WeaponData :=
  { InternalID := "b", ChineseName := "乙".toList, TypeID := 2, Rarity := 5,
    SkillIDs := [1, 1, 1], SkillsChinese := ["强击".toList, "强击".toList, "强击".toList] }

/-- A weapon with the triple (2, 1, 1). -/
def weaponC : WeaponData :=
  { InternalID := "c", ChineseName := "丙".toList, TypeID := 1, Rarity := 4,
    SkillIDs := [2, 1, 1], SkillsChinese := ["守护".toList, "强击".toList, "强击".toList] }

/-- A target combination owned by weapon `w`, carrying the weapon's own triple and labels. -/
def comboOf (w : WeaponData) : SkillCombination :=
  { Weapon := w, SkillsChinese := w.SkillsChinese, SkillIDs := w.SkillIDs }

/-- A state at the start of a run: the scenario's pool in all three slots, three target
combinations, indices not built yet. -/
def stateScenario : State :=
  { weaponDB := { SkillPools := { Slot1 := poolScenario, Slot2 := poolScenario,
                                  Slot3 := poolScenario },
                  Weapons := [weaponA, weaponC, weaponB] }
    targetSkillCombinations := [comboOf weaponA, comboOf weaponC, comboOf weaponB]
    visitedCount := 0
    matchedCount := 0
    statsLogged := false
    currentCol := 1
    currentRow := 1
    maxItemsPerRow := 9
    firstRowSwipeDone := false
    finalLargeScanUsed := false
    currentSkills := ([], [], [])
    rowBoxes := []
    rowIndex := 0
    matcherConfig := cfgZhiLi
    buildSlotIndicesOnce := false
    slotIndices := [emptySlotIndex, emptySlotIndex, emptySlotIndex] }

/-- Ten recognition results, each a template match whose colour check hits. -/
def tenResults : List ScanResult :=
  (List.range 10).map (fun i => ⟨true, ⟨(i : Int) * 100, 0, 100, 120⟩, false, true⟩)

/-- A `RowCollect` call outside the fallback pass that sees the ten results. -/
def argTenBoxes : RowCollectArg :=
  { detailOk := true, filtered := tenResults, all := [], controllerOk := true,
    imageOk := true, CurrentTaskName := "EssenceFilterRowCollect" }

/-- A `RowCollect` call outside the fallback pass that sees the first two results. -/
def argTwoBoxes : RowCollectArg :=
  { detailOk := true, filtered := tenResults.take 2, all := [], controllerOk := true,
    imageOk := true, CurrentTaskName := "EssenceFilterRowCollect" }

/-- A fourth weapon, of rarity 6. -/
def weaponD : WeaponData :=
  { InternalID := "d", ChineseName := "丁".toList, TypeID := 3, Rarity := 6,
    SkillIDs := [2, 2, 2], SkillsChinese := ["守护".toList, "守护".toList, "守护".toList] }

/-- A catalog with items of rarity 4, 5, 6, 6 (in catalog order 丙, 乙, 甲, 丁). -/
def dbFourWeapons : WeaponDatabase :=
  { SkillPools := { Slot1 := poolScenario, Slot2 := poolScenario, Slot3 := poolScenario },
    Weapons := [weaponC, weaponB, weaponA, weaponD] }

/-- The criteria of the scenario: no type restriction, rarity between 5 and 6. -/
def criteriaFiveSix : FilterConfig := { TypeIDs := [], MinRarity := 5, MaxRarity := 6 }

/-- An Init call in which every loader succeeds and the preset "p" is found. -/
def initArgScenario : InitArg :=
  { paramOk := true, PresetName := "p", matcherConfig := some cfgZhiLi,
    weaponDB := some dbFourWeapons, presets := some [⟨"p", "P", criteriaFiveSix⟩] }

/-- The state of a run that is stopped without reaching Finish: after Init it collected
two boxes, clicked the first one and stored the first label of that item. -/
def stateLeftover : State :=
  runState hanBlock (Init stateScenario initArgScenario).1
    [Callback.rowCollect argTwoBoxes, Callback.rowNextItem,
      Callback.checkItem ⟨1, false, true, ["强击".toList]⟩]

/-- A pool whose single entry has the identifier 0. -/
def poolZeroId : List SkillPool := [⟨0, "", "甲乙丙丁".toList⟩]

/-- A pool whose single entry ends with the stop-suffix "之力". -/
def poolLongSuffixed : List SkillPool := [⟨1, "", "甲乙丙之力".toList⟩]

/-- Matcher configuration listing the stop-suffix "之力" before "力": the list of
`cfgTwoSuffixes` in the other order. -/
def cfgTwoSuffixesSwapped : MatcherConfig :=
  { SimilarWordMap := [], SuffixStopwords := ["之力".toList, "力".toList] }

/-- A substitution table with the two overlapping pairs 甲 → 天地人和 and
天地人和 → 春夏秋冬, iterated in this order. -/
def cfgOverlapFirst : MatcherConfig :=
  { SimilarWordMap := [("甲".toList, "天地人和".toList), ("天地人和".toList, "春夏秋冬".toList)],
    SuffixStopwords := [] }

/-- The same substitution table, iterated in the other order. -/
def cfgOverlapSecond : MatcherConfig :=
  { SimilarWordMap := [("天地人和".toList, "春夏秋冬".toList), ("甲".toList, "天地人和".toList)],
    SuffixStopwords := [] }

/-- A pool holding the two replacement texts of the overlapping table. -/
def poolSeasons : List SkillPool :=
  [⟨1, "", "天地人和".toList⟩, ⟨2, "", "春夏秋冬".toList⟩]

/-- A `RowCollect` call outside the fallback pass whose only candidate fails the colour
check: no box is accepted. -/
def argZeroBoxes : RowCollectArg :=
  { detailOk := true, filtered := [⟨true, ⟨0, 0, 100, 120⟩, false, false⟩], all := [],
    controllerOk := true, imageOk := true, CurrentTaskName := "EssenceFilterRowCollect" }

/-- The state right after a successful Init. -/
def stateAfterInit : State := (Init stateScenario initArgScenario).1

/-- A `RowCollect` call whose two candidates come in the order right box, left box. -/
def argUnsortedBoxes : RowCollectArg :=
  { detailOk := true
    filtered := [⟨true, ⟨100, 0, 100, 120⟩, false, true⟩, ⟨true, ⟨0, 0, 100, 120⟩, false, true⟩]
    all := [], controllerOk := true, imageOk := true,
    CurrentTaskName := "EssenceFilterRowCollect" }

/-- A `RowCollect` call outside the fallback pass that sees nine boxes, a full row. -/
def argNineBoxes : RowCollectArg :=
  { detailOk := true, filtered := tenResults.take 9, all := [], controllerOk := true,
    imageOk := true, CurrentTaskName := "EssenceFilterRowCollect" }

/-- Two full rows: each is collected, its nine boxes are clicked, and a tenth
`RowNextItem` call leaves the row. -/
def twoFullRows : List Callback :=
  (Callback.rowCollect argNineBoxes :: List.replicate 10 Callback.rowNextItem) ++
    (Callback.rowCollect argNineBoxes :: List.replicate 10 Callback.rowNextItem)

/-- A pool in which the rune "强" leads two entries, the second being "强" followed by the
stop-suffix. -/
def poolCoreShadow : List SkillPool := [⟨1, "", "强击".toList⟩, ⟨2, "", "强之力".toList⟩]

/-- A pool in which the rune "强" occurs in two entries, neither of them "强" alone or "强"
followed by a stop-suffix. -/
def poolTwoWithQiang : List SkillPool := [⟨1, "", "守强".toList⟩, ⟨2, "", "强击".toList⟩]

/-- A run over one row of two boxes: the first item is clicked, its three labels are
read and decided; the second item is clicked and decided without any label. -/
def twoItemRun : List Callback :=
  [Callback.rowCollect argTwoBoxes, Callback.rowNextItem,
    Callback.checkItem ⟨1, false, true, ["强击".toList]⟩,
    Callback.checkItem ⟨2, false, true, ["强击".toList]⟩,
    Callback.checkItem ⟨3, true, true, ["强击".toList]⟩,
    Callback.skillDecision, Callback.rowNextItem, Callback.skillDecision]

/-! # Theorems -/

/-! ## The slot index that `buildSlotIndices` produces -/

theorem addEntry_entries (isHan : Char → Bool) (cfg : MatcherConfig) (idx : slotIndex)
    (s : SkillPool) :
    (addEntry isHan cfg idx s).entries = idx.entries ++ [mkEntry isHan cfg s] := by
  unfold addEntry
  simp only []
  split_ifs <;> rfl

theorem addEntry_rawFullIndex (isHan : Char → Bool) (cfg : MatcherConfig) (idx : slotIndex)
    (s : SkillPool) :
    (addEntry isHan cfg idx s).rawFullIndex
      = idx.rawFullIndex.append (cleanChinese isHan s.Chinese) s.ID := by
  unfold addEntry
  simp only []
  split_ifs <;> rfl

theorem addEntry_normFullIndex (isHan : Char → Bool) (cfg : MatcherConfig) (idx : slotIndex)
    (s : SkillPool) :
    (addEntry isHan cfg idx s).normFullIndex
      = idx.normFullIndex.append (cleanChinese isHan s.Chinese) s.ID := by
  unfold addEntry
  simp only []
  split_ifs <;> rfl

theorem addEntry_rawCoreIndex (isHan : Char → Bool) (cfg : MatcherConfig) (idx : slotIndex)
    (s : SkillPool) :
    (addEntry isHan cfg idx s).rawCoreIndex
      = idx.rawCoreIndex.append (trimStopSuffix cfg (cleanChinese isHan s.Chinese)) s.ID := by
  unfold addEntry
  simp only []
  split_ifs <;> rfl

theorem addEntry_normCoreIndex (isHan : Char → Bool) (cfg : MatcherConfig) (idx : slotIndex)
    (s : SkillPool) :
    (addEntry isHan cfg idx s).normCoreIndex
      = idx.normCoreIndex.append (trimStopSuffix cfg (cleanChinese isHan s.Chinese)) s.ID := by
  unfold addEntry
  simp only []
  split_ifs <;> rfl

/-- Appending under key `key s` for every element of a list, seen at one key `k`. -/
theorem foldl_append_lookup {σ : Type} (proj : σ → IdMap) (stepFn : σ → SkillPool → σ)
    (key : SkillPool → Str)
    (hstep : ∀ st s, proj (stepFn st s) = (proj st).append (key s) s.ID)
    (pool : List SkillPool) (st : σ) (k : Str) :
    proj (pool.foldl stepFn st) k
      = proj st k ++ (pool.filter (fun s => decide (key s = k))).map (·.ID) := by
  induction pool generalizing st with
  | nil => simp
  | cons s rest ih =>
    rw [List.foldl_cons, ih, hstep]
    unfold IdMap.append
    by_cases h : key s = k
    · simp [h, List.filter_cons]
    · have h2 : ¬ k = key s := fun e => h e.symm
      simp [h, h2, List.filter_cons]

theorem buildSlotIndex_entries (isHan : Char → Bool) (cfg : MatcherConfig)
    (pool : List SkillPool) :
    (buildSlotIndex isHan cfg pool).entries = pool.map (mkEntry isHan cfg) := by
  have key : ∀ (l : List SkillPool) (idx : slotIndex),
      (l.foldl (addEntry isHan cfg) idx).entries = idx.entries ++ l.map (mkEntry isHan cfg) := by
    intro l
    induction l with
    | nil => intro idx; simp
    | cons s rest ih => intro idx; simp [List.foldl_cons, ih, addEntry_entries]
  simpa [buildSlotIndex, emptySlotIndex] using key pool emptySlotIndex

theorem buildSlotIndex_rawFullIndex (isHan : Char → Bool) (cfg : MatcherConfig)
    (pool : List SkillPool) (k : Str) :
    (buildSlotIndex isHan cfg pool).rawFullIndex k
      = (pool.filter (fun s => decide (cleanChinese isHan s.Chinese = k))).map (·.ID) := by
  have h := foldl_append_lookup (fun idx : slotIndex => idx.rawFullIndex) (addEntry isHan cfg)
    (fun s => cleanChinese isHan s.Chinese) (addEntry_rawFullIndex isHan cfg) pool
    emptySlotIndex k
  simpa [buildSlotIndex, emptySlotIndex] using h

theorem buildSlotIndex_normFullIndex (isHan : Char → Bool) (cfg : MatcherConfig)
    (pool : List SkillPool) (k : Str) :
    (buildSlotIndex isHan cfg pool).normFullIndex k
      = (pool.filter (fun s => decide (cleanChinese isHan s.Chinese = k))).map (·.ID) := by
  have h := foldl_append_lookup (fun idx : slotIndex => idx.normFullIndex) (addEntry isHan cfg)
    (fun s => cleanChinese isHan s.Chinese) (addEntry_normFullIndex isHan cfg) pool
    emptySlotIndex k
  simpa [buildSlotIndex, emptySlotIndex] using h

theorem buildSlotIndex_rawCoreIndex (isHan : Char → Bool) (cfg : MatcherConfig)
    (pool : List SkillPool) (k : Str) :
    (buildSlotIndex isHan cfg pool).rawCoreIndex k
      = (pool.filter (fun s =>
          decide (trimStopSuffix cfg (cleanChinese isHan s.Chinese) = k))).map (·.ID) := by
  have h := foldl_append_lookup (fun idx : slotIndex => idx.rawCoreIndex) (addEntry isHan cfg)
    (fun s => trimStopSuffix cfg (cleanChinese isHan s.Chinese))
    (addEntry_rawCoreIndex isHan cfg) pool emptySlotIndex k
  simpa [buildSlotIndex, emptySlotIndex] using h

theorem buildSlotIndex_normCoreIndex (isHan : Char → Bool) (cfg : MatcherConfig)
    (pool : List SkillPool) (k : Str) :
    (buildSlotIndex isHan cfg pool).normCoreIndex k
      = (pool.filter (fun s =>
          decide (trimStopSuffix cfg (cleanChinese isHan s.Chinese) = k))).map (·.ID) := by
  have h := foldl_append_lookup (fun idx : slotIndex => idx.normCoreIndex) (addEntry isHan cfg)
    (fun s => trimStopSuffix cfg (cleanChinese isHan s.Chinese))
    (addEntry_normCoreIndex isHan cfg) pool emptySlotIndex k
  simpa [buildSlotIndex, emptySlotIndex] using h

/-- Position `slot - 1` of the built array is the index of the pool of `slot`. -/
theorem buildSlotIndices_get (isHan : Char → Bool) (cfg : MatcherConfig)
    (db : WeaponDatabase) (slot : Int) (h1 : 1 ≤ slot) (h3 : slot ≤ 3) :
    (buildSlotIndices isHan cfg db)[(slot - 1).toNat]?
      = some (buildSlotIndex isHan cfg (getPoolBySlot db slot)) := by
  have hcases : slot = 1 ∨ slot = 2 ∨ slot = 3 := by omega
  rcases hcases with rfl | rfl | rfl <;> rfl

/-- The first identifier of a filtered pool is that of the first entry passing the test. -/
theorem filter_map_ID_eq_cons (pool : List SkillPool) (p : SkillPool → Bool) (e : SkillPool)
    (he : pool.find? p = some e) :
    ∃ tl, (pool.filter p).map (·.ID) = e.ID :: tl := by
  induction pool with
  | nil => simp at he
  | cons s rest ih =>
    by_cases hp : p s = true
    · have : s = e := by simpa [List.find?_cons, hp] using he
      subst this
      exact ⟨(rest.filter p).map (·.ID), by simp [List.filter_cons, hp]⟩
    · have he2 : rest.find? p = some e := by simpa [List.find?_cons, hp] using he
      obtain ⟨tl, htl⟩ := ih he2
      exact ⟨tl, by simpa [List.filter_cons, hp] using htl⟩

theorem find?_isSome_of_mem (pool : List SkillPool) (p : SkillPool → Bool) (e : SkillPool)
    (he : e ∈ pool) (hp : p e = true) : ∃ f, pool.find? p = some f := by
  cases h : pool.find? p with
  | some f => exact ⟨f, rfl⟩
  | none =>
    rw [List.find?_eq_none] at h
    exact absurd hp (by simpa using h e he)

/-- Stage 1 of the cascade decides as soon as the full-text lookup is non-empty. -/
theorem attemptMatch_of_full_cons (phase : String) (slot : Int) (cleaned core : Str)
    (idx : slotIndex) (id : Int) (tl : List Int)
    (h : (if decide (phase = "norm") then idx.normFullIndex else idx.rawFullIndex) cleaned
      = id :: tl) :
    attemptMatch phase slot cleaned core idx = (id, true) := by
  unfold attemptMatch
  simp only []
  rw [h]

/-- Either phase reads the same full-text lookup on a built index. -/
theorem built_fullIndex (isHan : Char → Bool) (cfg : MatcherConfig) (pool : List SkillPool)
    (phase : String) (k : Str) :
    (if decide (phase = "norm") then (buildSlotIndex isHan cfg pool).normFullIndex
      else (buildSlotIndex isHan cfg pool).rawFullIndex) k
      = (pool.filter (fun s => decide (cleanChinese isHan s.Chinese = k))).map (·.ID) := by
  split_ifs
  · exact buildSlotIndex_normFullIndex isHan cfg pool k
  · exact buildSlotIndex_rawFullIndex isHan cfg pool k

/-- Either phase reads the same core-text lookup on a built index. -/
theorem built_coreIndex (isHan : Char → Bool) (cfg : MatcherConfig) (pool : List SkillPool)
    (phase : String) (k : Str) :
    (if decide (phase = "norm") then (buildSlotIndex isHan cfg pool).normCoreIndex
      else (buildSlotIndex isHan cfg pool).rawCoreIndex) k
      = (pool.filter (fun s =>
          decide (trimStopSuffix cfg (cleanChinese isHan s.Chinese) = k))).map (·.ID) := by
  split_ifs
  · exact buildSlotIndex_normCoreIndex isHan cfg pool k
  · exact buildSlotIndex_rawCoreIndex isHan cfg pool k

/-- On a built index, a text that is the full text of some pool entry is resolved by
stage 1 to the first pool entry carrying it. -/
theorem attemptMatch_exact_full (isHan : Char → Bool) (cfg : MatcherConfig)
    (pool : List SkillPool) (phase : String) (slot : Int) (cleaned core : Str) (f : SkillPool)
    (hf : pool.find? (fun s => decide (cleanChinese isHan s.Chinese = cleaned)) = some f) :
    attemptMatch phase slot cleaned core (buildSlotIndex isHan cfg pool) = (f.ID, true) := by
  obtain ⟨tl, htl⟩ := filter_map_ID_eq_cons pool _ f hf
  exact attemptMatch_of_full_cons phase slot cleaned core _ f.ID tl
    ((built_fullIndex isHan cfg pool phase cleaned).trans htl)

/-- How `matchSkillIDEnhanced` unfolds for a slot in range with a non-empty cleaned text
whose raw pass hits. -/
theorem matchSkillIDEnhanced_of_raw_hit (isHan : Char → Bool) (cfg : MatcherConfig)
    (slotIndices : List slotIndex) (slot : Int) (ocrText : Str) (idx : slotIndex) (id : Int)
    (h1 : 1 ≤ slot) (h3 : slot ≤ 3)
    (hidx : slotIndices[(slot - 1).toNat]? = some idx)
    (hne : cleanChinese isHan ocrText ≠ [])
    (hhit : attemptMatch "raw" slot (cleanChinese isHan ocrText)
      (trimStopSuffix cfg (cleanChinese isHan ocrText)) idx = (id, true)) :
    matchSkillIDEnhanced isHan cfg slotIndices slot ocrText = some (id, true) := by
  unfold matchSkillIDEnhanced
  have hs : ¬ (slot < 1 ∨ slot > 3) := by omega
  simp only [hs, if_false, hidx, hne, hhit]

theorem cleanChinese_idem (isHan : Char → Bool) (t : Str) :
    cleanChinese isHan (cleanChinese isHan t) = cleanChinese isHan t := by
  simp [cleanChinese]

/-! ## C1: exact match -/

/-- C1 (as stated, refuted): in the pool with the two entries (1, "强击") and (2, "强击"),
resolving the raw full text of the second entry in slot 1 returns identifier 1, not 2, so
it is not true that every pool entry's raw full text resolves to that entry's identifier. -/
theorem C1_counterexample :
    ¬ ∀ e ∈ getPoolBySlot (dbOfSlot1 poolSameText) 1,
        matchSkillIDEnhanced hanBlock cfgZhiLi
          (buildSlotIndices hanBlock cfgZhiLi (dbOfSlot1 poolSameText)) 1
          (cleanChinese hanBlock e.Chinese) = some (e.ID, true) := by
  intro h
  have h2 := h ⟨2, "", "强击".toList⟩ (by decide)
  revert h2
  decide

/-- C1 (amended): for every slot in 1..3 and every pool entry of that slot whose raw full
text is non-empty, resolving that raw full text on the index built from the pool is
matched and returns the identifier of the first pool entry, in pool order, that has this
raw full text. -/
theorem C1_exact_match_first_entry (isHan : Char → Bool) (cfg : MatcherConfig)
    (db : WeaponDatabase) (slot : Int) (e : SkillPool)
    (h1 : 1 ≤ slot) (h3 : slot ≤ 3) (he : e ∈ getPoolBySlot db slot)
    (hne : cleanChinese isHan e.Chinese ≠ []) :
    ∃ f, (getPoolBySlot db slot).find?
          (fun s => decide (cleanChinese isHan s.Chinese = cleanChinese isHan e.Chinese))
          = some f ∧
      matchSkillIDEnhanced isHan cfg (buildSlotIndices isHan cfg db) slot
        (cleanChinese isHan e.Chinese) = some (f.ID, true) := by
  obtain ⟨f, hf⟩ := find?_isSome_of_mem (getPoolBySlot db slot)
    (fun s => decide (cleanChinese isHan s.Chinese = cleanChinese isHan e.Chinese)) e he
    (by simp)
  refine ⟨f, hf, ?_⟩
  apply matchSkillIDEnhanced_of_raw_hit isHan cfg _ slot _ _ f.ID h1 h3
    (buildSlotIndices_get isHan cfg db slot h1 h3)
  · rw [cleanChinese_idem]; exact hne
  · rw [cleanChinese_idem]
    exact attemptMatch_exact_full isHan cfg _ "raw" slot _ _ f hf

/-- Witness for C1 (amended): the second entry of the pool of the scenario. -/
theorem C1_exact_match_first_entry_witness :
    ∃ f, (getPoolBySlot (dbOfSlot1 poolScenario) 1).find?
          (fun s => decide (cleanChinese hanBlock s.Chinese
            = cleanChinese hanBlock (⟨2, "", "守护".toList⟩ : SkillPool).Chinese))
          = some f ∧
      matchSkillIDEnhanced hanBlock cfgZhiLi
        (buildSlotIndices hanBlock cfgZhiLi (dbOfSlot1 poolScenario)) 1
        (cleanChinese hanBlock (⟨2, "", "守护".toList⟩ : SkillPool).Chinese)
        = some (f.ID, true) :=
  C1_exact_match_first_entry hanBlock cfgZhiLi (dbOfSlot1 poolScenario) 1
    ⟨2, "", "守护".toList⟩ (by decide) (by decide) (by decide) (by decide)

/-! ## C2: cascade precedence -/

/-- C2: on the index built from a pool with pairwise different identifiers, if entry `A`
has full text equal to `cleaned` and entry `B` has a different full text (at best it
contains `cleaned`), then `attemptMatch`, in either phase and for any core text, hits with
the identifier of an entry whose full text equals `cleaned`, and that identifier is not
the one of `B`; the pool order of `A` and `B` plays no part. -/
theorem C2_exact_beats_substring (isHan : Char → Bool) (cfg : MatcherConfig)
    (pool : List SkillPool) (phase : String) (slot : Int) (cleaned core : Str)
    (A B : SkillPool) (hA : A ∈ pool) (hAtext : cleanChinese isHan A.Chinese = cleaned)
    (hB : B ∈ pool) (hBtext : cleanChinese isHan B.Chinese ≠ cleaned)
    (hids : (pool.map (·.ID)).Nodup) :
    ∃ id, attemptMatch phase slot cleaned core (buildSlotIndex isHan cfg pool) = (id, true) ∧
      (∃ e ∈ pool, e.ID = id ∧ cleanChinese isHan e.Chinese = cleaned) ∧ id ≠ B.ID := by
  obtain ⟨f, hf⟩ := find?_isSome_of_mem pool
    (fun s => decide (cleanChinese isHan s.Chinese = cleaned)) A hA (by simp [hAtext])
  have hfmem : f ∈ pool := List.mem_of_find?_eq_some hf
  have hftext : cleanChinese isHan f.Chinese = cleaned := by
    simpa using List.find?_some hf
  refine ⟨f.ID, attemptMatch_exact_full isHan cfg pool phase slot cleaned core f hf,
    ⟨f, hfmem, rfl, hftext⟩, ?_⟩
  intro hEq
  have : f = B := List.inj_on_of_nodup_map hids hfmem hB hEq
  exact hBtext (this ▸ hftext)

/-- Witness for C2: "强击之力" listed before "强击"; the text "强击" resolves to the second. -/
theorem C2_exact_beats_substring_witness :
    ∃ id, attemptMatch "raw" 1 "强击".toList "强击".toList
        (buildSlotIndex hanBlock cfgZhiLi poolWithAndWithout) = (id, true) ∧
      (∃ e ∈ poolWithAndWithout, e.ID = id ∧ cleanChinese hanBlock e.Chinese = "强击".toList) ∧
      id ≠ (⟨1, "", "强击之力".toList⟩ : SkillPool).ID :=
  C2_exact_beats_substring hanBlock cfgZhiLi poolWithAndWithout "raw" 1 "强击".toList
    "强击".toList ⟨2, "", "强击".toList⟩ ⟨1, "", "强击之力".toList⟩
    (by decide) (by decide) (by decide) (by decide) (by decide)

/-! ## C9: empty after cleaning -/

theorem cleanChinese_eq_nil (isHan : Char → Bool) (t : Str)
    (h : ∀ c ∈ t, isHan c = false) : cleanChinese isHan t = [] := by
  unfold cleanChinese
  rw [List.filter_eq_nil_iff]
  intro c hc
  simp [h c hc]

/-- C9: for every slot in 1..3 and every text without a Han rune (the empty text
included), `matchSkillIDEnhanced` returns (0, not matched), whatever the three slot
indices contain. -/
theorem C9_no_han_not_matched (isHan : Char → Bool) (cfg : MatcherConfig)
    (slotIndices : List slotIndex) (slot : Int) (ocrText : Str)
    (h1 : 1 ≤ slot) (h3 : slot ≤ 3) (hlen : slotIndices.length = 3)
    (hno : ∀ c ∈ ocrText, isHan c = false) :
    matchSkillIDEnhanced isHan cfg slotIndices slot ocrText = some (0, false) := by
  unfold matchSkillIDEnhanced
  have hs : ¬ (slot < 1 ∨ slot > 3) := by omega
  have hlt : (slot - 1).toNat < slotIndices.length := by omega
  obtain ⟨idx, hidx⟩ : ∃ idx, slotIndices[(slot - 1).toNat]? = some idx :=
    ⟨slotIndices[(slot - 1).toNat], List.getElem?_eq_getElem hlt⟩
  simp only [hs, if_false, hidx, cleanChinese_eq_nil isHan ocrText hno, if_true]

/-- Witness for C9: the Latin text "abc" in slot 2 of the scenario's indices. -/
theorem C9_no_han_not_matched_witness :
    matchSkillIDEnhanced hanBlock cfgZhiLi
      (buildSlotIndices hanBlock cfgZhiLi (dbOfSlot1 poolScenario)) 2 "abc".toList
      = some (0, false) :=
  C9_no_han_not_matched hanBlock cfgZhiLi
    (buildSlotIndices hanBlock cfgZhiLi (dbOfSlot1 poolScenario)) 2 "abc".toList
    (by decide) (by decide) (by decide) (by decide)

/-! ## C3: stripping a stop-suffix -/

theorem HasSuffix_append (T S : Str) : HasSuffix (T ++ S) S = true := by
  unfold HasSuffix
  rw [List.isSuffixOf_iff_suffix]
  exact List.suffix_append T S

theorem TrimSuffix_append (T S : Str) : TrimSuffix (T ++ S) S = T := by
  unfold TrimSuffix
  rw [HasSuffix_append]
  simp

theorem trimStopSuffixLoop_skip (pre : List Str) (rest : List Str) (s : Str)
    (hpre : ∀ suf ∈ pre, ¬ (suf <:+ s ∧ suf.length < s.length)) :
    trimStopSuffixLoop (pre ++ rest) s = trimStopSuffixLoop rest s := by
  induction pre with
  | nil => rfl
  | cons suf pre ih =>
    have hsuf := hpre suf (List.mem_cons_self _ _)
    have hc : (HasSuffix s suf && decide (s.length > suf.length)) = false := by
      rw [Bool.and_eq_false_iff]
      by_cases hs : suf <:+ s
      · right
        have : ¬ suf.length < s.length := fun hl => hsuf ⟨hs, hl⟩
        simpa using this
      · left
        unfold HasSuffix
        rw [Bool.eq_false_iff, Ne, List.isSuffixOf_iff_suffix]
        exact hs
    rw [List.cons_append, trimStopSuffixLoop, hc]
    simp only [Bool.false_eq_true, if_false]
    exact ih (fun x hx => hpre x (List.mem_cons_of_mem _ hx))

/-- C3 (as stated, refuted): with the stop-suffix list ["力", "之力"], the configured suffix
"之力" and the non-empty text "强击", trimming "强击之力" gives "强击之", not "强击": the
loop cuts the first listed suffix that fits. -/
theorem C3_counterexample :
    "之力".toList ∈ cfgTwoSuffixes.SuffixStopwords ∧ "强击".toList ≠ [] ∧
      trimStopSuffix cfgTwoSuffixes ("强击".toList ++ "之力".toList) = "强击之".toList ∧
      trimStopSuffix cfgTwoSuffixes ("强击".toList ++ "之力".toList) ≠ "强击".toList := by
  decide

/-- C3 (amended): for every stop-suffix list, every suffix `S` in it and every non-empty
text `T`, if no suffix listed before `S` is a proper suffix of `T ++ S`, then
`trimStopSuffix (T ++ S) = T`. -/
theorem C3_trim_first_applicable (cfg : MatcherConfig) (pre post : List Str) (S T : Str)
    (hlist : cfg.SuffixStopwords = pre ++ S :: post) (hT : T ≠ [])
    (hpre : ∀ suf ∈ pre, ¬ (suf <:+ T ++ S ∧ suf.length < (T ++ S).length)) :
    trimStopSuffix cfg (T ++ S) = T := by
  unfold trimStopSuffix
  rw [hlist, trimStopSuffixLoop_skip pre (S :: post) (T ++ S) hpre, trimStopSuffixLoop,
    HasSuffix_append]
  have hlen : (T ++ S).length > S.length := by
    have : 0 < T.length := List.length_pos.mpr hT
    simp only [List.length_append]
    omega
  simp only [Bool.true_and, decide_eq_true_eq, hlen, if_true]
  exact TrimSuffix_append T S

/-- Witness for C3 (amended): the list ["的", "之力"], `S` = "之力" and `T` = "强击". -/
theorem C3_trim_first_applicable_witness :
    trimStopSuffix cfgDeZhiLi ("强击".toList ++ "之力".toList) = "强击".toList :=
  C3_trim_first_applicable cfgDeZhiLi ["的".toList] [] "之力".toList "强击".toList
    (by decide) (by decide) (by decide)

/-! ## C4: a label without its stop-suffix -/

/-- Stage 2 of the cascade decides when stage 1 misses and the core lookup is non-empty. -/
theorem attemptMatch_of_core_cons (phase : String) (slot : Int) (cleaned core : Str)
    (idx : slotIndex) (id : Int) (tl : List Int)
    (hfull : (if decide (phase = "norm") then idx.normFullIndex else idx.rawFullIndex) cleaned
      = [])
    (hcore : (if decide (phase = "norm") then idx.normCoreIndex else idx.rawCoreIndex) core
      = id :: tl) :
    attemptMatch phase slot cleaned core idx = (id, true) := by
  unfold attemptMatch
  simp only []
  rw [hfull]
  simp only []
  rw [hcore]

theorem filter_map_ID_eq_nil (pool : List SkillPool) (p : SkillPool → Bool)
    (h : pool.find? p = none) : (pool.filter p).map (·.ID) = [] := by
  rw [List.find?_eq_none] at h
  rw [List.map_eq_nil_iff, List.filter_eq_nil_iff]
  exact h

theorem cleanChinese_append_left (isHan : Char → Bool) (t T S : Str)
    (h : cleanChinese isHan t = T ++ S) : cleanChinese isHan T = T := by
  unfold cleanChinese at *
  rw [List.filter_eq_self]
  intro a ha
  have hmem : a ∈ t.filter isHan := by rw [h]; exact List.mem_append_left S ha
  exact (List.mem_filter.mp hmem).2

/-- C4 (as stated, refuted): the slot-1 pool holds (1, "强击之力") and (2, "强击"), and "之力"
is the configured stop-suffix.  The pool contains the text "强击" ++ "之力", yet the label
"强击" resolves to identifier 2 and the label "强击之力" to identifier 1. -/
theorem C4_counterexample :
    (⟨1, "", "强击".toList ++ "之力".toList⟩ : SkillPool)
        ∈ getPoolBySlot (dbOfSlot1 poolWithAndWithout) 1 ∧
      "之力".toList ∈ cfgZhiLi.SuffixStopwords ∧
      matchSkillIDEnhanced hanBlock cfgZhiLi
        (buildSlotIndices hanBlock cfgZhiLi (dbOfSlot1 poolWithAndWithout)) 1 "强击".toList
        = some (2, true) ∧
      matchSkillIDEnhanced hanBlock cfgZhiLi
        (buildSlotIndices hanBlock cfgZhiLi (dbOfSlot1 poolWithAndWithout)) 1
        ("强击".toList ++ "之力".toList) = some (1, true) := by
  decide

/-- C4 (amended): let the pool of a slot in 1..3 contain an entry `E` with raw full text
`T ++ S`, `T` non-empty, such that trimming leaves `T` as it is and turns `T ++ S` into `T`
(so `S` is the stop-suffix the loop cuts), and let every pool entry whose core text is `T`
carry the identifier of `E`.  Then the labels `T` and `T ++ S` both resolve, matched, to the
identifier of `E`. -/
theorem C4_core_trim_same_identifier (isHan : Char → Bool) (cfg : MatcherConfig)
    (db : WeaponDatabase) (slot : Int) (E : SkillPool) (T S : Str)
    (h1 : 1 ≤ slot) (h3 : slot ≤ 3) (hE : E ∈ getPoolBySlot db slot)
    (hEtext : cleanChinese isHan E.Chinese = T ++ S) (hT : T ≠ [])
    (hcoreT : trimStopSuffix cfg T = T) (hcoreTS : trimStopSuffix cfg (T ++ S) = T)
    (honly : ∀ f ∈ getPoolBySlot db slot,
      trimStopSuffix cfg (cleanChinese isHan f.Chinese) = T → f.ID = E.ID) :
    matchSkillIDEnhanced isHan cfg (buildSlotIndices isHan cfg db) slot T
        = some (E.ID, true) ∧
      matchSkillIDEnhanced isHan cfg (buildSlotIndices isHan cfg db) slot (T ++ S)
        = some (E.ID, true) := by
  have hidx := buildSlotIndices_get isHan cfg db slot h1 h3
  have hcT : cleanChinese isHan T = T := cleanChinese_append_left isHan _ T S hEtext
  have hcTS : cleanChinese isHan (T ++ S) = T ++ S := by
    rw [← hEtext, cleanChinese_idem]
  constructor
  · apply matchSkillIDEnhanced_of_raw_hit isHan cfg _ slot _ _ E.ID h1 h3 hidx
    · rw [hcT]; exact hT
    · rw [hcT, hcoreT]
      cases hfind : (getPoolBySlot db slot).find?
          (fun s => decide (cleanChinese isHan s.Chinese = T)) with
      | some f =>
        have hfmem : f ∈ getPoolBySlot db slot := List.mem_of_find?_eq_some hfind
        have hftext : cleanChinese isHan f.Chinese = T := by simpa using List.find?_some hfind
        have hfid : f.ID = E.ID := honly f hfmem (by rw [hftext, hcoreT])
        rw [← hfid]
        exact attemptMatch_exact_full isHan cfg _ "raw" slot T T f hfind
      | none =>
        obtain ⟨g, hg⟩ := find?_isSome_of_mem (getPoolBySlot db slot)
          (fun s => decide (trimStopSuffix cfg (cleanChinese isHan s.Chinese) = T)) E hE
          (by simp [hEtext, hcoreTS])
        have hgmem : g ∈ getPoolBySlot db slot := List.mem_of_find?_eq_some hg
        have hgcore : trimStopSuffix cfg (cleanChinese isHan g.Chinese) = T := by
          simpa using List.find?_some hg
        obtain ⟨tl, htl⟩ := filter_map_ID_eq_cons _ _ g hg
        rw [← honly g hgmem hgcore]
        exact attemptMatch_of_core_cons "raw" slot T T _ g.ID tl
          ((built_fullIndex isHan cfg _ "raw" T).trans (filter_map_ID_eq_nil _ _ hfind))
          ((built_coreIndex isHan cfg _ "raw" T).trans htl)
  · obtain ⟨f, hf⟩ := find?_isSome_of_mem (getPoolBySlot db slot)
      (fun s => decide (cleanChinese isHan s.Chinese = T ++ S)) E hE (by simp [hEtext])
    have hfmem : f ∈ getPoolBySlot db slot := List.mem_of_find?_eq_some hf
    have hftext : cleanChinese isHan f.Chinese = T ++ S := by simpa using List.find?_some hf
    have hfid : f.ID = E.ID := honly f hfmem (by rw [hftext, hcoreTS])
    apply matchSkillIDEnhanced_of_raw_hit isHan cfg _ slot _ _ E.ID h1 h3 hidx
    · rw [hcTS]; simp [hT]
    · rw [hcTS, ← hfid]
      exact attemptMatch_exact_full isHan cfg _ "raw" slot (T ++ S) _ f hf

/-- Witness for C4 (amended): the pool with the single entry (1, "强击之力") and the
stop-suffix "之力": "强击" and "强击之力" both resolve to identifier 1. -/
theorem C4_core_trim_same_identifier_witness :
    matchSkillIDEnhanced hanBlock cfgZhiLi
        (buildSlotIndices hanBlock cfgZhiLi (dbOfSlot1 poolOneSuffixed)) 1 "强击".toList
        = some ((⟨1, "", "强击之力".toList⟩ : SkillPool).ID, true) ∧
      matchSkillIDEnhanced hanBlock cfgZhiLi
        (buildSlotIndices hanBlock cfgZhiLi (dbOfSlot1 poolOneSuffixed)) 1
        ("强击".toList ++ "之力".toList)
        = some ((⟨1, "", "强击之力".toList⟩ : SkillPool).ID, true) :=
  C4_core_trim_same_identifier hanBlock cfgZhiLi (dbOfSlot1 poolOneSuffixed) 1
    ⟨1, "", "强击之力".toList⟩ "强击".toList "之力".toList
    (by decide) (by decide) (by decide) (by decide) (by decide) (by decide) (by decide)
    (by decide)

/-! ## C7, C8: the combination resolver -/

theorem comboMatches_triple (id1 id2 id3 : Int) (c : SkillCombination) :
    comboMatches [id1, id2, id3] c = decide (c.SkillIDs = [id1, id2, id3]) := by
  unfold comboMatches
  rcases hc : c.SkillIDs with _ | ⟨a, _ | ⟨b, _ | ⟨d, _ | ⟨x, r⟩⟩⟩⟩ <;> simp
  · simp only [eq_comm]

/-- The combination loop, started with weapons already collected. -/
theorem foldl_comboStep_nonempty (ids : List Int) (combos : List SkillCombination)
    (ws : List WeaponData) (si : List Int) (sc : List Str) (hws : ws ≠ []) :
    combos.foldl (comboStep ids) (ws, si, sc)
      = (ws ++ (combos.filter (comboMatches ids)).map (·.Weapon), si, sc) := by
  induction combos generalizing ws with
  | nil => simp
  | cons c rest ih =>
    rw [List.foldl_cons]
    by_cases hc : comboMatches ids c = true
    · have hlen : ¬ ws.length = 0 := by simpa using hws
      have hstep : comboStep ids (ws, si, sc) c = (ws ++ [c.Weapon], si, sc) := by
        simp [comboStep, hc, hlen]
      rw [hstep, ih (ws ++ [c.Weapon]) (by simp)]
      simp [List.filter_cons, hc]
    · have hstep : comboStep ids (ws, si, sc) c = (ws, si, sc) := by
        simp [comboStep, hc]
      rw [hstep, ih ws hws]
      simp [List.filter_cons, hc]

/-- The combination loop from its initial value: nothing when no combination matches, else
the identifiers and labels of the first match and the weapons of all matches in order. -/
theorem foldl_comboStep_init (ids : List Int) (combos : List SkillCombination) :
    combos.foldl (comboStep ids) ([], [], [])
      = match combos.filter (comboMatches ids) with
        | [] => ([], [], [])
        | c :: cs => ((c :: cs).map (·.Weapon), c.SkillIDs, c.SkillsChinese) := by
  induction combos with
  | nil => simp
  | cons c rest ih =>
    rw [List.foldl_cons]
    by_cases hc : comboMatches ids c = true
    · have hstep : comboStep ids ([], [], []) c = ([c.Weapon], c.SkillIDs, c.SkillsChinese) := by
        simp [comboStep, hc]
      rw [hstep, foldl_comboStep_nonempty ids rest [c.Weapon] _ _ (by simp)]
      simp [List.filter_cons, hc]
    · have hstep : comboStep ids ([], [], []) c = ([], [], []) := by
        simp [comboStep, hc]
      rw [hstep, ih]
      simp [List.filter_cons, hc]

/-- C7: when the three labels resolve, in slots 1, 2 and 3 of the indices in use, to
`id1`, `id2`, `id3`, `MatchEssenceSkills` is matched iff some target combination has the
identifier list `[id1, id2, id3]`; the single result then carries that triple, the labels
of the first such combination and the weapons of all such combinations in list order. -/
theorem C7_combination_aggregation (isHan : Char → Bool) (s : State) (l1 l2 l3 : Str)
    (id1 id2 id3 : Int)
    (hr1 : matchSkillIDEnhanced isHan (ensureBuilt isHan s).matcherConfig
      (ensureBuilt isHan s).slotIndices 1 l1 = some (id1, true))
    (hr2 : matchSkillIDEnhanced isHan (ensureBuilt isHan s).matcherConfig
      (ensureBuilt isHan s).slotIndices 2 l2 = some (id2, true))
    (hr3 : matchSkillIDEnhanced isHan (ensureBuilt isHan s).matcherConfig
      (ensureBuilt isHan s).slotIndices 3 l3 = some (id3, true)) :
    (MatchEssenceSkills isHan s [l1, l2, l3]).1
      = match s.targetSkillCombinations.filter
            (fun c => decide (c.SkillIDs = [id1, id2, id3])) with
        | [] => none
        | c :: cs => some { SkillIDs := [id1, id2, id3], SkillsChinese := c.SkillsChinese,
                            Weapons := (c :: cs).map (·.Weapon) } := by
  have htc : (ensureBuilt isHan s).targetSkillCombinations = s.targetSkillCombinations := by
    unfold ensureBuilt; split_ifs <;> rfl
  have hres : resolveLabels isHan (ensureBuilt isHan s).matcherConfig
      (ensureBuilt isHan s).slotIndices 1 [l1, l2, l3] = some [id1, id2, id3] := by
    simp only [resolveLabels, hr1]
    have e2 : (1 : Int) + 1 = 2 := rfl
    have e3 : (2 : Int) + 1 = 3 := rfl
    simp only [e2, hr2, e3, hr3]
  have hfun : comboMatches [id1, id2, id3]
      = fun c => decide (c.SkillIDs = [id1, id2, id3]) := by
    funext c; exact comboMatches_triple id1 id2 id3 c
  unfold MatchEssenceSkills
  simp only [List.length_cons, List.length_nil, Nat.reduceAdd, ne_eq, not_true_eq_false,
    if_false, hres, htc, foldl_comboStep_init, hfun]
  cases hfilt : s.targetSkillCombinations.filter
      (fun c => decide (c.SkillIDs = [id1, id2, id3])) with
  | nil => simp
  | cons c cs =>
    have hcmem : c ∈ s.targetSkillCombinations.filter
        (fun c => decide (c.SkillIDs = [id1, id2, id3])) := by
      rw [hfilt]; exact List.mem_cons_self _ _
    have hcids : c.SkillIDs = [id1, id2, id3] := by
      simpa using (List.mem_filter.mp hcmem).2
    simp [hcids]

/-- Witness for C7: the three labels "强击" resolve to (1, 1, 1); the weapons 甲 and 乙 share
that triple and both appear in the one result. -/
theorem C7_combination_aggregation_witness :
    (MatchEssenceSkills hanBlock stateScenario ["强击".toList, "强击".toList, "强击".toList]).1
      = match stateScenario.targetSkillCombinations.filter
            (fun c => decide (c.SkillIDs = [1, 1, 1])) with
        | [] => none
        | c :: cs => some { SkillIDs := [1, 1, 1], SkillsChinese := c.SkillsChinese,
                            Weapons := (c :: cs).map (·.Weapon) } :=
  C7_combination_aggregation hanBlock stateScenario "强击".toList "强击".toList "强击".toList
    1 1 1 (by decide) (by decide) (by decide)

/-- A label that does not resolve in its slot ends the label loop without a result. -/
theorem resolveLabels_none (isHan : Char → Bool) (cfg : MatcherConfig)
    (slotIndices : List slotIndex) (labels : List Str) (start : Int) (i : Nat) (l : Str)
    (hl : labels[i]? = some l)
    (hfail : ∀ id, matchSkillIDEnhanced isHan cfg slotIndices (start + i) l ≠ some (id, true)) :
    resolveLabels isHan cfg slotIndices start labels = none := by
  induction labels generalizing start i with
  | nil => simp at hl
  | cons x rest ih =>
    cases i with
    | zero =>
      have hx : x = l := by simpa using hl
      subst hx
      have hfail0 : ∀ id, matchSkillIDEnhanced isHan cfg slotIndices start x ≠ some (id, true) := by
        simpa using hfail
      unfold resolveLabels
      split
      · next id heq => exact absurd heq (hfail0 id)
      · rfl
    | succ n =>
      have hrest : rest[n]? = some l := by simpa using hl
      have hnone := ih (start + 1) n hrest (by
        intro id
        have := hfail id
        have e : start + ((n + 1 : Nat) : Int) = start + 1 + (n : Int) := by push_cast; ring
        rwa [e] at this)
      unfold resolveLabels
      split
      · rw [hnone]
      · rfl

/-- C8: `MatchEssenceSkills` returns no result (nil, not matched) when the number of
labels is not 3, and when some label `i` (counted from 0) does not resolve in slot `i + 1`
of the indices in use; the target-combination list plays no part. -/
theorem C8_resolver_failure (isHan : Char → Bool) (s : State) (ocrSkills : List Str)
    (h : ocrSkills.length ≠ 3 ∨
      ∃ (i : Nat) (l : Str), ocrSkills[i]? = some l ∧
        ∀ id, matchSkillIDEnhanced isHan (ensureBuilt isHan s).matcherConfig
          (ensureBuilt isHan s).slotIndices ((i : Int) + 1) l ≠ some (id, true)) :
    (MatchEssenceSkills isHan s ocrSkills).1 = none := by
  unfold MatchEssenceSkills
  by_cases hlen : ocrSkills.length ≠ 3
  · rw [if_pos hlen]
  · rw [if_neg hlen]
    rcases h with h | ⟨i, l, hl, hfail⟩
    · exact absurd h hlen
    · have hnone := resolveLabels_none isHan (ensureBuilt isHan s).matcherConfig
        (ensureBuilt isHan s).slotIndices ocrSkills 1 i l hl (by
          intro id
          have := hfail id
          rwa [add_comm] at this)
      simp only [hnone]

/-- Witness for C8: the middle label "abc" has no Han rune and does not resolve. -/
theorem C8_resolver_failure_witness :
    (MatchEssenceSkills hanBlock stateScenario
      ["强击".toList, "abc".toList, "强击".toList]).1 = none :=
  C8_resolver_failure hanBlock stateScenario ["强击".toList, "abc".toList, "强击".toList]
    (Or.inr ⟨1, "abc".toList, by decide, fun id hid => by
      have hval : matchSkillIDEnhanced hanBlock (ensureBuilt hanBlock stateScenario).matcherConfig
          (ensureBuilt hanBlock stateScenario).slotIndices (((1 : Nat) : Int) + 1) "abc".toList
          = some (0, false) := by decide
      rw [hval] at hid
      cases hid⟩)

/-! ## C10: the fallback scan is triggered at most once per run -/

theorem ensureBuilt_flag (isHan : Char → Bool) (s : State) :
    (ensureBuilt isHan s).finalLargeScanUsed = s.finalLargeScanUsed := by
  unfold ensureBuilt; split_ifs <;> rfl

theorem MatchEssenceSkills_flag (isHan : Char → Bool) (s : State) (l : List Str) :
    (MatchEssenceSkills isHan s l).2.finalLargeScanUsed = s.finalLargeScanUsed := by
  unfold MatchEssenceSkills
  split_ifs
  · rfl
  · simp only []
    split
    · exact ensureBuilt_flag isHan s
    · split_ifs <;> exact ensureBuilt_flag isHan s

/-- `RowCollect` re-routes to `EssenceDetectFinal` exactly in the branch that sets the
flag, and that branch needs the flag to be unset. -/
theorem RowCollect_trigger (s : State) (arg : RowCollectArg)
    (h : (RowCollect s arg).2.next = some "EssenceDetectFinal") :
    s.finalLargeScanUsed = false ∧ (RowCollect s arg).1.finalLargeScanUsed = true := by
  unfold RowCollect at h ⊢
  by_cases hd : arg.detailOk = true
  · by_cases hc : arg.controllerOk = true
    · by_cases hi : arg.imageOk = true
      · simp only [hd, hc, hi, Bool.not_true, Bool.false_eq_true, if_false] at h ⊢
        by_cases hf : s.finalLargeScanUsed = true
        · simp only [hf, Bool.not_true, Bool.and_false, Bool.false_eq_true, if_false] at h
          split_ifs at h <;> simp at h
        · have hf2 : s.finalLargeScanUsed = false := by simpa using hf
          by_cases hn : arg.CurrentTaskName = "EssenceDetectFinal"
          · simp [hn, hf2]
          · simp only [hn, decide_False, Bool.false_and, Bool.false_eq_true, if_false] at h
            split_ifs at h <;> simp at h
      · simp [hd, hc, hi] at h
    · simp [hd, hc] at h
  · simp [hd] at h

theorem RowCollect_flag_mono (s : State) (arg : RowCollectArg)
    (h : s.finalLargeScanUsed = true) : (RowCollect s arg).1.finalLargeScanUsed = true := by
  unfold RowCollect
  simp only [h]
  split_ifs <;> first | rfl | exact h

theorem step_flag_mono (isHan : Char → Bool) (s : State) (cb : Callback)
    (h : s.finalLargeScanUsed = true) : (step isHan s cb).1.finalLargeScanUsed = true := by
  cases cb with
  | rowCollect arg => exact RowCollect_flag_mono s arg h
  | rowNextItem =>
    simp only [step]
    unfold RowNextItem
    split_ifs <;> first | exact h | (split <;> exact h)
  | checkItem arg =>
    simp only [step]
    unfold CheckItem
    simp only []
    split_ifs <;> first | exact h | (split <;> (try split_ifs) <;> exact h)
  | skillDecision =>
    simp only [step]
    unfold SkillDecision
    simp only []
    split <;> simpa [MatchEssenceSkills_flag] using h
  | inventoryNumber arg =>
    simp only [step]
    unfold InventoryNumber
    split
    · exact h
    · split_ifs <;> exact h
  | trace => exact h

/-- Once the flag is set, no later entry of the run is a fallback trigger. -/
theorem no_trigger_after_flag (isHan : Char → Bool) (cbs : List Callback) (s : State)
    (h : s.finalLargeScanUsed = true) :
    (runTrace isHan s cbs).filter isFallbackTrigger = [] := by
  induction cbs generalizing s with
  | nil => rfl
  | cons cb rest ih =>
    have hnext := step_flag_mono isHan s cb h
    have hnot : isFallbackTrigger (cb, (step isHan s cb).1, (step isHan s cb).2) = false := by
      cases cb with
      | rowCollect arg =>
        by_contra hc
        have hc2 : (RowCollect s arg).2.next = some "EssenceDetectFinal" := by
          simpa [isFallbackTrigger, step] using hc
        have := (RowCollect_trigger s arg hc2).1
        rw [h] at this
        cases this
      | rowNextItem => rfl
      | checkItem arg => rfl
      | skillDecision => rfl
      | inventoryNumber arg => rfl
      | trace => rfl
    simp only [runTrace, List.filter_cons, hnot, Bool.false_eq_true, if_false]
    exact ih _ hnext

/-- Every state of a run that starts with the flag set has the flag set. -/
theorem flag_stays (isHan : Char → Bool) (cbs : List Callback) (s : State)
    (h : s.finalLargeScanUsed = true) :
    ∀ t ∈ (runTrace isHan s cbs).map (fun e => e.2.1), t.finalLargeScanUsed = true := by
  induction cbs generalizing s with
  | nil => intro t ht; simp [runTrace] at ht
  | cons cb rest ih =>
    intro t ht
    simp only [runTrace, List.map_cons, List.mem_cons] at ht
    rcases ht with rfl | ht
    · exact step_flag_mono isHan s cb h
    · exact ih _ (step_flag_mono isHan s cb h) t ht

/-- C10: in every run, i.e. every sequence of callbacks other than Init and Finish, from
any state and for any inputs, at most one `RowCollect` call takes the branch that triggers
the fallback full scan, and `finalLargeScanUsed` is monotone: once a state of the run has
it set, every later state of the run has it set. -/
theorem C10_fallback_at_most_once (isHan : Char → Bool) (s : State) (cbs : List Callback) :
    ((runTrace isHan s cbs).filter isFallbackTrigger).length ≤ 1 ∧
      List.Pairwise (fun a b : State => a.finalLargeScanUsed = true → b.finalLargeScanUsed = true)
        (s :: (runTrace isHan s cbs).map (fun e => e.2.1)) := by
  constructor
  · induction cbs generalizing s with
    | nil => simp [runTrace]
    | cons cb rest ih =>
      simp only [runTrace, List.filter_cons]
      split_ifs with htrig
      · have hflag : (step isHan s cb).1.finalLargeScanUsed = true := by
          cases cb with
          | rowCollect arg =>
            have hc2 : (RowCollect s arg).2.next = some "EssenceDetectFinal" := by
              simpa [isFallbackTrigger, step] using htrig
            exact (RowCollect_trigger s arg hc2).2
          | rowNextItem => simp [isFallbackTrigger] at htrig
          | checkItem arg => simp [isFallbackTrigger] at htrig
          | skillDecision => simp [isFallbackTrigger] at htrig
          | inventoryNumber arg => simp [isFallbackTrigger] at htrig
          | trace => simp [isFallbackTrigger] at htrig
        rw [List.length_cons, no_trigger_after_flag isHan rest _ hflag]
        simp
      · exact ih _
  · induction cbs generalizing s with
    | nil => simp [runTrace]
    | cons cb rest ih =>
      rw [List.pairwise_cons]
      refine ⟨fun t ht hs => flag_stays isHan (cb :: rest) s hs t ht, ?_⟩
      simpa [runTrace] using ih (step isHan s cb).1

/-! ## C6: `editDistance` computes the optimal-string-alignment distance -/

theorem min_eq_min (a b : Int) : min a b = Min.min a b := by
  unfold min
  split_ifs with h
  · exact (min_eq_left (le_of_lt h)).symm
  · exact (min_eq_right (not_lt.mp h)).symm

theorem makeTable_shaped (rows cols : Nat) : (makeTable rows cols).Shaped rows cols := by
  constructor
  · simp [makeTable]
  · intro r hr
    have := List.eq_of_mem_replicate hr
    simp [this]

theorem Table.set_shaped (dp : Table) (rows cols i j : Nat) (v : Int)
    (h : dp.Shaped rows cols) : (dp.set i j v).Shaped rows cols := by
  obtain ⟨hl, hr⟩ := h
  constructor
  · simp [Table.set, hl]
  · intro r hmem
    unfold Table.set at hmem
    by_cases hi : i < dp.length
    · rcases List.mem_or_eq_of_mem_set hmem with h1 | h1
      · exact hr r h1
      · subst h1
        rw [List.length_set, List.getD_eq_getElem _ _ hi]
        exact hr _ (List.getElem_mem hi)
    · rw [List.set_eq_of_length_le (not_lt.mp hi)] at hmem
      exact hr r hmem

theorem Table.get_set_self (dp : Table) (rows cols i j : Nat) (v : Int)
    (h : dp.Shaped rows cols) (hi : i < rows) (hj : j < cols) :
    (dp.set i j v).get i j = v := by
  obtain ⟨hl, hr⟩ := h
  have hi2 : i < dp.length := by omega
  have hrow : (dp[i]?.getD []).length = cols := by
    rw [List.getElem?_eq_getElem hi2]
    exact hr _ (List.getElem_mem hi2)
  have hj2 : j < (dp[i]?.getD []).length := by omega
  simp only [Table.get, Table.set, List.getD_eq_getElem?_getD, List.getElem?_set_self hi2,
    Option.getD_some, List.getElem?_set_self hj2]

theorem Table.get_set_other (dp : Table) (i j i2 j2 : Nat) (v : Int)
    (h : i ≠ i2 ∨ j ≠ j2) : (dp.set i j v).get i2 j2 = dp.get i2 j2 := by
  simp only [Table.get, Table.set, List.getD_eq_getElem?_getD]
  by_cases hi : i = i2
  · subst hi
    have hj : j ≠ j2 := by
      rcases h with h | h
      · exact absurd rfl h
      · exact h
    by_cases hlt : i < dp.length
    · simp only [List.getElem?_set_self hlt, Option.getD_some, List.getElem?_set_ne hj]
    · rw [List.set_eq_of_length_le (not_lt.mp hlt)]
  · simp only [List.getElem?_set_ne hi]

/-- Invariant rule for a counting loop `for k := start; k < start + n; k++`. -/
theorem foldl_range'_inv {σ : Type} (P : Nat → σ → Prop) (f : σ → Nat → σ) (n : Nat) :
    ∀ (start : Nat) (st : σ), P start st →
      (∀ k st, start ≤ k → k < start + n → P k st → P (k + 1) (f st k)) →
      P (start + n) ((List.range' start n).foldl f st) := by
  induction n with
  | zero => intro start st h0 _; simpa using h0
  | succ n ih =>
    intro start st h0 hstep
    rw [List.range'_succ, List.foldl_cons]
    have h1 := hstep start st (le_refl _) (by omega) h0
    have := ih (start + 1) (f st start) h1
      (fun k st hk hlt hP => hstep k st (by omega) (by omega) hP)
    have e : start + 1 + n = start + (n + 1) := by omega
    rwa [e] at this

theorem osa_zero_left (a b : Str) (j : Nat) : osa a b 0 j = j := by
  rw [osa]

theorem osa_zero_right (a b : Str) (i : Nat) : osa a b i 0 = i := by
  cases i with
  | zero => rw [osa]
  | succ i => rw [osa]

/-- The recurrence of `osa` at an inner cell, in one formula. -/
theorem osa_succ_succ (a b : Str) (i j : Nat) :
    osa a b (i + 1) (j + 1)
      = (let d := Nat.min (Nat.min (osa a b i (j + 1) + 1) (osa a b (i + 1) j + 1))
            (osa a b i j + (if a[i]? = b[j]? then 0 else 1))
         if 1 ≤ i ∧ 1 ≤ j ∧ a[i]? = b[j - 1]? ∧ a[i - 1]? = b[j]? then
           Nat.min d (osa a b (i - 1) (j - 1) + 1)
         else d) := by
  cases i with
  | zero =>
    conv_lhs => rw [osa]
    simp
  | succ i =>
    cases j with
    | zero =>
      conv_lhs => rw [osa]
      simp
    | succ j =>
      conv_lhs => rw [osa]
      simp

theorem osa_le_sub (a b : Str) (i j : Nat) :
    osa a b (i + 1) (j + 1) ≤ osa a b i j + (if a[i]? = b[j]? then 0 else 1) := by
  rw [osa_succ_succ]
  simp only []
  split_ifs <;> simp only [Nat.min_def] <;> split_ifs <;> omega

theorem osa_le_del (a b : Str) (i j : Nat) : osa a b (i + 1) j ≤ osa a b i j + 1 := by
  cases j with
  | zero => simp [osa_zero_right]
  | succ j =>
    rw [osa_succ_succ]
    simp only []
    split_ifs <;> simp only [Nat.min_def] <;> split_ifs <;> omega

theorem osa_le_ins (a b : Str) (i j : Nat) : osa a b i (j + 1) ≤ osa a b i j + 1 := by
  cases i with
  | zero => simp [osa_zero_left]
  | succ i =>
    rw [osa_succ_succ]
    simp only []
    split_ifs <;> simp only [Nat.min_def] <;> split_ifs <;> omega

/-- The distance is at least the difference of the two lengths. -/
theorem osa_lower (a b : Str) : ∀ (n i j : Nat), i + j ≤ n →
    i ≤ osa a b i j + j ∧ j ≤ osa a b i j + i := by
  intro n
  induction n with
  | zero =>
    intro i j h
    have hi : i = 0 := by omega
    have hj : j = 0 := by omega
    subst hi; subst hj
    simp
  | succ n ih =>
    intro i j h
    cases i with
    | zero => simp [osa_zero_left]
    | succ i =>
      cases j with
      | zero => simp [osa_zero_right]
      | succ j =>
        have h1 := ih i (j + 1) (by omega)
        have h2 := ih (i + 1) j (by omega)
        have h3 := ih i j (by omega)
        have h4 := ih (i - 1) (j - 1) (by omega)
        rw [osa_succ_succ]
        simp only []
        split_ifs with hc hcost hcost <;> simp only [Nat.min_def] <;> split_ifs <;> omega
/-- The value the inner loop writes, against the value of the recurrence. -/
theorem cell_value (A B C D cost : Nat) (cond : Prop) [Decidable cond] (hcost : cost ≤ 1)
    (h : cond → cost = 0 → C ≤ D) :
    (if cond then min (min3 ((A : Int) + 1) ((B : Int) + 1) ((C : Int) + (cost : Int)))
        ((D : Int) + (cost : Int))
      else min3 ((A : Int) + 1) ((B : Int) + 1) ((C : Int) + (cost : Int)))
      = (((if cond then Nat.min (Nat.min (Nat.min (A + 1) (B + 1)) (C + cost)) (D + 1)
          else Nat.min (Nat.min (A + 1) (B + 1)) (C + cost)) : Nat) : Int) := by
  by_cases hc : cond
  · have h2 := h hc
    simp only [hc, if_true, min3, min, Nat.min_def]
    split_ifs <;> push_cast <;> omega
  · simp only [hc, if_false, min3, min, Nat.min_def]
    split_ifs <;> push_cast <;> omega

/-- One pass of the inner loop body fills cell `(i + 1, j + 1)`. -/
theorem cellUpdate_filled (a b : Str) (dp : Table) (i j : Nat)
    (hi : i + 1 ≤ a.length) (hj : j + 1 ≤ b.length)
    (h : dp.Filled a b (i + 1) (j + 1)) :
    (cellUpdate a b dp (i + 1) (j + 1)).Filled a b (i + 1) (j + 2) := by
  obtain ⟨hshape, hcells⟩ := h
  have hA := hcells i (j + 1) (by omega) (by omega) (by omega)
  have hB := hcells (i + 1) j (by omega) (by omega) (by omega)
  have hC := hcells i j (by omega) (by omega) (by omega)
  have hD := hcells (i - 1) (j - 1) (by omega) (by omega) (by omega)
  have e1 : i + 1 - 1 = i := by omega
  have e2 : j + 1 - 1 = j := by omega
  have e3 : i + 1 - 2 = i - 1 := by omega
  have e4 : j + 1 - 2 = j - 1 := by omega
  -- the value at the cell after the update
  have hval : (cellUpdate a b dp (i + 1) (j + 1)).get (i + 1) (j + 1)
      = ((osa a b (i + 1) (j + 1) : Nat) : Int) := by
    have hcostInt : (if a[i]? ≠ b[j]? then (1 : Int) else 0)
        = (((if a[i]? = b[j]? then 0 else 1 : Nat)) : Int) := by
      by_cases hab : a[i]? = b[j]? <;> simp [hab]
    have hcv := cell_value (osa a b i (j + 1)) (osa a b (i + 1) j) (osa a b i j)
      (osa a b (i - 1) (j - 1)) (if a[i]? = b[j]? then 0 else 1)
      (i + 1 > 1 ∧ j + 1 > 1 ∧ a[i]? = b[j - 1]? ∧ a[i - 1]? = b[j]?)
      (by split_ifs <;> omega)
      (by
        rintro ⟨h1, h2, h3, h4⟩ hz
        have hab : a[i]? = b[j]? := by
          by_contra hne
          simp [hne] at hz
        have hle := osa_le_sub a b (i - 1) (j - 1)
        have e5 : i - 1 + 1 = i := by omega
        have e6 : j - 1 + 1 = j := by omega
        rw [e5, e6] at hle
        have heq : a[i - 1]? = b[j - 1]? := by rw [h4, ← hab, h3]
        simpa [heq] using hle)
    rw [osa_succ_succ]
    have hcondEq : (1 ≤ i ∧ 1 ≤ j ∧ a[i]? = b[j - 1]? ∧ a[i - 1]? = b[j]?)
        ↔ (i + 1 > 1 ∧ j + 1 > 1 ∧ a[i]? = b[j - 1]? ∧ a[i - 1]? = b[j]?) := by
      constructor <;> rintro ⟨h1, h2, h3, h4⟩ <;> exact ⟨by omega, by omega, h3, h4⟩
    simp only [hcondEq]
    rw [← hcv]
    unfold cellUpdate
    simp only [e1, e2, e3, e4, hcostInt]
    by_cases hcond : (i + 1 > 1 ∧ j + 1 > 1 ∧ a[i]? = b[j - 1]? ∧ a[i - 1]? = b[j]?)
    · rw [if_pos hcond, if_pos hcond]
      rw [Table.get_set_self _ _ _ _ _ _ (Table.set_shaped _ _ _ _ _ _ hshape) (by omega)
        (by omega)]
      rw [Table.get_set_self _ _ _ _ _ _ hshape (by omega) (by omega)]
      rw [Table.get_set_other _ _ _ _ _ _ (Or.inl (by omega))]
      rw [hA, hB, hC, hD]
    · rw [if_neg hcond, if_neg hcond]
      rw [Table.get_set_self _ _ _ _ _ _ hshape (by omega) (by omega)]
      rw [hA, hB, hC]
  -- cells other than (i+1, j+1) are untouched
  have hother : ∀ i2 j2, (i + 1 ≠ i2 ∨ j + 1 ≠ j2) →
      (cellUpdate a b dp (i + 1) (j + 1)).get i2 j2 = dp.get i2 j2 := by
    intro i2 j2 hne
    unfold cellUpdate
    simp only []
    split_ifs <;> simp only [Table.get_set_other _ _ _ _ _ _ hne]
  have hshape2 : (cellUpdate a b dp (i + 1) (j + 1)).Shaped (a.length + 1) (b.length + 1) := by
    unfold cellUpdate
    simp only []
    split_ifs <;>
      first
        | exact Table.set_shaped _ _ _ _ _ _ (Table.set_shaped _ _ _ _ _ _ hshape)
        | exact Table.set_shaped _ _ _ _ _ _ hshape
  refine ⟨hshape2, ?_⟩
  intro i2 j2 hi2 hj2 hpos
  by_cases hcell : i2 = i + 1 ∧ j2 = j + 1
  · obtain ⟨rfl, rfl⟩ := hcell
    exact hval
  · have hne : i + 1 ≠ i2 ∨ j + 1 ≠ j2 := by omega
    rw [hother i2 j2 hne]
    exact hcells i2 j2 hi2 hj2 (by omega)
/-- After the two border loops the matrix satisfies the fill invariant at cell (1, 1). -/
theorem border_filled (a b : Str) :
    ((List.range (b.length + 1)).foldl (fun dp j => dp.set 0 j (j : Int))
      ((List.range (a.length + 1)).foldl (fun dp i => dp.set i 0 (i : Int))
        (makeTable (a.length + 1) (b.length + 1)))).Filled a b 1 1 := by
  have hcol := foldl_range'_inv
    (fun k (dp : Table) => dp.Shaped (a.length + 1) (b.length + 1) ∧
      ∀ i2, i2 < k → dp.get i2 0 = (i2 : Int))
    (fun dp i => dp.set i 0 (i : Int)) (a.length + 1) 0
    (makeTable (a.length + 1) (b.length + 1))
    ⟨makeTable_shaped _ _, fun i2 h => absurd h (Nat.not_lt_zero _)⟩
    (by
      rintro k dp - hk ⟨hs, hc⟩
      refine ⟨Table.set_shaped _ _ _ _ _ _ hs, ?_⟩
      intro i2 hi2
      by_cases he : i2 = k
      · subst he
        exact Table.get_set_self _ _ _ _ _ _ hs (by omega) (by omega)
      · rw [Table.get_set_other _ _ _ _ _ _ (Or.inl (fun e => he e.symm))]
        exact hc i2 (by omega))
  rw [← List.range_eq_range'] at hcol
  obtain ⟨hs1, hc1⟩ := hcol
  have hrow := foldl_range'_inv
    (fun k (dp : Table) => dp.Shaped (a.length + 1) (b.length + 1) ∧
      (∀ i2, i2 ≤ a.length → dp.get i2 0 = (i2 : Int)) ∧
      ∀ j2, j2 < k → dp.get 0 j2 = (j2 : Int))
    (fun dp j => dp.set 0 j (j : Int)) (b.length + 1) 0 _
    ⟨hs1, fun i2 hi2 => hc1 i2 (by omega), fun j2 h => absurd h (Nat.not_lt_zero _)⟩
    (by
      rintro k dp - hk ⟨hs, hc, hr⟩
      refine ⟨Table.set_shaped _ _ _ _ _ _ hs, ?_, ?_⟩
      · intro i2 hi2
        by_cases he : i2 = 0 ∧ k = 0
        · obtain ⟨rfl, rfl⟩ := he
          exact Table.get_set_self _ _ _ _ _ _ hs (by omega) (by omega)
        · rw [Table.get_set_other _ _ _ _ _ _ (by omega)]
          exact hc i2 hi2
      · intro j2 hj2
        by_cases he : j2 = k
        · subst he
          exact Table.get_set_self _ _ _ _ _ _ hs (by omega) (by omega)
        · rw [Table.get_set_other _ _ _ _ _ _ (Or.inr (fun e => he e.symm))]
          exact hr j2 (by omega))
  rw [← List.range_eq_range'] at hrow
  obtain ⟨hs2, hc2, hr2⟩ := hrow
  refine ⟨hs2, ?_⟩
  intro i2 j2 hi2 hj2 hpos
  by_cases hj0 : j2 = 0
  · subst hj0
    rw [osa_zero_right]
    exact hc2 i2 hi2
  · have hi0 : i2 = 0 := by omega
    subst hi0
    rw [osa_zero_left]
    exact hr2 j2 (by omega)

/-- The inner loop fills row `i + 1`. -/
theorem row_filled (a b : Str) (dp : Table) (i : Nat) (hi : i + 1 ≤ a.length)
    (h : dp.Filled a b (i + 1) 1) :
    ((List.range' 1 b.length).foldl (fun dp j => cellUpdate a b dp (i + 1) j) dp).Filled
      a b (i + 2) 1 := by
  have hrow := foldl_range'_inv (fun k (dp : Table) => dp.Filled a b (i + 1) k)
    (fun dp j => cellUpdate a b dp (i + 1) j) b.length 1 dp h
    (by
      intro k dp hk1 hk2 hf
      obtain ⟨j, rfl⟩ : ∃ j, k = j + 1 := ⟨k - 1, by omega⟩
      exact cellUpdate_filled a b dp i j hi (by omega) hf)
  obtain ⟨hs, hc⟩ := hrow
  refine ⟨hs, ?_⟩
  intro i2 j2 hi2 hj2 hpos
  exact hc i2 j2 hi2 hj2 (by omega)

/-- The filled matrix holds the specified distance in its last cell. -/
theorem editTable_last (a b : Str) :
    (editTable a b).get a.length b.length = ((osa a b a.length b.length : Nat) : Int) := by
  have hmain := foldl_range'_inv (fun k (dp : Table) => dp.Filled a b k 1)
    (fun dp i => (List.range' 1 b.length).foldl (fun dp j => cellUpdate a b dp i j) dp)
    a.length 1 _ (border_filled a b)
    (by
      intro k dp hk1 hk2 hf
      obtain ⟨i, rfl⟩ : ∃ i, k = i + 1 := ⟨k - 1, by omega⟩
      exact row_filled a b dp i (by omega) hf)
  obtain ⟨_, hc⟩ := hmain
  exact hc a.length b.length (le_refl _) (le_refl _) (by omega)

/-- C6: for all texts `a`, `b` and every bound `max` (negative ones included),
`editDistance a b max` is the smaller of `max + 1` and the optimal-string-alignment
distance of `a` and `b` given by the textbook recurrence (insertion, deletion,
substitution and exchange of two adjacent runes at cost 1 each).  Neither the early exit
on the length difference nor the use of `cost` in the exchange term changes the value. -/
theorem C6_editDistance_is_bounded_osa (a b : Str) (max : Int) :
    editDistance a b max = Min.min ((osaDistance a b : Nat) : Int) (max + 1) := by
  have hlow := osa_lower a b (a.length + b.length) a.length b.length (le_refl _)
  unfold editDistance osaDistance
  simp only [editTable_last]
  unfold abs
  split_ifs <;> omega

/-! ## C5: one edit away from a pool text -/

/-- A distance of the specification that is within the bound is what `editDistance`
returns at most. -/
theorem editDistance_le_of_osa_le (a b : Str) (max : Int) (k : Nat)
    (hk : osaDistance a b ≤ k) (hmax : (k : Int) ≤ max) : editDistance a b max ≤ k := by
  have hlow := osa_lower a b (a.length + b.length) a.length b.length (le_refl _)
  unfold osaDistance at hk
  unfold editDistance
  simp only [editTable_last]
  unfold abs
  split_ifs <;> omega

/-- Equal runes at the ends of two prefixes do not raise the distance. -/
theorem osa_strip (a b : Str) (i j k : Nat)
    (h : ∀ m, m < k → a[i + m]? = b[j + m]?) :
    osa a b (i + k) (j + k) ≤ osa a b i j := by
  induction k with
  | zero => simp
  | succ k ih =>
    have hk := ih (fun m hm => h m (by omega))
    have hs := osa_le_sub a b (i + k) (j + k)
    rw [if_pos (h k (by omega))] at hs
    have e1 : i + (k + 1) = i + k + 1 := by omega
    have e2 : j + (k + 1) = j + k + 1 := by omega
    rw [e1, e2]
    omega

theorem getElem?_append_cons_tail (u v : Str) (y : Char) (m : Nat) :
    (u ++ y :: v)[u.length + 1 + m]? = v[m]? := by
  rw [List.getElem?_append_right (by omega)]
  have e : u.length + 1 + m - u.length = m + 1 := by omega
  rw [e, List.getElem?_cons_succ]

theorem getElem?_append_tail (u v : Str) (m : Nat) :
    (u ++ v)[u.length + m]? = v[m]? := by
  rw [List.getElem?_append_right (by omega)]
  have e : u.length + m - u.length = m := by omega
  rw [e]

theorem getElem?_append_head (u v w : Str) (m : Nat) (hm : m < u.length) :
    (u ++ v)[m]? = (u ++ w)[m]? := by
  rw [List.getElem?_append_left hm, List.getElem?_append_left hm]

/-- Two texts with a common prefix `u` are at distance 0 on that prefix. -/
theorem osa_common_prefix (u v w : Str) :
    osa (u ++ v) (u ++ w) u.length u.length = 0 := by
  have h := osa_strip (u ++ v) (u ++ w) 0 0 u.length (by
    intro m hm
    simpa using getElem?_append_head u v w m hm)
  simp only [Nat.zero_add, osa_zero_left] at h
  omega

theorem osa_substitution (u v : Str) (x y : Char) :
    osaDistance (u ++ y :: v) (u ++ x :: v) ≤ 1 := by
  unfold osaDistance
  have h0 := osa_common_prefix u (y :: v) (x :: v)
  have h1 := osa_le_sub (u ++ y :: v) (u ++ x :: v) u.length u.length
  have h2 := osa_strip (u ++ y :: v) (u ++ x :: v) (u.length + 1) (u.length + 1) v.length (by
    intro m _
    rw [getElem?_append_cons_tail, getElem?_append_cons_tail])
  have e : (u ++ y :: v).length = u.length + 1 + v.length := by simp; omega
  have e2 : (u ++ x :: v).length = u.length + 1 + v.length := by simp; omega
  rw [e, e2]
  have hc : (if (u ++ y :: v)[u.length]? = (u ++ x :: v)[u.length]? then 0 else 1) ≤ 1 := by
    split_ifs <;> omega
  omega

theorem osa_shorter (u v : Str) (x : Char) :
    osaDistance (u ++ v) (u ++ x :: v) ≤ 1 := by
  unfold osaDistance
  have h0 := osa_common_prefix u v (x :: v)
  have h1 := osa_le_ins (u ++ v) (u ++ x :: v) u.length u.length
  have h2 := osa_strip (u ++ v) (u ++ x :: v) u.length (u.length + 1) v.length (by
    intro m _
    rw [getElem?_append_tail, getElem?_append_cons_tail])
  have e : (u ++ v).length = u.length + v.length := by simp
  have e2 : (u ++ x :: v).length = u.length + 1 + v.length := by simp; omega
  rw [e, e2]
  omega

theorem osa_longer (u v : Str) (y : Char) :
    osaDistance (u ++ y :: v) (u ++ v) ≤ 1 := by
  unfold osaDistance
  have h0 := osa_common_prefix u (y :: v) v
  have h1 := osa_le_del (u ++ y :: v) (u ++ v) u.length u.length
  have h2 := osa_strip (u ++ y :: v) (u ++ v) (u.length + 1) u.length v.length (by
    intro m _
    rw [getElem?_append_tail, getElem?_append_cons_tail])
  have e : (u ++ v).length = u.length + v.length := by simp
  have e2 : (u ++ y :: v).length = u.length + 1 + v.length := by simp; omega
  rw [e, e2]
  omega

theorem osa_self (t : Str) : osaDistance t t ≤ 1 := by
  unfold osaDistance
  have h := osa_common_prefix t [] []
  simp only [List.append_nil] at h
  omega

/-- Cleaning a single edit of a Han-only text leaves a text at distance at most 1 from it
and changes the length by at most one rune. -/
theorem clean_single_edit (isHan : Char → Bool) (t c : Str)
    (ht : cleanChinese isHan t = t) (h : SingleEdit t c) :
    osaDistance (cleanChinese isHan c) t ≤ 1 ∧
      t.length ≤ (cleanChinese isHan c).length + 1 := by
  obtain ⟨u, v, x, y, h | h | h⟩ := h
  · obtain ⟨rfl, rfl⟩ := h
    have hu : cleanChinese isHan u = u := cleanChinese_append_left isHan _ u (x :: v) ht
    have hall : ∀ a ∈ u ++ x :: v, isHan a = true := by
      unfold cleanChinese at ht
      exact List.filter_eq_self.mp ht
    have hv : cleanChinese isHan v = v := by
      unfold cleanChinese
      exact List.filter_eq_self.mpr (fun a ha => hall a (by simp [ha]))
    unfold cleanChinese at hu hv ⊢
    by_cases hy : isHan y = true
    · simp only [List.filter_append, List.filter_cons, hy, if_true, hu, hv]
      exact ⟨osa_substitution u v x y, by simp⟩
    · simp only [List.filter_append, List.filter_cons, hy, if_false, hu, hv]
      exact ⟨osa_shorter u v x, by simp; omega⟩
  · obtain ⟨rfl, rfl⟩ := h
    have hu : cleanChinese isHan u = u := cleanChinese_append_left isHan _ u v ht
    have hall : ∀ a ∈ u ++ v, isHan a = true := by
      unfold cleanChinese at ht
      exact List.filter_eq_self.mp ht
    have hv : cleanChinese isHan v = v := by
      unfold cleanChinese
      exact List.filter_eq_self.mpr (fun a ha => hall a (by simp [ha]))
    unfold cleanChinese at hu hv ⊢
    by_cases hy : isHan y = true
    · simp only [List.filter_append, List.filter_cons, hy, if_true, hu, hv]
      exact ⟨osa_longer u v y, by simp; omega⟩
    · simp only [List.filter_append, List.filter_cons, hy, if_false, hu, hv]
      exact ⟨osa_self (u ++ v), by simp⟩
  · obtain ⟨rfl, rfl⟩ := h
    have hu : cleanChinese isHan u = u := cleanChinese_append_left isHan _ u (x :: v) ht
    have hall : ∀ a ∈ u ++ x :: v, isHan a = true := by
      unfold cleanChinese at ht
      exact List.filter_eq_self.mp ht
    have hv : cleanChinese isHan v = v := by
      unfold cleanChinese
      exact List.filter_eq_self.mpr (fun a ha => hall a (by simp [ha]))
    unfold cleanChinese at hu hv ⊢
    simp only [List.filter_append, hu, hv]
    exact ⟨osa_shorter u v x, by simp; omega⟩
theorem editStep_keeps_hit (isHan : Char → Bool) (cfg : MatcherConfig) (pool : List SkillPool)
    (cleaned : Str) (maxEd : Int) (best : Int × Int) (f : SkillPool) (hf : f ∈ pool)
    (h : BestHit isHan pool cleaned maxEd best) :
    BestHit isHan pool cleaned maxEd (editStep false cleaned maxEd best (mkEntry isHan cfg f)) := by
  unfold editStep
  simp only [Bool.false_eq_true, if_false]
  split_ifs with hc
  · exact ⟨hc.1, f, hf, rfl, hc.1⟩
  · exact h

theorem editStep_first_hit (isHan : Char → Bool) (cfg : MatcherConfig) (pool : List SkillPool)
    (cleaned : Str) (maxEd : Int) (best : Int × Int) (f : SkillPool) (hf : f ∈ pool)
    (hbest : best.2 = maxEd + 1)
    (hd : editDistance cleaned (cleanChinese isHan f.Chinese) maxEd ≤ maxEd) :
    BestHit isHan pool cleaned maxEd (editStep false cleaned maxEd best (mkEntry isHan cfg f)) := by
  unfold editStep
  simp only [Bool.false_eq_true, if_false]
  have hc : editDistance cleaned (mkEntry isHan cfg f).RawFull maxEd ≤ maxEd ∧
      editDistance cleaned (mkEntry isHan cfg f).RawFull maxEd < best.2 := by
    refine ⟨hd, ?_⟩
    have : editDistance cleaned (mkEntry isHan cfg f).RawFull maxEd ≤ maxEd := hd
    omega
  rw [if_pos hc]
  exact ⟨hd, f, hf, rfl, hd⟩

theorem editStep_miss (isHan : Char → Bool) (cfg : MatcherConfig)
    (cleaned : Str) (maxEd : Int) (best : Int × Int) (f : SkillPool)
    (hd : ¬ editDistance cleaned (cleanChinese isHan f.Chinese) maxEd ≤ maxEd) :
    editStep false cleaned maxEd best (mkEntry isHan cfg f) = best := by
  unfold editStep
  simp only [Bool.false_eq_true, if_false]
  have hc : ¬ (editDistance cleaned (mkEntry isHan cfg f).RawFull maxEd ≤ maxEd ∧
      editDistance cleaned (mkEntry isHan cfg f).RawFull maxEd < best.2) := fun h => hd h.1
  rw [if_neg hc]

theorem editFold_keeps_hit (isHan : Char → Bool) (cfg : MatcherConfig) (pool : List SkillPool)
    (cleaned : Str) (maxEd : Int) (l : List SkillPool) (hl : ∀ f ∈ l, f ∈ pool)
    (best : Int × Int) (h : BestHit isHan pool cleaned maxEd best) :
    BestHit isHan pool cleaned maxEd
      ((l.map (mkEntry isHan cfg)).foldl (editStep false cleaned maxEd) best) := by
  induction l generalizing best with
  | nil => exact h
  | cons f rest ih =>
    rw [List.map_cons, List.foldl_cons]
    exact ih (fun g hg => hl g (List.mem_cons_of_mem _ hg)) _
      (editStep_keeps_hit isHan cfg pool cleaned maxEd best f (hl f (List.mem_cons_self _ _)) h)

theorem editFold_finds_hit (isHan : Char → Bool) (cfg : MatcherConfig) (pool : List SkillPool)
    (cleaned : Str) (maxEd : Int) (l : List SkillPool) (hl : ∀ f ∈ l, f ∈ pool)
    (best : Int × Int) (hbest : best.2 = maxEd + 1)
    (hex : ∃ f ∈ l, editDistance cleaned (cleanChinese isHan f.Chinese) maxEd ≤ maxEd) :
    BestHit isHan pool cleaned maxEd
      ((l.map (mkEntry isHan cfg)).foldl (editStep false cleaned maxEd) best) := by
  induction l generalizing best with
  | nil =>
    obtain ⟨f, hf, _⟩ := hex
    cases hf
  | cons g rest ih =>
    rw [List.map_cons, List.foldl_cons]
    have hrest : ∀ f ∈ rest, f ∈ pool := fun f hf => hl f (List.mem_cons_of_mem _ hf)
    by_cases hd : editDistance cleaned (cleanChinese isHan g.Chinese) maxEd ≤ maxEd
    · exact editFold_keeps_hit isHan cfg pool cleaned maxEd rest hrest _
        (editStep_first_hit isHan cfg pool cleaned maxEd best g (hl g (List.mem_cons_self _ _))
          hbest hd)
    · rw [editStep_miss isHan cfg cleaned maxEd best g hd]
      obtain ⟨f, hf, hfd⟩ := hex
      rcases List.mem_cons.mp hf with rfl | hf2
      · exact absurd hfd hd
      · exact ih hrest best hbest ⟨f, hf2, hfd⟩

/-- Stage 6 on a built index: when the identifiers are non-zero and some pool entry is
within the bound, the stage hits with the identifier of a pool entry within the bound. -/
theorem editFallback_hit (isHan : Char → Bool) (cfg : MatcherConfig) (pool : List SkillPool)
    (cleaned : Str) (hids : ∀ f ∈ pool, f.ID ≠ 0)
    (hex : ∃ f ∈ pool, editDistance cleaned (cleanChinese isHan f.Chinese)
      (maxEdOf (cleaned.length : Int)) ≤ maxEdOf (cleaned.length : Int)) :
    ∃ f ∈ pool, editFallback false cleaned (cleaned.length : Int)
        (buildSlotIndex isHan cfg pool).entries = (f.ID, true) ∧
      editDistance cleaned (cleanChinese isHan f.Chinese)
        (maxEdOf (cleaned.length : Int)) ≤ maxEdOf (cleaned.length : Int) := by
  have hfold := editFold_finds_hit isHan cfg pool cleaned (maxEdOf (cleaned.length : Int)) pool
    (fun f hf => hf) (0, maxEdOf (cleaned.length : Int) + 1) rfl hex
  obtain ⟨_, f, hf, hfid, hfd⟩ := hfold
  refine ⟨f, hf, ?_, hfd⟩
  unfold editFallback
  simp only [buildSlotIndex_entries]
  rw [← hfid] at *
  have hne := hids f hf
  rw [← hfid] at hne
  rw [if_pos hne]

theorem attemptMatch_hit_of_fallback (slot : Int) (cleaned core : Str)
    (idx : slotIndex) (id : Int)
    (h : editFallback false cleaned (cleaned.length : Int) idx.entries = (id, true)) :
    ∃ id2, attemptMatch "raw" slot cleaned core idx = (id2, true) := by
  unfold attemptMatch
  have hraw : decide ("raw" = "norm") = false := by decide
  simp only [hraw, Bool.false_eq_true, if_false]
  split
  · exact ⟨_, rfl⟩
  · split
    · exact ⟨_, rfl⟩
    · split
      · exact ⟨_, rfl⟩
      · split
        · exact ⟨_, rfl⟩
        · split
          · exact ⟨_, rfl⟩
          · exact ⟨id, h⟩

theorem attemptMatch_of_earlyMiss (slot : Int) (cleaned core : Str) (idx : slotIndex)
    (h : earlyMiss false cleaned core idx) :
    attemptMatch "raw" slot cleaned core idx
      = editFallback false cleaned (cleaned.length : Int) idx.entries := by
  obtain ⟨h1, h2, h3, h4, h5⟩ := h
  simp only [Bool.false_eq_true, if_false] at h1 h2 h5
  unfold attemptMatch
  have hraw : decide ("raw" = "norm") = false := by decide
  simp only [hraw, Bool.false_eq_true, if_false, h1, h2, h3, h4, h5]
/-- C5 (as stated, refuted): the slot-1 pool holds (1, "甲乙丙己") and (2, "甲乙丙丁"); the
text of the second entry has four runes, and "甲乙丙戊" arises from it by substituting its
last rune.  Both entries are at distance 1 from the corrupted text and the first one found
wins: resolve returns identifier 1, not 2. -/
theorem C5_counterexample :
    (⟨2, "", "甲乙丙丁".toList⟩ : SkillPool) ∈ getPoolBySlot (dbOfSlot1 poolNeighbours) 1 ∧
      4 ≤ (cleanChinese hanBlock "甲乙丙丁".toList).length ∧
      SingleEdit (cleanChinese hanBlock "甲乙丙丁".toList) "甲乙丙戊".toList ∧
      matchSkillIDEnhanced hanBlock cfgZhiLi
        (buildSlotIndices hanBlock cfgZhiLi (dbOfSlot1 poolNeighbours)) 1 "甲乙丙戊".toList
        = some (1, true) := by
  refine ⟨by decide, by decide, ?_, by decide⟩
  exact ⟨"甲乙丙".toList, [], '丁', '戊', Or.inl ⟨by decide, by decide⟩⟩

/-! ## C11: the visited count against the boxes collected -/

theorem sortBoxes_length (boxes : List Box) : (sortBoxes boxes).length = boxes.length := by
  unfold sortBoxes
  exact List.length_insertionSort _ _

theorem pendingBoxes_le (s : State) : pendingBoxes s ≤ s.rowBoxes.length := by
  unfold pendingBoxes
  split_ifs <;> omega

/-- `RowCollect` leaves the visited count alone and leaves at most the boxes it accepted
pending. -/
theorem RowCollect_budget (s : State) (arg : RowCollectArg) :
    (RowCollect s arg).1.visitedCount = s.visitedCount ∧
      pendingBoxes (RowCollect s arg).1 ≤ pendingBoxes s + acceptedBoxes arg := by
  unfold RowCollect acceptedBoxes
  by_cases hd : arg.detailOk = true
  · by_cases hc : arg.controllerOk = true
    · by_cases hi : arg.imageOk = true
      · simp only [hd, hc, hi, Bool.not_true, Bool.false_eq_true, if_false, Bool.or_self]
        generalize (if arg.filtered.length = 0 then arg.all else arg.filtered) = results
        have hlen := sortBoxes_length (collectBoxes results)
        split_ifs <;> refine ⟨rfl, ?_⟩ <;>
          (refine le_trans (pendingBoxes_le _) ?_; simp only [hlen]; omega)
      · simp [hd, hc, hi]
    · simp [hd, hc]
  · simp [hd]

/-- `RowNextItem` pays for every click with one pending box. -/
theorem RowNextItem_budget (s : State) :
    (RowNextItem s).1.visitedCount + (pendingBoxes (RowNextItem s).1 : Int)
      ≤ s.visitedCount + (pendingBoxes s : Int) := by
  unfold RowNextItem
  by_cases h1 : s.rowIndex ≥ (s.rowBoxes.length : Int)
  · rw [if_pos h1]
    split_ifs <;> exact le_refl _
  · rw [if_neg h1]
    by_cases h3 : s.rowIndex < 0
    · rw [if_pos h3]
    · rw [if_neg h3]
      cases hget : s.rowBoxes[s.rowIndex.toNat]? with
      | none => exact le_refl _
      | some box =>
        simp only []
        have hlt : s.rowIndex.toNat < s.rowBoxes.length := by
          by_contra hge
          rw [List.getElem?_eq_none (by omega)] at hget
          cases hget
        unfold pendingBoxes
        simp only []
        have hneg : ¬ s.rowIndex + 1 < 0 := by omega
        rw [if_neg h3, if_neg hneg]
        have e : (s.rowIndex + 1).toNat = s.rowIndex.toNat + 1 := by omega
        rw [e]
        omega

theorem ensureBuilt_frame (isHan : Char → Bool) (s : State) :
    (ensureBuilt isHan s).visitedCount = s.visitedCount ∧
      (ensureBuilt isHan s).rowBoxes = s.rowBoxes ∧
      (ensureBuilt isHan s).rowIndex = s.rowIndex := by
  unfold ensureBuilt; split_ifs <;> exact ⟨rfl, rfl, rfl⟩

theorem MatchEssenceSkills_frame (isHan : Char → Bool) (s : State) (l : List Str) :
    (MatchEssenceSkills isHan s l).2.visitedCount = s.visitedCount ∧
      (MatchEssenceSkills isHan s l).2.rowBoxes = s.rowBoxes ∧
      (MatchEssenceSkills isHan s l).2.rowIndex = s.rowIndex := by
  unfold MatchEssenceSkills
  split_ifs
  · exact ⟨rfl, rfl, rfl⟩
  · simp only []
    split
    · exact ensureBuilt_frame isHan s
    · split_ifs <;> exact ensureBuilt_frame isHan s

theorem CheckItem_frame (s : State) (arg : CheckItemArg) :
    (CheckItem s arg).1.visitedCount = s.visitedCount ∧
      (CheckItem s arg).1.rowBoxes = s.rowBoxes ∧
      (CheckItem s arg).1.rowIndex = s.rowIndex := by
  unfold CheckItem
  simp only []
  split_ifs <;> first | exact ⟨rfl, rfl, rfl⟩ | (split <;> (try split_ifs) <;> exact ⟨rfl, rfl, rfl⟩)

theorem SkillDecision_frame (isHan : Char → Bool) (s : State) :
    (SkillDecision isHan s).1.visitedCount = s.visitedCount ∧
      (SkillDecision isHan s).1.rowBoxes = s.rowBoxes ∧
      (SkillDecision isHan s).1.rowIndex = s.rowIndex := by
  unfold SkillDecision
  simp only []
  split <;> exact MatchEssenceSkills_frame isHan s _

theorem InventoryNumber_frame (s : State) (arg : InventoryArg) :
    (InventoryNumber s arg).1 = s := by
  unfold InventoryNumber
  split
  · rfl
  · split_ifs <;> rfl

theorem pendingBoxes_congr (s t : State) (hb : t.rowBoxes = s.rowBoxes)
    (hi : t.rowIndex = s.rowIndex) : pendingBoxes t = pendingBoxes s := by
  unfold pendingBoxes
  rw [hb, hi]

/-- One callback: the visited count plus the pending boxes grows by at most the boxes the
callback collected. -/
theorem step_budget (isHan : Char → Bool) (s : State) (cb : Callback) :
    (step isHan s cb).1.visitedCount + (pendingBoxes (step isHan s cb).1 : Int)
      ≤ s.visitedCount + (pendingBoxes s : Int) + (collectedSum [cb] : Int) := by
  cases cb with
  | rowCollect arg =>
    obtain ⟨hv, hp⟩ := RowCollect_budget s arg
    simp only [step, collectedSum, hv]
    push_cast
    omega
  | rowNextItem =>
    have := RowNextItem_budget s
    simp only [step, collectedSum]
    push_cast
    omega
  | checkItem arg =>
    obtain ⟨hv, hb, hi⟩ := CheckItem_frame s arg
    simp only [step, collectedSum, hv, pendingBoxes_congr s _ hb hi]
    push_cast
    omega
  | skillDecision =>
    obtain ⟨hv, hb, hi⟩ := SkillDecision_frame isHan s
    simp only [step, collectedSum, hv, pendingBoxes_congr s _ hb hi]
    push_cast
    omega
  | inventoryNumber arg =>
    simp only [step, collectedSum, InventoryNumber_frame]
    push_cast
    omega
  | trace =>
    simp only [step, collectedSum, Trace]
    push_cast
    omega

theorem collectedSum_cons (cb : Callback) (rest : List Callback) :
    collectedSum (cb :: rest) = collectedSum [cb] + collectedSum rest := by
  cases cb <;> simp [collectedSum]

/-- A run: the visited count plus the pending boxes grows by at most the boxes collected. -/
theorem run_budget (isHan : Char → Bool) (cbs : List Callback) (s : State) :
    (runState isHan s cbs).visitedCount + (pendingBoxes (runState isHan s cbs) : Int)
      ≤ s.visitedCount + (pendingBoxes s : Int) + (collectedSum cbs : Int) := by
  induction cbs generalizing s with
  | nil => simp [runState, collectedSum]
  | cons cb rest ih =>
    have h1 := step_budget isHan s cb
    have h2 := ih (step isHan s cb).1
    have e : runState isHan s (cb :: rest) = runState isHan (step isHan s cb).1 rest := by
      simp [runState]
    rw [e, collectedSum_cons]
    push_cast
    omega

theorem Init_ok_fields (s : State) (arg : InitArg) (h : (Init s arg).2.ok = true) :
    (Init s arg).1.visitedCount = 0 ∧ (Init s arg).1.matchedCount = 0 ∧
      (Init s arg).1.currentRow = 1 ∧ (Init s arg).1.maxItemsPerRow = 9 ∧
      (Init s arg).1.firstRowSwipeDone = false ∧ (Init s arg).1.finalLargeScanUsed = false ∧
      (Init s arg).1.rowBoxes = s.rowBoxes ∧ (Init s arg).1.rowIndex = s.rowIndex ∧
      (Init s arg).1.currentSkills = s.currentSkills := by
  unfold Init at h ⊢
  cases hp : arg.paramOk with
  | false => simp [hp] at h
  | true =>
    cases hmc : arg.matcherConfig with
    | none => simp [hp, hmc] at h
    | some mc =>
      cases hdb : arg.weaponDB with
      | none => simp [hp, hmc, hdb] at h
      | some db =>
        cases hps : arg.presets with
        | none => simp [hp, hmc, hdb, hps] at h
        | some presets =>
          cases hfind : presets.find? (fun p => decide (p.Name = arg.PresetName)) with
          | none => simp [hp, hmc, hdb, hps, hfind] at h
          | some selectedPreset =>
            simp [hp, hfind]

/-- C11 (as stated, refuted): an earlier run collected two boxes, clicked one and was
stopped without reaching Finish; Init succeeds and does not clear the box still pending;
the first callback of the new run, `RowNextItem`, clicks it: the visited count is 1
although no `RowCollect` call of this run has accepted any box. -/
theorem C11_counterexample :
    (Init stateLeftover initArgScenario).2.ok = true ∧
      collectedSum [Callback.rowNextItem] = 0 ∧
      (runState hanBlock (Init stateLeftover initArgScenario).1
        [Callback.rowNextItem]).visitedCount = 1 := by
  decide

/-- C11 (amended): in every state a run reaches after a successful Init, for any
interleaving of callbacks and any inputs, `visitedCount` is at most the number of boxes
that were collected but not yet clicked when Init ran, plus the sum over the `RowCollect`
calls made so far in the run of the boxes each one accepted.  The first number is zero
when Init follows a Finish. -/
theorem C11_visited_bound (isHan : Char → Bool) (s0 : State) (arg : InitArg)
    (cbs : List Callback) (hok : (Init s0 arg).2.ok = true) :
    (runState isHan (Init s0 arg).1 cbs).visitedCount
        ≤ (pendingBoxes s0 : Int) + (collectedSum cbs : Int) ∧
      (runState isHan (Init (Finish s0).1 arg).1 cbs).visitedCount ≤ (collectedSum cbs : Int) := by
  have key : ∀ p : State, (Init p arg).2.ok = true →
      (runState isHan (Init p arg).1 cbs).visitedCount
        ≤ (pendingBoxes p : Int) + (collectedSum cbs : Int) := by
    intro p hp
    obtain ⟨hv, _, _, _, _, _, hb, hi, _⟩ := Init_ok_fields p arg hp
    have hrun := run_budget isHan cbs (Init p arg).1
    rw [hv, pendingBoxes_congr p _ hb hi] at hrun
    have hnn : (0 : Int) ≤ (pendingBoxes (runState isHan (Init p arg).1 cbs) : Int) :=
      Int.ofNat_nonneg _
    omega
  refine ⟨key s0 hok, ?_⟩
  have hok2 : (Init (Finish s0).1 arg).2.ok = true := by
    unfold Init at hok ⊢
    cases hp : arg.paramOk with
    | false => simp [hp] at hok
    | true =>
      cases hmc : arg.matcherConfig with
      | none => simp [hp, hmc] at hok
      | some mc =>
        cases hdb : arg.weaponDB with
        | none => simp [hp, hmc, hdb] at hok
        | some db =>
          cases hps : arg.presets with
          | none => simp [hp, hmc, hdb, hps] at hok
          | some presets =>
            cases hfind : presets.find? (fun p => decide (p.Name = arg.PresetName)) with
            | none => simp [hp, hmc, hdb, hps, hfind] at hok
            | some selectedPreset => simp [hfind]
  have h0 : pendingBoxes (Finish s0).1 = 0 := by
    simp [pendingBoxes, Finish]
  have := key (Finish s0).1 hok2
  rw [h0] at this
  simpa using this

/-- Witness for C11 (amended): a run that collects two boxes and clicks both. -/
theorem C11_visited_bound_witness :
    (runState hanBlock (Init stateScenario initArgScenario).1
        [Callback.rowCollect argTwoBoxes, Callback.rowNextItem, Callback.rowNextItem,
          Callback.rowNextItem]).visitedCount
        ≤ (pendingBoxes stateScenario : Int)
          + (collectedSum [Callback.rowCollect argTwoBoxes, Callback.rowNextItem,
              Callback.rowNextItem, Callback.rowNextItem] : Int) ∧
      (runState hanBlock (Init (Finish stateScenario).1 initArgScenario).1
        [Callback.rowCollect argTwoBoxes, Callback.rowNextItem, Callback.rowNextItem,
          Callback.rowNextItem]).visitedCount
        ≤ (collectedSum [Callback.rowCollect argTwoBoxes, Callback.rowNextItem,
              Callback.rowNextItem, Callback.rowNextItem] : Int) :=
  C11_visited_bound hanBlock stateScenario initArgScenario
    [Callback.rowCollect argTwoBoxes, Callback.rowNextItem, Callback.rowNextItem,
      Callback.rowNextItem] (by decide)

/-! ## C12: more boxes than the per-row cap -/

/-- C12: a `RowCollect` call whose scan ran (detail, controller and screenshot present),
that is not the fallback pass and that accepted more boxes than `maxItemsPerRow`, succeeds
with next step `EssenceFilterFinish`, issues no click and leaves `visitedCount` as it was. -/
theorem C12_row_overflow_aborts (s : State) (arg : RowCollectArg)
    (hd : arg.detailOk = true) (hc : arg.controllerOk = true) (hi : arg.imageOk = true)
    (hnf : arg.CurrentTaskName ≠ "EssenceDetectFinal")
    (hover : (acceptedBoxes arg : Int) > s.maxItemsPerRow) :
    (RowCollect s arg).2 = { ok := true, next := some "EssenceFilterFinish", click := none } ∧
      (RowCollect s arg).1.visitedCount = s.visitedCount := by
  unfold acceptedBoxes at hover
  simp only [hd, hc, hi, Bool.not_true, Bool.or_self, Bool.false_eq_true, if_false] at hover
  unfold RowCollect
  simp only [hd, hc, hi, Bool.not_true, Bool.false_eq_true, if_false, hnf, decide_False,
    Bool.false_and, Bool.not_false, Bool.and_true]
  rw [sortBoxes_length]
  have hdec : decide (((collectBoxes
      (if arg.filtered.length = 0 then arg.all else arg.filtered)).length : Int)
      > s.maxItemsPerRow) = true := by simpa using hover
  simp only [hdec, if_true, and_self]

/-- Witness for C12: ten accepted boxes with the cap 9, fallback not used. -/
theorem C12_row_overflow_aborts_witness :
    (RowCollect stateScenario argTenBoxes).2
        = { ok := true, next := some "EssenceFilterFinish", click := none } ∧
      (RowCollect stateScenario argTenBoxes).1.visitedCount = stateScenario.visitedCount :=
  C12_row_overflow_aborts stateScenario argTenBoxes (by decide) (by decide) (by decide)
    (by decide) (by decide)

/-! ## C13, C14: what Finish and Init reset -/

/-- C13 (as stated, refuted): Finish leaves the three-label buffer as it is: from a state
whose buffer holds the label "强击", the buffer still holds it after Finish. -/
theorem C13_counterexample :
    (Finish stateLeftover).1.currentSkills = ("强击".toList, [], []) ∧
      (Finish stateLeftover).1.currentSkills ≠ ([], [], []) := by
  decide

/-- C13 (amended): from every state, Finish succeeds and leaves the visited count 0, the
locked count 0, the current row 1 (and column 1), first-swipe-used false, fallback-used
false, the collected boxes empty and the row index 0; the three-label buffer is not
touched by Finish and keeps its value. -/
theorem C13_finish_resets (s : State) :
    (Finish s).2.ok = true ∧
      (Finish s).1.visitedCount = 0 ∧ (Finish s).1.matchedCount = 0 ∧
      (Finish s).1.currentRow = 1 ∧ (Finish s).1.currentCol = 1 ∧
      (Finish s).1.firstRowSwipeDone = false ∧ (Finish s).1.finalLargeScanUsed = false ∧
      (Finish s).1.rowBoxes = [] ∧ (Finish s).1.rowIndex = 0 ∧
      (Finish s).1.currentSkills = s.currentSkills := by
  unfold Finish
  exact ⟨rfl, rfl, rfl, rfl, rfl, rfl, rfl, rfl, rfl, rfl⟩

/-- C14 (as stated, refuted): after an earlier run that did not reach Finish, a successful
Init leaves the collected boxes, the row index and the stored label of that run in
place. -/
theorem C14_counterexample :
    (Init stateLeftover initArgScenario).2.ok = true ∧
      (Init stateLeftover initArgScenario).1.rowBoxes
        = [⟨0, 0, 100, 120⟩, ⟨100, 0, 100, 120⟩] ∧
      (Init stateLeftover initArgScenario).1.rowIndex = 1 ∧
      (Init stateLeftover initArgScenario).1.currentSkills = ("强击".toList, [], []) := by
  decide

/-- C14 (amended): from every prior state, a successful Init leaves the visited count 0,
the locked count 0, the current row 1, the per-row cap 9 and both flags false. -/
theorem C14_init_resets (s : State) (arg : InitArg) (hok : (Init s arg).2.ok = true) :
    (Init s arg).1.visitedCount = 0 ∧ (Init s arg).1.matchedCount = 0 ∧
      (Init s arg).1.currentRow = 1 ∧ (Init s arg).1.maxItemsPerRow = 9 ∧
      (Init s arg).1.firstRowSwipeDone = false ∧ (Init s arg).1.finalLargeScanUsed = false := by
  obtain ⟨h1, h2, h3, h4, h5, h6, _⟩ := Init_ok_fields s arg hok
  exact ⟨h1, h2, h3, h4, h5, h6⟩

/-- Witness for C14 (amended): Init after the unfinished run. -/
theorem C14_init_resets_witness :
    (Init stateLeftover initArgScenario).1.visitedCount = 0 ∧
      (Init stateLeftover initArgScenario).1.matchedCount = 0 ∧
      (Init stateLeftover initArgScenario).1.currentRow = 1 ∧
      (Init stateLeftover initArgScenario).1.maxItemsPerRow = 9 ∧
      (Init stateLeftover initArgScenario).1.firstRowSwipeDone = false ∧
      (Init stateLeftover initArgScenario).1.finalLargeScanUsed = false :=
  C14_init_resets stateLeftover initArgScenario (by decide)

/-! ## C15: which stop-suffix is cut -/

/-- The loop of `trimStopSuffix` cuts the first listed suffix that passes its test. -/
theorem trimStopSuffixLoop_find (l : List Str) (s : Str) :
    trimStopSuffixLoop l s
      = match l.find? (fun suf => HasSuffix s suf && decide (s.length > suf.length)) with
        | some suf => TrimSuffix s suf
        | none => s := by
  induction l with
  | nil => rfl
  | cons a rest ih =>
    unfold trimStopSuffixLoop
    by_cases h : (HasSuffix s a && decide (s.length > a.length)) = true
    · have hf : (a :: rest).find?
          (fun suf => HasSuffix s suf && decide (s.length > suf.length)) = some a :=
        List.find?_cons_of_pos (p := fun suf => HasSuffix s suf && decide (s.length > suf.length))
          rest h
      rw [hf, if_pos h]
    · have hf : (a :: rest).find?
          (fun suf => HasSuffix s suf && decide (s.length > suf.length))
          = rest.find? (fun suf => HasSuffix s suf && decide (s.length > suf.length)) :=
        List.find?_cons_of_neg (p := fun suf => HasSuffix s suf && decide (s.length > suf.length))
          rest h
      rw [hf, if_neg h]
      exact ih

theorem TrimSuffix_append_self (s suf : Str) (h : HasSuffix s suf = true) :
    TrimSuffix s suf ++ suf = s := by
  unfold TrimSuffix
  rw [if_pos h]
  unfold HasSuffix at h
  rw [List.isSuffixOf_iff_suffix] at h
  obtain ⟨t, rfl⟩ := h
  simp

/-- In a list ordered from longest to shortest, the first element passing a test is at
least as long as every element passing it. -/
theorem find?_longest (l : List Str) (p : Str → Bool) (suf : Str)
    (hsorted : l.Pairwise (fun a b => b.length ≤ a.length))
    (hfind : l.find? p = some suf) :
    ∀ t ∈ l, p t = true → t.length ≤ suf.length := by
  induction l with
  | nil => simp at hfind
  | cons a rest ih =>
    rw [List.pairwise_cons] at hsorted
    intro t ht hpt
    by_cases hpa : p a = true
    · rw [List.find?_cons_of_pos _ hpa] at hfind
      have hsa : a = suf := by simpa using hfind
      subst hsa
      rcases List.mem_cons.mp ht with rfl | hmem
      · exact le_refl _
      · exact hsorted.1 t hmem
    · rw [List.find?_cons_of_neg _ hpa] at hfind
      rcases List.mem_cons.mp ht with rfl | hmem
      · exact absurd hpt hpa
      · exact ih hsorted.2 hfind t hmem hpt

/-- C15 (as stated, refuted): with the stop-suffix list ["力", "之力"] and the text
"强击之力", the longest configured suffix that fits and leaves a remainder is "之力", but
`trimStopSuffix` cuts "力" and returns "强击之"; with the same suffixes listed in the other
order it returns "强击": the result depends on the order. -/
theorem C15_counterexample :
    "之力".toList ∈ cfgTwoSuffixes.SuffixStopwords ∧
      HasSuffix "强击之力".toList "之力".toList = true ∧
      "力".toList.length < "之力".toList.length ∧
      trimStopSuffix cfgTwoSuffixes "强击之力".toList = "强击之".toList ∧
      cfgTwoSuffixesSwapped.SuffixStopwords.Perm cfgTwoSuffixes.SuffixStopwords ∧
      trimStopSuffix cfgTwoSuffixesSwapped "强击之力".toList = "强击".toList := by
  refine ⟨by decide, by decide, by decide, by decide, ?_, by decide⟩
  exact List.Perm.swap _ _ _

/-- C15 (amended): for every stop-suffix list and every text `s`, `trimStopSuffix s`
removes the first configured suffix, in list order, that `s` ends with and that is
shorter than `s`, and returns `s` unchanged when there is none; that suffix is the longest
one of this kind whenever the suffixes are listed from longest to shortest. -/
theorem C15_trim_first_listed (cfg : MatcherConfig) (s : Str) :
    (∀ suf, cfg.SuffixStopwords.find?
        (fun suf => HasSuffix s suf && decide (s.length > suf.length)) = some suf →
        trimStopSuffix cfg s ++ suf = s) ∧
      (cfg.SuffixStopwords.find?
        (fun suf => HasSuffix s suf && decide (s.length > suf.length)) = none →
        trimStopSuffix cfg s = s) ∧
      (cfg.SuffixStopwords.Pairwise (fun a b => b.length ≤ a.length) →
        ∀ suf, cfg.SuffixStopwords.find?
          (fun suf => HasSuffix s suf && decide (s.length > suf.length)) = some suf →
        ∀ t ∈ cfg.SuffixStopwords, HasSuffix s t = true → t.length < s.length →
          t.length ≤ suf.length) := by
  refine ⟨?_, ?_, ?_⟩
  · intro suf hfind
    unfold trimStopSuffix
    rw [trimStopSuffixLoop_find, hfind]
    have hp := List.find?_some hfind
    simp only [Bool.and_eq_true] at hp
    exact TrimSuffix_append_self s suf hp.1
  · intro hfind
    unfold trimStopSuffix
    rw [trimStopSuffixLoop_find, hfind]
  · intro hsorted suf hfind t ht hts hlen
    exact find?_longest _ _ suf hsorted hfind t ht (by simp [hts, hlen])

/-- Witness for C15 (amended): the list ["之力", "力"], longest first, on "强击之力". -/
theorem C15_trim_first_listed_witness :
    trimStopSuffix cfgTwoSuffixesSwapped "强击之力".toList ++ "之力".toList = "强击之力".toList :=
  (C15_trim_first_listed cfgTwoSuffixesSwapped "强击之力".toList).1 "之力".toList (by decide)

/-! ## C17: the scenario of the specification -/

/-- C17 (as stated, refuted): in the scenario the label "强" is not decided by the
single-character stage: stage 3 (full-text substring) already hits, because "强击" is within
two runes of "强" and contains it; so it is false that stages 1 to 4 miss and stage 5
answers. -/
theorem C17_counterexample :
    substringFull false "强".toList 1 (buildSlotIndex hanBlock cfgZhiLi poolScenario).entries
        = some 1 ∧
      ¬ ((buildSlotIndex hanBlock cfgZhiLi poolScenario).rawFullIndex "强".toList = [] ∧
        (buildSlotIndex hanBlock cfgZhiLi poolScenario).rawCoreIndex
          (trimStopSuffix cfgZhiLi "强".toList) = [] ∧
        substringFull false "强".toList 1
          (buildSlotIndex hanBlock cfgZhiLi poolScenario).entries = none ∧
        substringCore false (trimStopSuffix cfgZhiLi "强".toList) 1
          (buildSlotIndex hanBlock cfgZhiLi poolScenario).entries = none ∧
        singleChar (buildSlotIndex hanBlock cfgZhiLi poolScenario).firstCharRaw
          (buildSlotIndex hanBlock cfgZhiLi poolScenario).lastCharRaw "强".toList 1 = some 1) := by
  decide

/-- C17 (amended): with slot-1 pool [(1, "强击"), (2, "守护")], stop-suffix list ["之力"] and
an empty substitution table: "强击之力" resolves to (1, matched), decided by the core exact
stage (stage 1 misses, the core "强击" is found by stage 2); "强" resolves to (1, matched),
decided by the full-text substring stage (stages 1 and 2 miss, stage 3 hits); "强仅"
resolves to (1, matched), decided by the edit-distance stage with bound 1 (stages 1 to 5
miss). -/
theorem C17_scenario :
    (matchSkillIDEnhanced hanBlock cfgZhiLi
        (buildSlotIndices hanBlock cfgZhiLi (dbOfSlot1 poolScenario)) 1 "强击之力".toList
        = some (1, true) ∧
      (buildSlotIndex hanBlock cfgZhiLi poolScenario).rawFullIndex "强击之力".toList = [] ∧
      trimStopSuffix cfgZhiLi "强击之力".toList = "强击".toList ∧
      (buildSlotIndex hanBlock cfgZhiLi poolScenario).rawCoreIndex "强击".toList = [1]) ∧
    (matchSkillIDEnhanced hanBlock cfgZhiLi
        (buildSlotIndices hanBlock cfgZhiLi (dbOfSlot1 poolScenario)) 1 "强".toList
        = some (1, true) ∧
      (buildSlotIndex hanBlock cfgZhiLi poolScenario).rawFullIndex "强".toList = [] ∧
      (buildSlotIndex hanBlock cfgZhiLi poolScenario).rawCoreIndex
        (trimStopSuffix cfgZhiLi "强".toList) = [] ∧
      substringFull false "强".toList 1
        (buildSlotIndex hanBlock cfgZhiLi poolScenario).entries = some 1) ∧
    (matchSkillIDEnhanced hanBlock cfgZhiLi
        (buildSlotIndices hanBlock cfgZhiLi (dbOfSlot1 poolScenario)) 1 "强仅".toList
        = some (1, true) ∧
      earlyMiss false "强仅".toList (trimStopSuffix cfgZhiLi "强仅".toList)
        (buildSlotIndex hanBlock cfgZhiLi poolScenario) ∧
      maxEdOf 2 = 1 ∧
      editFallback false "强仅".toList 2
        (buildSlotIndex hanBlock cfgZhiLi poolScenario).entries = (1, true)) := by
  refine ⟨by decide, by decide, ⟨by decide, ?_, by decide, by decide⟩⟩
  unfold earlyMiss
  decide

/-! ## C18: the filter predicate -/

theorem foldl_filter_acc (p : WeaponData → Bool) (l acc : List WeaponData) :
    l.foldl (fun acc w => if p w then acc ++ [w] else acc) acc = acc ++ l.filter p := by
  induction l generalizing acc with
  | nil => simp
  | cons w rest ih =>
    rw [List.foldl_cons, ih]
    by_cases h : p w = true
    · simp [h, List.filter_cons]
    · simp [h, List.filter_cons]

/-- C18: for every catalog and every criteria, `FilterWeaponsByConfig` returns exactly the
catalog items, in catalog order, whose type is in the type-id set (or the set is empty) and
whose rarity lies between the minimum and the maximum; with an empty type set and the
range [5, 6] over items of rarity 4, 5, 6, 6 it returns the three items of rarity 5 or 6. -/
theorem C18_filter_predicate (db : WeaponDatabase) (cfg : FilterConfig) :
    FilterWeaponsByConfig db cfg
        = db.Weapons.filter (fun w => decide ((cfg.TypeIDs = [] ∨ w.TypeID ∈ cfg.TypeIDs) ∧
            cfg.MinRarity ≤ w.Rarity ∧ w.Rarity ≤ cfg.MaxRarity)) ∧
      (∀ w, w ∈ FilterWeaponsByConfig db cfg ↔
        w ∈ db.Weapons ∧ (cfg.TypeIDs = [] ∨ w.TypeID ∈ cfg.TypeIDs) ∧
          cfg.MinRarity ≤ w.Rarity ∧ w.Rarity ≤ cfg.MaxRarity) ∧
      FilterWeaponsByConfig dbFourWeapons criteriaFiveSix = [weaponB, weaponA, weaponD] := by
  have hfun : weaponPasses cfg
      = fun w => decide ((cfg.TypeIDs = [] ∨ w.TypeID ∈ cfg.TypeIDs) ∧
          cfg.MinRarity ≤ w.Rarity ∧ w.Rarity ≤ cfg.MaxRarity) := by
    funext w
    unfold weaponPasses
    simp only [Bool.decide_and, Bool.decide_or]
  have heq : FilterWeaponsByConfig db cfg
      = db.Weapons.filter (fun w => decide ((cfg.TypeIDs = [] ∨ w.TypeID ∈ cfg.TypeIDs) ∧
          cfg.MinRarity ≤ w.Rarity ∧ w.Rarity ≤ cfg.MaxRarity)) := by
    unfold FilterWeaponsByConfig
    rw [foldl_filter_acc, hfun]
    simp
  refine ⟨heq, ?_, by decide⟩
  intro w
  rw [heq, List.mem_filter]
  simp

/-! ## C16: what the edit-distance stage selects -/

/-- Invariant of the stage-6 loop over the entries processed so far. -/
theorem editFold_invariant (cleaned : Str) (maxEd : Int) (rest : List skillEntry) :
    ∀ (processed : List skillEntry) (best : Int × Int),
      ((best = (0, maxEd + 1) ∧
          ∀ x ∈ processed, maxEd < editDistance cleaned x.RawFull maxEd) ∨
        FirstClosest cleaned maxEd processed best) →
      ((rest.foldl (editStep false cleaned maxEd) best = (0, maxEd + 1) ∧
          ∀ x ∈ processed ++ rest, maxEd < editDistance cleaned x.RawFull maxEd) ∨
        FirstClosest cleaned maxEd (processed ++ rest)
          (rest.foldl (editStep false cleaned maxEd) best)) := by
  induction rest with
  | nil => intro processed best h; simpa using h
  | cons x rest ih =>
    intro processed best h
    rw [List.foldl_cons]
    have e : processed ++ x :: rest = (processed ++ [x]) ++ rest := by simp
    rw [e]
    apply ih
    unfold editStep
    simp only [Bool.false_eq_true, if_false]
    rcases h with ⟨hbest, hall⟩ | ⟨pre, c, post, hdec, hbest, hc, hpre, hpost⟩
    · subst hbest
      by_cases hx : editDistance cleaned x.RawFull maxEd ≤ maxEd
      · right
        have hcond : editDistance cleaned x.RawFull maxEd ≤ maxEd ∧
            editDistance cleaned x.RawFull maxEd < ((0 : Int), maxEd + 1).2 :=
          ⟨hx, by simp only []; omega⟩
        rw [if_pos hcond]
        refine ⟨processed, x, [], rfl, rfl, hx, ?_, ?_⟩
        · intro y hy
          have := hall y hy
          omega
        · intro y hy; cases hy
      · left
        have hcond : ¬ (editDistance cleaned x.RawFull maxEd ≤ maxEd ∧
            editDistance cleaned x.RawFull maxEd < ((0 : Int), maxEd + 1).2) := fun h => hx h.1
        rw [if_neg hcond]
        refine ⟨rfl, ?_⟩
        intro y hy
        rcases List.mem_append.mp hy with hy | hy
        · exact hall y hy
        · have : y = x := by simpa using hy
          subst this
          omega
    · right
      subst hbest
      by_cases hcond : editDistance cleaned x.RawFull maxEd ≤ maxEd ∧
          editDistance cleaned x.RawFull maxEd < (c.ID, editDistance cleaned c.RawFull maxEd).2
      · rw [if_pos hcond]
        obtain ⟨hx, hlt⟩ := hcond
        simp only [] at hlt
        refine ⟨processed, x, [], rfl, rfl, hx, ?_, ?_⟩
        · intro y hy
          rw [hdec] at hy
          rcases List.mem_append.mp hy with hy | hy
          · have := hpre y hy
            omega
          · rcases List.mem_cons.mp hy with rfl | hy
            · exact hlt
            · have := hpost y hy
              omega
        · intro y hy; cases hy
      · rw [if_neg hcond]
        refine ⟨pre, c, post ++ [x], by simp [hdec], rfl, hc, hpre, ?_⟩
        intro y hy
        rcases List.mem_append.mp hy with hy | hy
        · exact hpost y hy
        · have : y = x := by simpa using hy
          subst this
          simp only [] at hcond
          by_contra hlt
          exact hcond ⟨by omega, by omega⟩

/-- Stage 6 in general: with no entry within the bound it misses; otherwise it looks at
the first closest entry (smallest distance, earliest among ties) and reports it, except
that it misses when that entry has the identifier 0. -/
theorem editFallback_first_closest (cleaned : Str) (cLen : Int)
    (es : List skillEntry) :
    ((∀ x ∈ es, maxEdOf cLen < editDistance cleaned x.RawFull (maxEdOf cLen)) →
        editFallback false cleaned cLen es = (0, false)) ∧
      ((∃ x ∈ es, editDistance cleaned x.RawFull (maxEdOf cLen) ≤ maxEdOf cLen) →
        ∃ best, FirstClosest cleaned (maxEdOf cLen) es best ∧
          editFallback false cleaned cLen es
            = if best.1 ≠ 0 then (best.1, true) else (0, false)) := by
  have hinv := editFold_invariant cleaned (maxEdOf cLen) es [] (0, maxEdOf cLen + 1)
    (Or.inl ⟨rfl, fun x hx => by cases hx⟩)
  simp only [List.nil_append] at hinv
  constructor
  · intro hall
    rcases hinv with ⟨hb, _⟩ | ⟨pre, c, post, hdec, _, hc, _, _⟩
    · unfold editFallback
      simp only [hb]
      simp
    · have := hall c (by rw [hdec]; simp)
      omega
  · rintro ⟨x, hx, hxd⟩
    rcases hinv with ⟨_, hall⟩ | hfc
    · have := hall x hx
      omega
    · exact ⟨_, hfc, rfl⟩

/-- C16 (the code at the failing input): the slot-1 pool holds the single entry
(0, "甲乙丙丁") and the cleaned text is "甲乙丙戊".  Stages 1 to 5 miss, the bound is 2, the
entry is at distance 1, yet stage 6 reports no hit and resolve returns (0, not matched):
`bestID = 0` doubles as the mark for "nothing found".  The exact stage does return the
identifier 0 as a match for the text "甲乙丙丁". -/
theorem C16_zero_identifier_missed :
    earlyMiss false "甲乙丙戊".toList (trimStopSuffix cfgZhiLi "甲乙丙戊".toList)
        (buildSlotIndex hanBlock cfgZhiLi poolZeroId) ∧
      maxEdOf 4 = 2 ∧
      editDistance "甲乙丙戊".toList "甲乙丙丁".toList 2 = 1 ∧
      editFallback false "甲乙丙戊".toList 4
        (buildSlotIndex hanBlock cfgZhiLi poolZeroId).entries = (0, false) ∧
      matchSkillIDEnhanced hanBlock cfgZhiLi
        (buildSlotIndices hanBlock cfgZhiLi (dbOfSlot1 poolZeroId)) 1 "甲乙丙戊".toList
        = some (0, false) ∧
      matchSkillIDEnhanced hanBlock cfgZhiLi
        (buildSlotIndices hanBlock cfgZhiLi (dbOfSlot1 poolZeroId)) 1 "甲乙丙丁".toList
        = some (0, true) := by
  refine ⟨?_, by decide, by decide, by decide, by decide, by decide⟩
  unfold earlyMiss
  decide

/-! ## C19: the length window of the core-substring stage -/

/-- C19 (the code at the failing input): the slot-1 pool holds the single entry
(1, "甲乙丙之力") with stop-suffix "之力", so its core text is "甲乙丙" (3 runes) and its full
text has 5 runes; the label is "甲", whose core is "甲" (1 rune).  Stages 1 to 3 miss, the
core is non-empty, the entry's core text is within two runes of the core and contains it,
yet stage 4 skips the entry, because it compares the length of the entry's full text
(5) with the length of the core; resolve returns (0, not matched). -/
theorem C19_core_window_uses_full_length :
    ((buildSlotIndex hanBlock cfgZhiLi poolLongSuffixed).rawFullIndex "甲".toList = [] ∧
      (buildSlotIndex hanBlock cfgZhiLi poolLongSuffixed).rawCoreIndex
        (trimStopSuffix cfgZhiLi "甲".toList) = [] ∧
      substringFull false "甲".toList 1
        (buildSlotIndex hanBlock cfgZhiLi poolLongSuffixed).entries = none) ∧
      trimStopSuffix cfgZhiLi "甲".toList = "甲".toList ∧
      (buildSlotIndex hanBlock cfgZhiLi poolLongSuffixed).entries.map
        (fun e => (e.ID, e.RawCore, e.RawLen)) = [(1, "甲乙丙".toList, 5)] ∧
      abs ((("甲乙丙".toList.length : Nat) : Int) - (("甲".toList.length : Nat) : Int)) ≤ 2 ∧
      Contains "甲乙丙".toList "甲".toList = true ∧
      substringCore false "甲".toList 1
        (buildSlotIndex hanBlock cfgZhiLi poolLongSuffixed).entries = none ∧
      matchSkillIDEnhanced hanBlock cfgZhiLi
        (buildSlotIndices hanBlock cfgZhiLi (dbOfSlot1 poolLongSuffixed)) 1 "甲".toList
        = some (0, false) := by
  decide

/-! ## C20: the order of the substitutions -/

/-- C20 (the code at the failing input): the substitution table holds the overlapping
pairs 甲 → 天地人和 and 天地人和 → 春夏秋冬.  It is a Go map, ranged over in an order the language
leaves open; the two orders of the same table normalise "甲" to different texts, and
resolve, for the same configuration file, pool, slot and text, returns identifier 2 under
one order and identifier 1 under the other. -/
theorem C20_iteration_order_changes_result :
    cfgOverlapFirst.SimilarWordMap.Perm cfgOverlapSecond.SimilarWordMap ∧
      cfgOverlapFirst.SuffixStopwords = cfgOverlapSecond.SuffixStopwords ∧
      normalizeSimilar cfgOverlapFirst "甲".toList = "春夏秋冬".toList ∧
      normalizeSimilar cfgOverlapSecond "甲".toList = "天地人和".toList ∧
      matchSkillIDEnhanced hanBlock cfgOverlapFirst
        (buildSlotIndices hanBlock cfgOverlapFirst (dbOfSlot1 poolSeasons)) 1 "甲".toList
        = some (2, true) ∧
      matchSkillIDEnhanced hanBlock cfgOverlapSecond
        (buildSlotIndices hanBlock cfgOverlapSecond (dbOfSlot1 poolSeasons)) 1 "甲".toList
        = some (1, true) := by
  refine ⟨List.Perm.swap _ _ _, by decide, by decide, by decide, by decide, by decide⟩

/-! ## C21: the raw pass comes first -/

/-- How `matchSkillIDEnhanced` unfolds for a slot in range and a non-empty cleaned text. -/
theorem matchSkillIDEnhanced_passes (isHan : Char → Bool) (cfg : MatcherConfig)
    (slotIndices : List slotIndex) (slot : Int) (ocrText : Str) (idx : slotIndex)
    (h1 : 1 ≤ slot) (h3 : slot ≤ 3)
    (hidx : slotIndices[(slot - 1).toNat]? = some idx)
    (hne : cleanChinese isHan ocrText ≠ []) :
    matchSkillIDEnhanced isHan cfg slotIndices slot ocrText
      = if (attemptMatch "raw" slot (cleanChinese isHan ocrText)
            (trimStopSuffix cfg (cleanChinese isHan ocrText)) idx).2 = true then
          some ((attemptMatch "raw" slot (cleanChinese isHan ocrText)
            (trimStopSuffix cfg (cleanChinese isHan ocrText)) idx).1, true)
        else if (attemptMatch "norm" slot (normalizeSimilar cfg (cleanChinese isHan ocrText))
            (trimStopSuffix cfg (normalizeSimilar cfg (cleanChinese isHan ocrText))) idx).2
            = true then
          some ((attemptMatch "norm" slot (normalizeSimilar cfg (cleanChinese isHan ocrText))
            (trimStopSuffix cfg (normalizeSimilar cfg (cleanChinese isHan ocrText))) idx).1,
            true)
        else some (0, false) := by
  unfold matchSkillIDEnhanced
  have hs : ¬ (slot < 1 ∨ slot > 3) := by omega
  simp only [hs, if_false, hidx, hne]
  rcases hraw : attemptMatch "raw" slot (cleanChinese isHan ocrText)
      (trimStopSuffix cfg (cleanChinese isHan ocrText)) idx with ⟨id, b⟩
  cases b with
  | true => simp
  | false =>
    simp only [Bool.false_eq_true, if_false]
    rcases hnorm : attemptMatch "norm" slot (normalizeSimilar cfg (cleanChinese isHan ocrText))
        (trimStopSuffix cfg (normalizeSimilar cfg (cleanChinese isHan ocrText))) idx
      with ⟨id2, b2⟩
    cases b2 <;> simp

/-- C21 (as stated, refuted): for the text "abc" the cleaned text is empty; the cascade on
the raw pair (empty, empty) hits in the scenario's index (stage 3: "强击" is within two
runes of the empty text and contains it), yet resolve returns (0, not matched): the
empty-text guard comes before both passes. -/
theorem C21_counterexample :
    attemptMatch "raw" 1 (cleanChinese hanBlock "abc".toList)
        (trimStopSuffix cfgZhiLi (cleanChinese hanBlock "abc".toList))
        (buildSlotIndex hanBlock cfgZhiLi poolScenario) = (1, true) ∧
      matchSkillIDEnhanced hanBlock cfgZhiLi
        (buildSlotIndices hanBlock cfgZhiLi (dbOfSlot1 poolScenario)) 1 "abc".toList
        = some (0, false) := by
  decide

/-- C21 (amended): for every slot in 1..3 and every text whose cleaned form is non-empty:
if the cascade on the raw pair hits, resolve returns that hit, whatever the substitution
table is; if it misses, resolve returns the hit of the cascade on the normalised pair when
there is one; and resolve fails iff both passes miss. -/
theorem C21_raw_pass_first (isHan : Char → Bool) (cfg : MatcherConfig)
    (slotIndices : List slotIndex) (slot : Int) (ocrText : Str) (idx : slotIndex)
    (h1 : 1 ≤ slot) (h3 : slot ≤ 3)
    (hidx : slotIndices[(slot - 1).toNat]? = some idx)
    (hne : cleanChinese isHan ocrText ≠ []) :
    (∀ id, attemptMatch "raw" slot (cleanChinese isHan ocrText)
          (trimStopSuffix cfg (cleanChinese isHan ocrText)) idx = (id, true) →
        matchSkillIDEnhanced isHan cfg slotIndices slot ocrText = some (id, true) ∧
        ∀ table, matchSkillIDEnhanced isHan
          { SimilarWordMap := table, SuffixStopwords := cfg.SuffixStopwords }
          slotIndices slot ocrText = some (id, true)) ∧
      ((attemptMatch "raw" slot (cleanChinese isHan ocrText)
          (trimStopSuffix cfg (cleanChinese isHan ocrText)) idx).2 = false →
        ∀ id, attemptMatch "norm" slot (normalizeSimilar cfg (cleanChinese isHan ocrText))
          (trimStopSuffix cfg (normalizeSimilar cfg (cleanChinese isHan ocrText))) idx
            = (id, true) →
        matchSkillIDEnhanced isHan cfg slotIndices slot ocrText = some (id, true)) ∧
      (matchSkillIDEnhanced isHan cfg slotIndices slot ocrText = some (0, false) ↔
        (attemptMatch "raw" slot (cleanChinese isHan ocrText)
          (trimStopSuffix cfg (cleanChinese isHan ocrText)) idx).2 = false ∧
        (attemptMatch "norm" slot (normalizeSimilar cfg (cleanChinese isHan ocrText))
          (trimStopSuffix cfg (normalizeSimilar cfg (cleanChinese isHan ocrText))) idx).2
          = false) := by
  have hp := matchSkillIDEnhanced_passes isHan cfg slotIndices slot ocrText idx h1 h3 hidx hne
  refine ⟨?_, ?_, ?_⟩
  · intro id hraw
    constructor
    · rw [hp, hraw]; simp
    · intro table
      have hp2 := matchSkillIDEnhanced_passes isHan
        { SimilarWordMap := table, SuffixStopwords := cfg.SuffixStopwords }
        slotIndices slot ocrText idx h1 h3 hidx hne
      have ht : ∀ t, trimStopSuffix
          { SimilarWordMap := table, SuffixStopwords := cfg.SuffixStopwords } t
          = trimStopSuffix cfg t := fun t => rfl
      rw [hp2, ht, hraw]; simp
  · intro hmiss id hnorm
    rw [hp, hmiss, hnorm]; simp
  · rw [hp]
    constructor
    · intro h
      split_ifs at h with hr hn
      · simp at h
      · simp at h
      · exact ⟨by simpa using hr, by simpa using hn⟩
    · rintro ⟨hr, hn⟩
      rw [hr, hn]; simp

/-- Witness for C21 (amended): "强仅" in the scenario, decided by the raw pass. -/
theorem C21_raw_pass_first_witness :
    matchSkillIDEnhanced hanBlock cfgZhiLi
        (buildSlotIndices hanBlock cfgZhiLi (dbOfSlot1 poolScenario)) 1 "强仅".toList
        = some (1, true) ∧
      matchSkillIDEnhanced hanBlock
        { SimilarWordMap := [("仅".toList, "守".toList)],
          SuffixStopwords := cfgZhiLi.SuffixStopwords }
        (buildSlotIndices hanBlock cfgZhiLi (dbOfSlot1 poolScenario)) 1 "强仅".toList
        = some (1, true) :=
  have h := (C21_raw_pass_first hanBlock cfgZhiLi
    (buildSlotIndices hanBlock cfgZhiLi (dbOfSlot1 poolScenario)) 1 "强仅".toList
    (buildSlotIndex hanBlock cfgZhiLi poolScenario) (by decide) (by decide) rfl
    (by decide)).1 1 (by decide)
  ⟨h.1, h.2 [("仅".toList, "守".toList)]⟩

/-! ## C22: an empty scan outside the fallback pass -/

/-- C22 (the code at the failing input): right after a successful Init the fallback scan
has not been used; a `RowCollect` call of an ordinary row scan accepts zero boxes; the
call routes to `EssenceFilterFinish`, not to `EssenceDetectFinal`, and the flag stays
unset: the fallback branch tests the name of the current task, not the number of boxes. -/
theorem C22_empty_scan_finishes :
    stateAfterInit.finalLargeScanUsed = false ∧
      acceptedBoxes argZeroBoxes = 0 ∧
      (RowCollect stateAfterInit argZeroBoxes).1.rowBoxes = [] ∧
      (RowCollect stateAfterInit argZeroBoxes).2
        = { ok := true, next := some "EssenceFilterFinish", click := none } ∧
      (RowCollect stateAfterInit argZeroBoxes).1.finalLargeScanUsed = false := by
  decide

/-! ## C23: the end of a row -/

/-- C23: a `RowNextItem` call with `rowIndex >= len(rowBoxes)` succeeds without a click and
leaves `visitedCount` and `rowIndex` as they were; if `len(rowBoxes)` equals the per-row
cap and the fallback scan has not been used it requests a swipe (the first-swipe step when
no swipe was requested before, else the next-swipe step) and adds exactly 1 to
`currentRow`; in every other case it requests `EssenceFilterFinish` and leaves
`currentRow` as it was. -/
theorem C23_row_end_decision (s : State) (hend : s.rowIndex ≥ (s.rowBoxes.length : Int)) :
    (RowNextItem s).2.ok = true ∧ (RowNextItem s).2.click = none ∧
      (RowNextItem s).1.visitedCount = s.visitedCount ∧
      (RowNextItem s).1.rowIndex = s.rowIndex ∧
      (((s.rowBoxes.length : Int) = s.maxItemsPerRow ∧ s.finalLargeScanUsed = false) →
        (RowNextItem s).2.next = some (if s.firstRowSwipeDone = false
          then "EssenceFilterSwipeFirst" else "EssenceFilterSwipeNext") ∧
        (RowNextItem s).1.currentRow = s.currentRow + 1) ∧
      (¬ ((s.rowBoxes.length : Int) = s.maxItemsPerRow ∧ s.finalLargeScanUsed = false) →
        (RowNextItem s).2.next = some "EssenceFilterFinish" ∧
        (RowNextItem s).1.currentRow = s.currentRow) := by
  unfold RowNextItem
  rw [if_pos hend]
  by_cases hc : (s.rowBoxes.length : Int) = s.maxItemsPerRow ∧ s.finalLargeScanUsed = false
  · obtain ⟨hlen, hflag⟩ := hc
    have hcond : (decide ((s.rowBoxes.length : Int) = s.maxItemsPerRow)
        && !s.finalLargeScanUsed) = true := by simp [hlen, hflag]
    rw [if_pos hcond]
    cases hfirst : s.firstRowSwipeDone <;> simp [hlen, hflag]
  · have hcond : ¬ (decide ((s.rowBoxes.length : Int) = s.maxItemsPerRow)
        && !s.finalLargeScanUsed) = true := by
      intro h
      apply hc
      simpa using h
    rw [if_neg hcond]
    simp [hc]

/-- Witness for C23: after Init, a row of zero boxes has been reached at its end. -/
theorem C23_row_end_decision_witness :
    (RowNextItem stateAfterInit).2.ok = true ∧ (RowNextItem stateAfterInit).2.click = none ∧
      (RowNextItem stateAfterInit).1.visitedCount = stateAfterInit.visitedCount ∧
      (RowNextItem stateAfterInit).1.rowIndex = stateAfterInit.rowIndex ∧
      (((stateAfterInit.rowBoxes.length : Int) = stateAfterInit.maxItemsPerRow ∧
          stateAfterInit.finalLargeScanUsed = false) →
        (RowNextItem stateAfterInit).2.next = some (if stateAfterInit.firstRowSwipeDone = false
          then "EssenceFilterSwipeFirst" else "EssenceFilterSwipeNext") ∧
        (RowNextItem stateAfterInit).1.currentRow = stateAfterInit.currentRow + 1) ∧
      (¬ ((stateAfterInit.rowBoxes.length : Int) = stateAfterInit.maxItemsPerRow ∧
          stateAfterInit.finalLargeScanUsed = false) →
        (RowNextItem stateAfterInit).2.next = some "EssenceFilterFinish" ∧
        (RowNextItem stateAfterInit).1.currentRow = stateAfterInit.currentRow) :=
  C23_row_end_decision stateAfterInit (by decide)

/-! ## C26: the decision step -/

theorem ensureBuilt_counters (isHan : Char → Bool) (s : State) :
    (ensureBuilt isHan s).matchedCount = s.matchedCount ∧
      (ensureBuilt isHan s).firstRowSwipeDone = s.firstRowSwipeDone ∧
      (ensureBuilt isHan s).maxItemsPerRow = s.maxItemsPerRow := by
  unfold ensureBuilt; split_ifs <;> exact ⟨rfl, rfl, rfl⟩

theorem MatchEssenceSkills_counters (isHan : Char → Bool) (s : State) (l : List Str) :
    (MatchEssenceSkills isHan s l).2.matchedCount = s.matchedCount ∧
      (MatchEssenceSkills isHan s l).2.firstRowSwipeDone = s.firstRowSwipeDone ∧
      (MatchEssenceSkills isHan s l).2.maxItemsPerRow = s.maxItemsPerRow := by
  unfold MatchEssenceSkills
  split_ifs
  · exact ⟨rfl, rfl, rfl⟩
  · simp only []
    split
    · exact ensureBuilt_counters isHan s
    · split_ifs <;> exact ensureBuilt_counters isHan s

/-- C26: for every state, the decision step hands the three buffered labels to
`MatchEssenceSkills`; if the answer is a match it adds exactly 1 to `matchedCount` and
routes to `EssenceFilterLockItemLog`, otherwise it leaves `matchedCount` as it was and
routes to `EssenceFilterRowNextItem`; in both cases it succeeds, the three-label buffer is
empty afterwards, and `visitedCount`, `rowBoxes`, `rowIndex` and both flags are as
before. -/
theorem C26_decision_step (isHan : Char → Bool) (s : State) :
    (SkillDecision isHan s).2.ok = true ∧
      (SkillDecision isHan s).1.currentSkills = ([], [], []) ∧
      (SkillDecision isHan s).1.visitedCount = s.visitedCount ∧
      (SkillDecision isHan s).1.rowBoxes = s.rowBoxes ∧
      (SkillDecision isHan s).1.rowIndex = s.rowIndex ∧
      (SkillDecision isHan s).1.finalLargeScanUsed = s.finalLargeScanUsed ∧
      (SkillDecision isHan s).1.firstRowSwipeDone = s.firstRowSwipeDone ∧
      ((MatchEssenceSkills isHan s
          [s.currentSkills.1, s.currentSkills.2.1, s.currentSkills.2.2]).1 ≠ none →
        (SkillDecision isHan s).1.matchedCount = s.matchedCount + 1 ∧
        (SkillDecision isHan s).2.next = some "EssenceFilterLockItemLog") ∧
      ((MatchEssenceSkills isHan s
          [s.currentSkills.1, s.currentSkills.2.1, s.currentSkills.2.2]).1 = none →
        (SkillDecision isHan s).1.matchedCount = s.matchedCount ∧
        (SkillDecision isHan s).2.next = some "EssenceFilterRowNextItem") := by
  obtain ⟨hv, hb, hi⟩ := MatchEssenceSkills_frame isHan s
    [s.currentSkills.1, s.currentSkills.2.1, s.currentSkills.2.2]
  obtain ⟨hm, hf, _⟩ := MatchEssenceSkills_counters isHan s
    [s.currentSkills.1, s.currentSkills.2.1, s.currentSkills.2.2]
  have hl := MatchEssenceSkills_flag isHan s
    [s.currentSkills.1, s.currentSkills.2.1, s.currentSkills.2.2]
  unfold SkillDecision
  simp only []
  cases hres : (MatchEssenceSkills isHan s
      [s.currentSkills.1, s.currentSkills.2.1, s.currentSkills.2.2]).1 with
  | none => simp [hv, hb, hi, hm, hf, hl]
  | some m => simp [hv, hb, hi, hm, hf, hl]

/-! ## C24: the first swipe -/

theorem swipeOf_other (o : Outcome) (n : String) (h : o.next = some n)
    (h1 : n ≠ "EssenceFilterSwipeFirst") (h2 : n ≠ "EssenceFilterSwipeNext") :
    swipeOf o = none := by
  unfold swipeOf
  rw [h]
  simp [h1, h2]

theorem swipeOf_none (o : Outcome) (h : o.next = none) : swipeOf o = none := by
  unfold swipeOf
  rw [h]

theorem RowCollect_swipe (s : State) (arg : RowCollectArg) :
    swipeOf (RowCollect s arg).2 = none ∧
      (RowCollect s arg).1.firstRowSwipeDone = s.firstRowSwipeDone ∧
      (RowCollect s arg).1.maxItemsPerRow = s.maxItemsPerRow := by
  unfold RowCollect
  by_cases hd : arg.detailOk = true
  · by_cases hc : arg.controllerOk = true
    · by_cases hi : arg.imageOk = true
      · simp only [hd, hc, hi, Bool.not_true, Bool.false_eq_true, if_false]
        generalize (if arg.filtered.length = 0 then arg.all else arg.filtered) = results
        split_ifs <;> refine ⟨?_, rfl, rfl⟩ <;>
          first
            | exact swipeOf_other _ "EssenceDetectFinal" rfl (by decide) (by decide)
            | exact swipeOf_other _ "EssenceFilterFinish" rfl (by decide) (by decide)
            | exact swipeOf_other _ "EssenceFilterRowNextItem" rfl (by decide) (by decide)
      · simp [hd, hc, hi, swipeOf]
    · simp [hd, hc, swipeOf]
  · simp [hd, swipeOf]

theorem RowNextItem_swipe (s : State) :
    ((swipeOf (RowNextItem s).2 = none ∧
        (RowNextItem s).1.firstRowSwipeDone = s.firstRowSwipeDone) ∨
      (swipeOf (RowNextItem s).2 = some "EssenceFilterSwipeFirst" ∧
        s.firstRowSwipeDone = false ∧ (RowNextItem s).1.firstRowSwipeDone = true) ∨
      (swipeOf (RowNextItem s).2 = some "EssenceFilterSwipeNext" ∧
        s.firstRowSwipeDone = true ∧ (RowNextItem s).1.firstRowSwipeDone = true)) ∧
      (RowNextItem s).1.maxItemsPerRow = s.maxItemsPerRow := by
  unfold RowNextItem
  by_cases h1 : s.rowIndex ≥ (s.rowBoxes.length : Int)
  · rw [if_pos h1]
    by_cases h2 : (decide ((s.rowBoxes.length : Int) = s.maxItemsPerRow)
        && !s.finalLargeScanUsed) = true
    · rw [if_pos h2]
      cases hf : s.firstRowSwipeDone
      · refine ⟨Or.inr (Or.inl ⟨?_, rfl, ?_⟩), ?_⟩ <;> simp [swipeOf, hf]
      · refine ⟨Or.inr (Or.inr ⟨?_, rfl, ?_⟩), ?_⟩ <;> simp [swipeOf, hf]
    · rw [if_neg h2]
      exact ⟨Or.inl ⟨swipeOf_other _ "EssenceFilterFinish" rfl (by decide) (by decide), rfl⟩,
        rfl⟩
  · rw [if_neg h1]
    split
    · exact ⟨Or.inl ⟨swipeOf_none _ rfl, rfl⟩, rfl⟩
    · exact ⟨Or.inl ⟨swipeOf_other _ "EssenceFilterCheckItemSlot1" rfl (by decide)
        (by decide), rfl⟩, rfl⟩

theorem CheckItem_swipe (s : State) (arg : CheckItemArg) :
    swipeOf (CheckItem s arg).2 = none ∧
      (CheckItem s arg).1.firstRowSwipeDone = s.firstRowSwipeDone ∧
      (CheckItem s arg).1.maxItemsPerRow = s.maxItemsPerRow := by
  unfold CheckItem
  simp only []
  split_ifs <;>
    first
      | exact ⟨swipeOf_none _ rfl, rfl, rfl⟩
      | (split <;> (try split_ifs) <;> exact ⟨swipeOf_none _ rfl, rfl, rfl⟩)

theorem SkillDecision_swipe (isHan : Char → Bool) (s : State) :
    swipeOf (SkillDecision isHan s).2 = none ∧
      (SkillDecision isHan s).1.firstRowSwipeDone = s.firstRowSwipeDone ∧
      (SkillDecision isHan s).1.maxItemsPerRow = s.maxItemsPerRow := by
  obtain ⟨_, hf, hm⟩ := MatchEssenceSkills_counters isHan s
    [s.currentSkills.1, s.currentSkills.2.1, s.currentSkills.2.2]
  unfold SkillDecision
  simp only []
  split
  · exact ⟨swipeOf_other _ "EssenceFilterLockItemLog" rfl (by decide) (by decide), hf, hm⟩
  · exact ⟨swipeOf_other _ "EssenceFilterRowNextItem" rfl (by decide) (by decide), hf, hm⟩

theorem InventoryNumber_swipe (s : State) (arg : InventoryArg) :
    swipeOf (InventoryNumber s arg).2 = none := by
  unfold InventoryNumber
  split
  · exact swipeOf_none _ rfl
  · split_ifs
    · exact swipeOf_other _ "EssenceDetectFinal" rfl (by decide) (by decide)
    · exact swipeOf_none _ rfl

/-- One callback: either no swipe is requested and the first-swipe flag stays, or the
first swipe is requested with the flag unset, or the next swipe with the flag set; the
flag is set after a swipe request; the per-row cap never changes. -/
theorem step_swipe (isHan : Char → Bool) (s : State) (cb : Callback) :
    ((swipeOf (step isHan s cb).2 = none ∧
        (step isHan s cb).1.firstRowSwipeDone = s.firstRowSwipeDone) ∨
      (swipeOf (step isHan s cb).2 = some "EssenceFilterSwipeFirst" ∧
        s.firstRowSwipeDone = false ∧ (step isHan s cb).1.firstRowSwipeDone = true) ∨
      (swipeOf (step isHan s cb).2 = some "EssenceFilterSwipeNext" ∧
        s.firstRowSwipeDone = true ∧ (step isHan s cb).1.firstRowSwipeDone = true)) ∧
      (step isHan s cb).1.maxItemsPerRow = s.maxItemsPerRow := by
  cases cb with
  | rowCollect arg =>
    obtain ⟨h1, h2, h3⟩ := RowCollect_swipe s arg
    exact ⟨Or.inl ⟨h1, h2⟩, h3⟩
  | rowNextItem => exact RowNextItem_swipe s
  | checkItem arg =>
    obtain ⟨h1, h2, h3⟩ := CheckItem_swipe s arg
    exact ⟨Or.inl ⟨h1, h2⟩, h3⟩
  | skillDecision =>
    obtain ⟨h1, h2, h3⟩ := SkillDecision_swipe isHan s
    exact ⟨Or.inl ⟨h1, h2⟩, h3⟩
  | inventoryNumber arg =>
    refine ⟨Or.inl ⟨InventoryNumber_swipe s arg, ?_⟩, ?_⟩ <;>
      simp only [step, InventoryNumber_frame]
  | trace => exact ⟨Or.inl ⟨swipeOf_none _ rfl, rfl⟩, rfl⟩

theorem swipeRequests_cons (isHan : Char → Bool) (s : State) (cb : Callback)
    (rest : List Callback) :
    swipeRequests (runTrace isHan s (cb :: rest))
      = (match swipeOf (step isHan s cb).2 with
          | some n => [n]
          | none => []) ++ swipeRequests (runTrace isHan (step isHan s cb).1 rest) := by
  unfold swipeRequests
  simp only [runTrace, List.filterMap_cons]
  cases swipeOf (step isHan s cb).2 <;> simp

/-- Once the first-swipe flag is set, every swipe request is the next-swipe step. -/
theorem swipes_after_first (isHan : Char → Bool) (cbs : List Callback) (s : State)
    (h : s.firstRowSwipeDone = true) :
    ∀ x ∈ swipeRequests (runTrace isHan s cbs), x = "EssenceFilterSwipeNext" := by
  induction cbs generalizing s with
  | nil => intro x hx; simp [swipeRequests, runTrace] at hx
  | cons cb rest ih =>
    intro x hx
    rw [swipeRequests_cons] at hx
    rcases (step_swipe isHan s cb).1 with ⟨h1, h2⟩ | ⟨_, h2, _⟩ | ⟨h1, _, h3⟩
    · rw [h1] at hx
      exact ih _ (h2.trans h) x (by simpa using hx)
    · rw [h] at h2; cases h2
    · rw [h1] at hx
      rcases List.mem_append.mp hx with hx | hx
      · simpa using hx
      · exact ih _ h3 x hx

/-- From an unset first-swipe flag, the swipe requests of a run are none at all, or the
first-swipe step followed by next-swipe steps only. -/
theorem swipes_from_unset (isHan : Char → Bool) (cbs : List Callback) (s : State)
    (h : s.firstRowSwipeDone = false) :
    swipeRequests (runTrace isHan s cbs) = [] ∨
      ∃ rest, swipeRequests (runTrace isHan s cbs) = "EssenceFilterSwipeFirst" :: rest ∧
        ∀ x ∈ rest, x = "EssenceFilterSwipeNext" := by
  induction cbs generalizing s with
  | nil => left; simp [swipeRequests, runTrace]
  | cons cb rest ih =>
    rw [swipeRequests_cons]
    rcases (step_swipe isHan s cb).1 with ⟨h1, h2⟩ | ⟨h1, _, h3⟩ | ⟨_, h2, _⟩
    · rw [h1]
      simpa using ih _ (h2.trans h)
    · rw [h1]
      right
      exact ⟨_, rfl, swipes_after_first isHan rest _ h3⟩
    · rw [h] at h2; cases h2

/-- C24: in every run after a successful Init, for any callbacks and inputs, the swipe
requests are none at all, or the first-swipe step `EssenceFilterSwipeFirst` followed only
by next-swipe steps `EssenceFilterSwipeNext`; so the first-swipe step is requested at most
once and before every other swipe. -/
theorem C24_first_swipe_ordering (isHan : Char → Bool) (s0 : State) (arg : InitArg)
    (cbs : List Callback) (hok : (Init s0 arg).2.ok = true) :
    (swipeRequests (runTrace isHan (Init s0 arg).1 cbs) = [] ∨
      ∃ rest, swipeRequests (runTrace isHan (Init s0 arg).1 cbs)
          = "EssenceFilterSwipeFirst" :: rest ∧
        ∀ x ∈ rest, x = "EssenceFilterSwipeNext") ∧
      (swipeRequests (runTrace isHan (Init s0 arg).1 cbs)).count "EssenceFilterSwipeFirst"
        ≤ 1 := by
  obtain ⟨_, _, _, _, hflag, _⟩ := Init_ok_fields s0 arg hok
  have h := swipes_from_unset isHan cbs (Init s0 arg).1 hflag
  refine ⟨h, ?_⟩
  rcases h with h | ⟨rest, h, hrest⟩
  · rw [h]; simp
  · rw [h, List.count_cons_self]
    have : rest.count "EssenceFilterSwipeFirst" = 0 := by
      rw [List.count_eq_zero]
      intro hmem
      have := hrest _ hmem
      exact absurd this (by decide)
    omega

/-- The run of two full rows after a successful Init requests the first swipe once and
then the generic swipe. -/
theorem C24_first_swipe_ordering_witness :
    (Init stateScenario initArgScenario).2.ok = true ∧
      swipeRequests (runTrace hanBlock (Init stateScenario initArgScenario).1 twoFullRows)
        = ["EssenceFilterSwipeFirst", "EssenceFilterSwipeNext"] ∧
      (swipeRequests (runTrace hanBlock (Init stateScenario initArgScenario).1
          twoFullRows)).count "EssenceFilterSwipeFirst" ≤ 1 :=
  ⟨by decide, by decide,
    (C24_first_swipe_ordering hanBlock stateScenario initArgScenario twoFullRows
      (by decide)).2⟩

/-! ## C25: the clicks of one row -/

theorem RowNextItem_click (s : State) (r : Nat) (hr : s.rowIndex = (r : Int))
    (hlt : r < s.rowBoxes.length) :
    clicksItem (RowNextItem s).2 ∧ (RowNextItem s).2.ok = true ∧
      (RowNextItem s).1.visitedCount = s.visitedCount + 1 ∧
      (RowNextItem s).1.rowIndex = ((r + 1 : Nat) : Int) ∧
      (RowNextItem s).1.rowBoxes = s.rowBoxes := by
  unfold RowNextItem clicksItem
  have h1 : ¬ s.rowIndex ≥ (s.rowBoxes.length : Int) := by omega
  have h2 : ¬ s.rowIndex < 0 := by omega
  have h3 : s.rowIndex.toNat = r := by omega
  rw [if_neg h1, if_neg h2, h3, List.getElem?_eq_getElem hlt]
  simp only []
  refine ⟨⟨by simp, trivial⟩, trivial, trivial, ?_, trivial⟩
  rw [hr]
  push_cast
  rfl

theorem RowNextItem_leave (s : State) (hend : s.rowIndex ≥ (s.rowBoxes.length : Int)) :
    leavesRow (RowNextItem s).2 ∧
      (RowNextItem s).1.visitedCount = s.visitedCount ∧
      (RowNextItem s).1.rowIndex = s.rowIndex ∧
      (RowNextItem s).1.rowBoxes = s.rowBoxes := by
  unfold RowNextItem leavesRow
  rw [if_pos hend]
  by_cases h : (decide ((s.rowBoxes.length : Int) = s.maxItemsPerRow)
      && !s.finalLargeScanUsed) = true
  · rw [if_pos h]
    cases hf : s.firstRowSwipeDone <;> simp
  · rw [if_neg h]
    exact ⟨⟨rfl, Or.inr (Or.inr rfl)⟩, rfl, rfl, rfl⟩

theorem clickFlags_cons (isHan : Char → Bool) (s : State) (cb : Callback)
    (rest : List Callback) :
    clickFlags (runTrace isHan s (cb :: rest))
      = (if isRowNextItem cb then [(step isHan s cb).2.click.isSome] else [])
        ++ clickFlags (runTrace isHan (step isHan s cb).1 rest) := by
  unfold clickFlags
  simp only [runTrace, List.filterMap_cons]
  cases isRowNextItem cb <;> simp

/-- A callback that is neither `RowCollect` nor `RowNextItem` leaves the row alone. -/
theorem step_row_frame (isHan : Char → Bool) (s : State) (cb : Callback)
    (h1 : isRowCollect cb = false) (h2 : isRowNextItem cb = false) :
    (step isHan s cb).1.visitedCount = s.visitedCount ∧
      (step isHan s cb).1.rowBoxes = s.rowBoxes ∧
      (step isHan s cb).1.rowIndex = s.rowIndex := by
  cases cb with
  | rowCollect arg => simp [isRowCollect] at h1
  | rowNextItem => simp [isRowNextItem] at h2
  | checkItem arg => exact CheckItem_frame s arg
  | skillDecision => exact SkillDecision_frame isHan s
  | inventoryNumber arg => simp only [step, InventoryNumber_frame, and_self]
  | trace => exact ⟨rfl, rfl, rfl⟩

/-- A row of `n` boxes with `r` of them clicked: however many `RowNextItem` calls follow
without a `RowCollect` call in between, the first `n - r` of them click and the others
leave the row. -/
theorem row_run (isHan : Char → Bool) (n : Nat) (cbs : List Callback) :
    ∀ (t : State) (r : Nat), t.rowBoxes.length = n → t.rowIndex = (r : Int) → r ≤ n →
      (∀ cb ∈ cbs, isRowCollect cb = false) →
      clickFlags (runTrace isHan t cbs)
          = List.replicate (Nat.min (cbs.countP isRowNextItem) (n - r)) true
            ++ List.replicate
              (cbs.countP isRowNextItem - Nat.min (cbs.countP isRowNextItem) (n - r)) false ∧
        (runState isHan t cbs).visitedCount
          = t.visitedCount + ((Nat.min (cbs.countP isRowNextItem) (n - r) : Nat) : Int) ∧
        (runState isHan t cbs).rowIndex
          = ((r + Nat.min (cbs.countP isRowNextItem) (n - r) : Nat) : Int) ∧
        (∀ e ∈ runTrace isHan t cbs, isRowNextItem e.1 = true →
          (clicksItem e.2.2 ∨ leavesRow e.2.2)) := by
  induction cbs with
  | nil =>
    intro t r _ hr _ _
    simp [clickFlags, runTrace, runState, hr]
  | cons cb rest ih =>
    intro t r hlen hr hle hno
    have hrest : ∀ cb ∈ rest, isRowCollect cb = false :=
      fun c hc => hno c (List.mem_cons_of_mem _ hc)
    have hcb : isRowCollect cb = false := hno cb (List.mem_cons_self _ _)
    have erun : runState isHan t (cb :: rest) = runState isHan (step isHan t cb).1 rest := by
      simp [runState]
    rw [clickFlags_cons, erun]
    by_cases hnext : isRowNextItem cb = true
    · have hcbeq : cb = Callback.rowNextItem := by
        cases cb <;> simp [isRowNextItem] at hnext
        rfl
      subst hcbeq
      have hcount : (Callback.rowNextItem :: rest).countP isRowNextItem
          = rest.countP isRowNextItem + 1 := by
        rw [List.countP_cons_of_pos _ _ hnext]
      rw [hcount]
      simp only [hnext, if_true, step]
      by_cases hlt : r < n
      · obtain ⟨hclick, _, hv, hi, hb⟩ := RowNextItem_click t r hr (by omega)
        obtain ⟨ih1, ih2, ih3, ih4⟩ := ih (RowNextItem t).1 (r + 1) (by rw [hb, hlen]) hi
          (by omega) hrest
        have hmin : Nat.min (rest.countP isRowNextItem + 1) (n - r)
            = Nat.min (rest.countP isRowNextItem) (n - (r + 1)) + 1 := by
          simp only [Nat.min_def]; split_ifs <;> omega
        have hsome : (RowNextItem t).2.click.isSome = true := by
          cases hcl : (RowNextItem t).2.click with
          | none => exact absurd hcl hclick.1
          | some b => rfl
        refine ⟨?_, ?_, ?_, ?_⟩
        · rw [ih1, hmin, hsome, List.replicate_succ]
          have e : rest.countP isRowNextItem + 1
              - (Nat.min (rest.countP isRowNextItem) (n - (r + 1)) + 1)
              = rest.countP isRowNextItem - Nat.min (rest.countP isRowNextItem) (n - (r + 1)) := by
            omega
          rw [e]
          rfl
        · rw [ih2, hv, hmin]
          push_cast
          ring
        · rw [ih3, hmin]
          push_cast
          ring
        · intro e he hne
          simp only [runTrace, step, List.mem_cons] at he
          rcases he with rfl | he
          · exact Or.inl hclick
          · exact ih4 e he hne
      · have hrn : r = n := by omega
        obtain ⟨hleave, hv, hi, hb⟩ := RowNextItem_leave t (by rw [hr, hlen]; omega)
        obtain ⟨ih1, ih2, ih3, ih4⟩ := ih (RowNextItem t).1 r (by rw [hb, hlen])
          (by rw [hi, hr]) hle hrest
        have hz : n - r = 0 := by omega
        have hnone : (RowNextItem t).2.click.isSome = false := by
          rw [hleave.1]; rfl
        have e0 : ∀ k : Nat, Nat.min k 0 = 0 := fun k => Nat.min_zero k
        refine ⟨?_, ?_, ?_, ?_⟩
        · rw [ih1, hz, hnone]
          rw [e0, e0]
          simp [List.replicate_succ]
        · rw [ih2, hv, hz, e0, e0]
        · rw [ih3, hz, e0, e0]
        · intro e he hne
          simp only [runTrace, step, List.mem_cons] at he
          rcases he with rfl | he
          · exact Or.inr hleave
          · exact ih4 e he hne
    · have hnext2 : isRowNextItem cb = false := by simpa using hnext
      obtain ⟨hv, hb, hi⟩ := step_row_frame isHan t cb hcb hnext2
      obtain ⟨ih1, ih2, ih3, ih4⟩ := ih (step isHan t cb).1 r (by rw [hb, hlen])
        (by rw [hi, hr]) hle hrest
      have hcount : (cb :: rest).countP isRowNextItem = rest.countP isRowNextItem := by
        rw [List.countP_cons_of_neg _ _ hnext]
      rw [hcount]
      simp only [hnext2, Bool.false_eq_true, if_false, List.nil_append]
      refine ⟨ih1, by rw [ih2, hv], ih3, ?_⟩
      intro e he hne
      simp only [runTrace, List.mem_cons] at he
      rcases he with rfl | he
      · simp only [] at hne
        rw [hnext2] at hne
        cases hne
      · exact ih4 e he hne

/-- A clicking `RowNextItem` call adds one to the visited counter and to the row index. -/
theorem RowNextItem_clicking (s : State) (h : (RowNextItem s).2.click ≠ none) :
    (RowNextItem s).1.visitedCount = s.visitedCount + 1 ∧
      (RowNextItem s).1.rowIndex = s.rowIndex + 1 ∧
      (RowNextItem s).1.rowBoxes = s.rowBoxes ∧
      (RowNextItem s).2.next = some "EssenceFilterCheckItemSlot1" := by
  by_cases hend : s.rowIndex ≥ (s.rowBoxes.length : Int)
  · exact absurd (RowNextItem_leave s hend).1.1 h
  · unfold RowNextItem at h ⊢
    rw [if_neg hend] at h ⊢
    cases hb : (if s.rowIndex < 0 then none else s.rowBoxes[s.rowIndex.toNat]?) with
    | none => simp [hb] at h
    | some box => exact ⟨rfl, rfl, rfl, rfl⟩

/-- A `RowCollect` call that routes to `RowNextItem` leaves a non-empty row with the row
index at 0, and outside the fallback pass the row is no longer than the per-row cap. -/
theorem RowCollect_route (s : State) (arg : RowCollectArg)
    (h : (RowCollect s arg).2.next = some "EssenceFilterRowNextItem") :
    (RowCollect s arg).1.rowIndex = 0 ∧ 1 ≤ (RowCollect s arg).1.rowBoxes.length ∧
      (RowCollect s arg).1.maxItemsPerRow = s.maxItemsPerRow ∧
      (arg.CurrentTaskName ≠ "EssenceDetectFinal" →
        ((RowCollect s arg).1.rowBoxes.length : Int) ≤ s.maxItemsPerRow) := by
  unfold RowCollect at h ⊢
  by_cases hd : arg.detailOk = true
  · by_cases hc : arg.controllerOk = true
    · by_cases hi : arg.imageOk = true
      · simp only [hd, hc, hi, Bool.not_true, Bool.false_eq_true, if_false] at h ⊢
        generalize (if arg.filtered.length = 0 then arg.all else arg.filtered) = results
          at h ⊢
        split_ifs at h ⊢ with h1 h2 h3
        · simp at h
        · simp at h
        · simp at h
        · refine ⟨rfl, ?_, rfl, ?_⟩
          · exact Nat.one_le_iff_ne_zero.mpr h3
          · intro hne
            simp only [Bool.and_eq_true, decide_eq_true_eq, Bool.not_eq_true'] at h2
            simp only [hne, decide_False, Bool.not_false] at h2
            have h4 := fun hgt => h2 ⟨hgt, trivial⟩
            simp only [gt_iff_lt, imp_false, not_lt] at h4
            exact h4
      · simp [hd, hc, hi] at h
    · simp [hd, hc] at h
  · simp [hd] at h

/-- No callback changes the per-row cap. -/
theorem run_cap (isHan : Char → Bool) (cbs : List Callback) (s : State) :
    (runState isHan s cbs).maxItemsPerRow = s.maxItemsPerRow := by
  induction cbs generalizing s with
  | nil => rfl
  | cons cb rest ih =>
    have e : runState isHan s (cb :: rest) = runState isHan (step isHan s cb).1 rest := by
      simp [runState]
    rw [e, ih, (step_swipe isHan s cb).2]

/-- C25: after a `RowCollect` call that routes to `RowNextItem`, the row is non-empty and
the row index is 0; every clicking `RowNextItem` call adds exactly one to `visitedCount` and
to `rowIndex`; in any callback sequence that follows without another `RowCollect` call,
the `RowNextItem` calls click for the first `len(rowBoxes)` of them and every later one
leaves the row (first swipe, next swipe or Finish) without clicking, so the visited
counter grows by the number of clicks; and outside the fallback pass `len(rowBoxes)` is at
most the per-row cap, which is 9 in every state reached after a successful Init. -/
theorem C25_row_click_bound (isHan : Char → Bool) (s : State) (arg : RowCollectArg)
    (cbs : List Callback)
    (hroute : (RowCollect s arg).2.next = some "EssenceFilterRowNextItem")
    (hno : ∀ cb ∈ cbs, isRowCollect cb = false) :
    1 ≤ (RowCollect s arg).1.rowBoxes.length ∧ (RowCollect s arg).1.rowIndex = 0 ∧
      (∀ u : State, (RowNextItem u).2.click ≠ none →
        (RowNextItem u).1.visitedCount = u.visitedCount + 1 ∧
          (RowNextItem u).1.rowIndex = u.rowIndex + 1) ∧
      clickFlags (runTrace isHan (RowCollect s arg).1 cbs)
        = List.replicate
            (Nat.min (cbs.countP isRowNextItem) (RowCollect s arg).1.rowBoxes.length) true
          ++ List.replicate (cbs.countP isRowNextItem
              - Nat.min (cbs.countP isRowNextItem) (RowCollect s arg).1.rowBoxes.length)
            false ∧
      (runState isHan (RowCollect s arg).1 cbs).visitedCount
        = (RowCollect s arg).1.visitedCount
          + ((Nat.min (cbs.countP isRowNextItem) (RowCollect s arg).1.rowBoxes.length : Nat)
              : Int) ∧
      (∀ e ∈ runTrace isHan (RowCollect s arg).1 cbs, isRowNextItem e.1 = true →
        (clicksItem e.2.2 ∨ leavesRow e.2.2)) ∧
      (arg.CurrentTaskName ≠ "EssenceDetectFinal" →
        ((RowCollect s arg).1.rowBoxes.length : Int) ≤ s.maxItemsPerRow) ∧
      (∀ (s0 : State) (init : InitArg) (pre : List Callback),
        (Init s0 init).2.ok = true → s = runState isHan (Init s0 init).1 pre →
        arg.CurrentTaskName ≠ "EssenceDetectFinal" →
        (RowCollect s arg).1.rowBoxes.length ≤ 9) := by
  obtain ⟨h0, h1, _, hcap⟩ := RowCollect_route s arg hroute
  obtain ⟨r1, r2, _, r4⟩ := row_run isHan (RowCollect s arg).1.rowBoxes.length cbs
    (RowCollect s arg).1 0 rfl (by rw [h0]; rfl) (Nat.zero_le _) hno
  refine ⟨h1, h0, ?_, ?_, ?_, r4, hcap, ?_⟩
  · intro u hu
    exact ⟨(RowNextItem_clicking u hu).1, (RowNextItem_clicking u hu).2.1⟩
  · simpa using r1
  · simpa using r2
  · intro s0 init pre hok hs hne
    have hc := hcap hne
    have h9 : s.maxItemsPerRow = 9 := by
      rw [hs, run_cap]
      exact (Init_ok_fields s0 init hok).2.2.2.1
    rw [h9] at hc
    exact_mod_cast hc

theorem C25_row_click_bound_witness :
    (RowCollect stateAfterInit argNineBoxes).2.next = some "EssenceFilterRowNextItem" ∧
      1 ≤ (RowCollect stateAfterInit argNineBoxes).1.rowBoxes.length ∧
      (RowCollect stateAfterInit argNineBoxes).1.rowIndex = 0 ∧
      (RowCollect stateAfterInit argNineBoxes).1.rowBoxes.length = 9 ∧
      clickFlags (runTrace hanBlock (RowCollect stateAfterInit argNineBoxes).1
          (List.replicate 10 Callback.rowNextItem))
        = List.replicate 9 true ++ [false] ∧
      (runState hanBlock (RowCollect stateAfterInit argNineBoxes).1
          (List.replicate 10 Callback.rowNextItem)).visitedCount = 9 :=
  ⟨by decide,
    (C25_row_click_bound hanBlock stateAfterInit argNineBoxes
      (List.replicate 10 Callback.rowNextItem) (by decide) (by decide)).1,
    (C25_row_click_bound hanBlock stateAfterInit argNineBoxes
      (List.replicate 10 Callback.rowNextItem) (by decide) (by decide)).2.1,
    by decide, by decide, by decide⟩

/-! ## C27, C28: the inspection calls -/

/-- The buffer and the answer of a `CheckItem` call that stores a label. -/
theorem CheckItem_stores (s : State) (arg : CheckItemArg) (text : Str) (rest : List Str)
    (h1 : 1 ≤ arg.Slot) (h3 : arg.Slot ≤ 3) (hd : arg.detailOk = true)
    (hf : arg.filtered = text :: rest) (hne : text ≠ []) :
    (CheckItem s arg).1.currentSkills
        = setSkill (if arg.Slot = 1 then ([], [], []) else s.currentSkills) (arg.Slot - 1) text ∧
      (CheckItem s arg).2.ok
        = (!arg.IsLast || decide
            ((setSkill (if arg.Slot = 1 then ([], [], []) else s.currentSkills)
                (arg.Slot - 1) text).1 ≠ [] ∧
             (setSkill (if arg.Slot = 1 then ([], [], []) else s.currentSkills)
                (arg.Slot - 1) text).2.1 ≠ [] ∧
             (setSkill (if arg.Slot = 1 then ([], [], []) else s.currentSkills)
                (arg.Slot - 1) text).2.2 ≠ [])) := by
  unfold CheckItem
  have hs : ¬ (arg.Slot < 1 ∨ arg.Slot > 3) := by omega
  cases hsl : s.statsLogged <;> by_cases hslot : arg.Slot = 1 <;> cases hlast : arg.IsLast <;>
    simp only [hs, hd, hf, hne, hslot, hlast, if_true, if_false, Bool.not_true, Bool.not_false,
      Bool.false_eq_true, Bool.true_or, Bool.false_or, true_and] <;>
    (try split_ifs) <;> simp_all <;> tauto

/-- C27: a `CheckItem` call with slot in 1..3, a recognised non-empty label and
`is_last = true` stores the label in its slot (slot 1 first clearing the buffer) and
succeeds iff all three buffer entries are then non-empty; and the calls slot 1, slot 2,
slot 3 (`is_last`) with non-empty labels all succeed and leave exactly those three labels
in slot order. -/
theorem C27_inspect_completeness (s : State) (arg : CheckItemArg) (text : Str)
    (rest : List Str) (t : State) (l1 l2 l3 : Str)
    (h1 : 1 ≤ arg.Slot) (h3 : arg.Slot ≤ 3) (hd : arg.detailOk = true)
    (hf : arg.filtered = text :: rest) (hne : text ≠ []) (hlast : arg.IsLast = true)
    (hl1 : l1 ≠ []) (hl2 : l2 ≠ []) (hl3 : l3 ≠ []) :
    ((CheckItem s arg).1.currentSkills
        = setSkill (if arg.Slot = 1 then ([], [], []) else s.currentSkills) (arg.Slot - 1) text ∧
      ((CheckItem s arg).2.ok = true ↔
        (CheckItem s arg).1.currentSkills.1 ≠ [] ∧
        (CheckItem s arg).1.currentSkills.2.1 ≠ [] ∧
        (CheckItem s arg).1.currentSkills.2.2 ≠ [])) ∧
      ((CheckItem t ⟨1, false, true, [l1]⟩).2.ok = true ∧
        (CheckItem (CheckItem t ⟨1, false, true, [l1]⟩).1 ⟨2, false, true, [l2]⟩).2.ok = true ∧
        (CheckItem (CheckItem (CheckItem t ⟨1, false, true, [l1]⟩).1
          ⟨2, false, true, [l2]⟩).1 ⟨3, true, true, [l3]⟩).2.ok = true ∧
        (CheckItem (CheckItem (CheckItem t ⟨1, false, true, [l1]⟩).1
          ⟨2, false, true, [l2]⟩).1 ⟨3, true, true, [l3]⟩).1.currentSkills = (l1, l2, l3)) := by
  constructor
  · obtain ⟨hbuf, hok⟩ := CheckItem_stores s arg text rest h1 h3 hd hf hne
    refine ⟨hbuf, ?_⟩
    rw [hok, hbuf, hlast]
    simp
  · obtain ⟨hb1, ho1⟩ := CheckItem_stores t ⟨1, false, true, [l1]⟩ l1 []
      (show (1 : Int) ≤ 1 by decide) (show (1 : Int) ≤ 3 by decide) rfl rfl hl1
    obtain ⟨hb2, ho2⟩ := CheckItem_stores (CheckItem t ⟨1, false, true, [l1]⟩).1
      ⟨2, false, true, [l2]⟩ l2 []
      (show (1 : Int) ≤ 2 by decide) (show (2 : Int) ≤ 3 by decide) rfl rfl hl2
    obtain ⟨hb3, ho3⟩ := CheckItem_stores
      (CheckItem (CheckItem t ⟨1, false, true, [l1]⟩).1 ⟨2, false, true, [l2]⟩).1
      ⟨3, true, true, [l3]⟩ l3 []
      (show (1 : Int) ≤ 3 by decide) (show (3 : Int) ≤ 3 by decide) rfl rfl hl3
    have e1 : (CheckItem t ⟨1, false, true, [l1]⟩).1.currentSkills = (l1, [], []) := by
      rw [hb1]; simp [setSkill]
    have e2 : (CheckItem (CheckItem t ⟨1, false, true, [l1]⟩).1
        ⟨2, false, true, [l2]⟩).1.currentSkills = (l1, l2, []) := by
      rw [hb2, e1]; simp [setSkill]
    have e3 : (CheckItem (CheckItem (CheckItem t ⟨1, false, true, [l1]⟩).1
        ⟨2, false, true, [l2]⟩).1 ⟨3, true, true, [l3]⟩).1.currentSkills = (l1, l2, l3) := by
      rw [hb3, e2]; simp [setSkill]
    refine ⟨?_, ?_, ?_, e3⟩
    · rw [ho1]; simp
    · rw [ho2]; simp
    · rw [ho3, e2]; simp [setSkill, hl1, hl2, hl3]

/-- Witness for C27: slot 3 as the last call on a buffer holding two labels, and the three
calls in a row. -/
theorem C27_inspect_completeness_witness :
    (CheckItem (CheckItem (CheckItem stateAfterInit ⟨1, false, true, ["强击".toList]⟩).1
        ⟨2, false, true, ["守护".toList]⟩).1 ⟨3, true, true, ["强击".toList]⟩).2.ok = true ∧
      (CheckItem (CheckItem (CheckItem stateAfterInit ⟨1, false, true, ["强击".toList]⟩).1
        ⟨2, false, true, ["守护".toList]⟩).1 ⟨3, true, true, ["强击".toList]⟩).1.currentSkills
        = ("强击".toList, "守护".toList, "强击".toList) :=
  have h := (C27_inspect_completeness stateAfterInit ⟨3, true, true, ["强击".toList]⟩
    "强击".toList [] stateAfterInit "强击".toList "守护".toList "强击".toList
    (by decide) (by decide) rfl rfl (by decide) rfl (by decide) (by decide) (by decide)).2
  ⟨h.2.2.1, h.2.2.2⟩

/-- C28 (as stated, refuted): the buffer holds the label "强击"; a `CheckItem` call for
slot 1 whose recognition result is missing returns failure, but the buffer is empty
afterwards: slot 1 clears it before the recognition result is looked at. -/
theorem C28_counterexample :
    stateLeftover.currentSkills = ("强击".toList, [], []) ∧
      (CheckItem stateLeftover ⟨1, false, false, []⟩).2.ok = false ∧
      (CheckItem stateLeftover ⟨1, false, false, []⟩).1.currentSkills = ([], [], []) := by
  decide

/-- C28 (amended): a `CheckItem` call whose slot parameter is outside 1..3, whose
recognition result is missing, or whose recognised label is empty returns failure; it
leaves the three-label buffer exactly as it was, unless its slot is 1, in which case the
buffer is empty afterwards. -/
theorem C28_inspect_aborts (s : State) (arg : CheckItemArg)
    (h : (arg.Slot < 1 ∨ arg.Slot > 3) ∨ arg.detailOk = false ∨ arg.filtered = [] ∨
      arg.filtered.head? = some []) :
    (CheckItem s arg).2.ok = false ∧
      (CheckItem s arg).1.currentSkills
        = if arg.Slot = 1 then ([], [], []) else s.currentSkills := by
  unfold CheckItem
  by_cases hs : arg.Slot < 1 ∨ arg.Slot > 3
  · have hne : ¬ arg.Slot = 1 := by omega
    cases hsl : s.statsLogged <;> simp [hs, hne]
  · by_cases hd : arg.detailOk = true
    · cases hf : arg.filtered with
      | nil =>
        cases hsl : s.statsLogged <;> by_cases hslot : arg.Slot = 1 <;>
          simp [hs, hd, hslot]
      | cons text rest =>
        have htext : text = [] := by
          rcases h with h | h | h | h
          · exact absurd h hs
          · rw [hd] at h; cases h
          · rw [hf] at h; cases h
          · rw [hf] at h; simpa using h
        cases hsl : s.statsLogged <;> by_cases hslot : arg.Slot = 1 <;>
          simp [hs, hd, hslot, htext]
    · have hd2 : arg.detailOk = false := by simpa using hd
      cases hsl : s.statsLogged <;> by_cases hslot : arg.Slot = 1 <;>
        simp [hs, hd2, hslot]

/-- Witness for C28 (amended): a call for slot 2 with an empty label. -/
theorem C28_inspect_aborts_witness :
    (CheckItem stateLeftover ⟨2, false, true, [[]]⟩).2.ok = false ∧
      (CheckItem stateLeftover ⟨2, false, true, [[]]⟩).1.currentSkills
        = if (⟨2, false, true, [[]]⟩ : CheckItemArg).Slot = 1 then ([], [], [])
          else stateLeftover.currentSkills :=
  C28_inspect_aborts stateLeftover ⟨2, false, true, [[]]⟩ (Or.inr (Or.inr (Or.inr rfl)))

/-! ## C29: what the index build keeps -/

/-- C29: for every slot in 1..3, the index that `buildSlotIndices` leaves at position
`slot - 1` holds one entry per pool entry, in pool order, with that entry's identifier,
its cleaned text, its trimmed text and the number of runes of the cleaned text; and each
of the four text-keyed lookups maps a text to the identifiers of all pool entries whose
full (respectively core) text is that text, in pool order. -/
theorem C29_index_build (isHan : Char → Bool) (cfg : MatcherConfig) (db : WeaponDatabase)
    (slot : Int) (h1 : 1 ≤ slot) (h3 : slot ≤ 3) :
    ∃ idx, (buildSlotIndices isHan cfg db)[(slot - 1).toNat]? = some idx ∧
      idx.entries.map (fun e => (e.ID, e.RawFull, e.RawCore, e.RawLen))
        = (getPoolBySlot db slot).map (fun p => (p.ID, cleanChinese isHan p.Chinese,
            trimStopSuffix cfg (cleanChinese isHan p.Chinese),
            ((cleanChinese isHan p.Chinese).length : Int))) ∧
      idx.entries.map (fun e => (e.NormFull, e.NormCore, e.NormLen))
        = idx.entries.map (fun e => (e.RawFull, e.RawCore, e.RawLen)) ∧
      (∀ k, idx.rawFullIndex k = ((getPoolBySlot db slot).filter
          (fun p => decide (cleanChinese isHan p.Chinese = k))).map (·.ID)) ∧
      (∀ k, idx.normFullIndex k = ((getPoolBySlot db slot).filter
          (fun p => decide (cleanChinese isHan p.Chinese = k))).map (·.ID)) ∧
      (∀ k, idx.rawCoreIndex k = ((getPoolBySlot db slot).filter
          (fun p => decide (trimStopSuffix cfg (cleanChinese isHan p.Chinese) = k))).map
            (·.ID)) ∧
      (∀ k, idx.normCoreIndex k = ((getPoolBySlot db slot).filter
          (fun p => decide (trimStopSuffix cfg (cleanChinese isHan p.Chinese) = k))).map
            (·.ID)) := by
  refine ⟨buildSlotIndex isHan cfg (getPoolBySlot db slot),
    buildSlotIndices_get isHan cfg db slot h1 h3, ?_, ?_,
    buildSlotIndex_rawFullIndex isHan cfg _, buildSlotIndex_normFullIndex isHan cfg _,
    buildSlotIndex_rawCoreIndex isHan cfg _, buildSlotIndex_normCoreIndex isHan cfg _⟩
  · rw [buildSlotIndex_entries, List.map_map]
    rfl
  · rw [buildSlotIndex_entries, List.map_map, List.map_map]
    rfl

/-- Witness for C29: slot 1 of a database whose slot-1 pool has two entries with the same
text; both identifiers are kept under that text. -/
theorem C29_index_build_witness :
    ∃ idx, (buildSlotIndices hanBlock cfgZhiLi (dbOfSlot1 poolSameText))[((1 : Int) - 1).toNat]?
        = some idx ∧ idx.rawFullIndex "强击".toList = [1, 2] := by
  obtain ⟨idx, hidx, _, _, hfull, _⟩ :=
    C29_index_build hanBlock cfgZhiLi (dbOfSlot1 poolSameText) 1 (by decide) (by decide)
  exact ⟨idx, hidx, by rw [hfull]; decide⟩

/-! ## C30: the order of the collected boxes -/

theorem boxLess_false_iff (a b : Box) : boxLess b a = false ↔ boxOrdered a b := by
  unfold boxLess boxOrdered
  by_cases h : b.y = a.y
  · simp only [h, if_true, decide_eq_false_iff_not, not_lt]
    constructor
    · intro hx; exact Or.inr ⟨trivial, hx⟩
    · rintro (hlt | ⟨_, hx⟩)
      · exact absurd hlt (lt_irrefl _)
      · exact hx
  · simp only [h, if_false, decide_eq_false_iff_not, not_lt]
    constructor
    · intro hle
      exact Or.inl (lt_of_le_of_ne hle (fun e => h e.symm))
    · rintro (hlt | ⟨he, _⟩)
      · exact le_of_lt hlt
      · exact absurd he.symm h

theorem boxOrdered_total (a b : Box) : boxOrdered a b ∨ boxOrdered b a := by
  unfold boxOrdered
  rcases lt_trichotomy a.y b.y with h | h | h
  · exact Or.inl (Or.inl h)
  · rcases le_total a.x b.x with hx | hx
    · exact Or.inl (Or.inr ⟨h, hx⟩)
    · exact Or.inr (Or.inr ⟨h.symm, hx⟩)
  · exact Or.inr (Or.inl h)

theorem boxOrdered_trans (a b c : Box) (h1 : boxOrdered a b) (h2 : boxOrdered b c) :
    boxOrdered a c := by
  unfold boxOrdered at *
  rcases h1 with h1 | ⟨h1, h1x⟩ <;> rcases h2 with h2 | ⟨h2, h2x⟩
  · exact Or.inl (lt_trans h1 h2)
  · exact Or.inl (h2 ▸ h1)
  · exact Or.inl (h1 ▸ h2)
  · exact Or.inr ⟨h1.trans h2, le_trans h1x h2x⟩

/-- The sort of `RowCollect` returns its input rearranged and in order. -/
theorem sortBoxes_sorted_perm (boxes : List Box) :
    (sortBoxes boxes).Perm boxes ∧ (sortBoxes boxes).Pairwise boxOrdered := by
  unfold sortBoxes
  haveI : IsTotal Box (fun a b => boxLess b a = false) :=
    ⟨fun a b => by
      rcases boxOrdered_total a b with h | h
      · exact Or.inl ((boxLess_false_iff a b).mpr h)
      · exact Or.inr ((boxLess_false_iff b a).mpr h)⟩
  haveI : IsTrans Box (fun a b => boxLess b a = false) :=
    ⟨fun a b c h1 h2 => (boxLess_false_iff a c).mpr
      (boxOrdered_trans a b c ((boxLess_false_iff a b).mp h1) ((boxLess_false_iff b c).mp h2))⟩
  refine ⟨List.perm_insertionSort _ _, ?_⟩
  have hs := List.sorted_insertionSort (fun a b : Box => boxLess b a = false) boxes
  exact List.Pairwise.imp (fun {a b} h => (boxLess_false_iff a b).mp h) hs

/-- What `rowBoxes` holds after a `RowCollect` call that ran its scan. -/
theorem RowCollect_rowBoxes (s : State) (arg : RowCollectArg)
    (hd : arg.detailOk = true) (hc : arg.controllerOk = true) (hi : arg.imageOk = true) :
    (RowCollect s arg).1.rowBoxes
      = sortBoxes (collectBoxes (if arg.filtered.length = 0 then arg.all else arg.filtered)) := by
  unfold RowCollect
  simp only [hd, hc, hi, Bool.not_true, Bool.false_eq_true, if_false]
  generalize (if arg.filtered.length = 0 then arg.all else arg.filtered) = results
  split_ifs <;> rfl

/-- C30: after every `RowCollect` call that ran its scan (detail, controller and
screenshot present), `rowBoxes` is a permutation of the boxes accepted in that scan and is
sorted by ascending y and, among equal y, by ascending x. -/
theorem C30_row_scan_ordering (s : State) (arg : RowCollectArg)
    (hd : arg.detailOk = true) (hc : arg.controllerOk = true) (hi : arg.imageOk = true) :
    (RowCollect s arg).1.rowBoxes.Perm
        (collectBoxes (if arg.filtered.length = 0 then arg.all else arg.filtered)) ∧
      (RowCollect s arg).1.rowBoxes.Pairwise boxOrdered ∧
      (RowCollect s arg).1.rowBoxes.length = acceptedBoxes arg := by
  rw [RowCollect_rowBoxes s arg hd hc hi]
  obtain ⟨hp, hs⟩ := sortBoxes_sorted_perm
    (collectBoxes (if arg.filtered.length = 0 then arg.all else arg.filtered))
  refine ⟨hp, hs, ?_⟩
  unfold acceptedBoxes
  simp only [hd, hc, hi, Bool.not_true, Bool.or_self, Bool.false_eq_true, if_false]
  exact hp.length_eq

/-- Witness for C30: two boxes scanned right to left come out left to right. -/
theorem C30_row_scan_ordering_witness :
    (RowCollect stateAfterInit argUnsortedBoxes).1.rowBoxes.Perm
        (collectBoxes (if argUnsortedBoxes.filtered.length = 0 then argUnsortedBoxes.all
          else argUnsortedBoxes.filtered)) ∧
      (RowCollect stateAfterInit argUnsortedBoxes).1.rowBoxes.Pairwise boxOrdered ∧
      (RowCollect stateAfterInit argUnsortedBoxes).1.rowBoxes.length
        = acceptedBoxes argUnsortedBoxes :=
  C30_row_scan_ordering stateAfterInit argUnsortedBoxes rfl rfl rfl

/-! ## C40: `editDistance` is symmetric and is 0 exactly on equal texts -/

/-- The specified distance does not depend on which text comes first. -/
theorem osa_symm (a b : Str) : ∀ (n i j : Nat), i + j ≤ n → osa a b i j = osa b a j i := by
  intro n
  induction n with
  | zero =>
    intro i j h
    have hi : i = 0 := by omega
    have hj : j = 0 := by omega
    subst hi; subst hj
    rw [osa_zero_left, osa_zero_right]
  | succ n ih =>
    intro i j h
    cases i with
    | zero => rw [osa_zero_left, osa_zero_right]
    | succ i =>
      cases j with
      | zero => rw [osa_zero_left, osa_zero_right]
      | succ j =>
        have h1 := ih i (j + 1) (by omega)
        have h2 := ih (i + 1) j (by omega)
        have h3 := ih i j (by omega)
        have h4 := ih (i - 1) (j - 1) (by omega)
        have hcost : (if b[j]? = a[i]? then 0 else 1) = (if a[i]? = b[j]? then 0 else 1) := by
          by_cases e : a[i]? = b[j]?
          · rw [if_pos e, if_pos e.symm]
          · rw [if_neg e, if_neg (fun e2 => e e2.symm)]
        have hcond : (1 ≤ j ∧ 1 ≤ i ∧ b[j]? = a[i - 1]? ∧ b[j - 1]? = a[i]?)
            ↔ (1 ≤ i ∧ 1 ≤ j ∧ a[i]? = b[j - 1]? ∧ a[i - 1]? = b[j]?) := by
          constructor
          · rintro ⟨p, q, r, s⟩
            exact ⟨q, p, s.symm, r.symm⟩
          · rintro ⟨p, q, r, s⟩
            exact ⟨q, p, s.symm, r.symm⟩
        rw [osa_succ_succ a b, osa_succ_succ b a]
        simp only [← h1, ← h2, ← h3, ← h4, hcost, hcond]
        split_ifs <;> simp only [Nat.min_def] <;> split_ifs <;> omega

/-- A distance of 0 between two prefixes: they have one length and agree rune by rune. -/
theorem osa_eq_zero (a b : Str) : ∀ (n i j : Nat), i + j ≤ n → osa a b i j = 0 →
    i = j ∧ ∀ m, m < i → a[m]? = b[m]? := by
  intro n
  induction n with
  | zero =>
    intro i j h _
    have hi : i = 0 := by omega
    have hj : j = 0 := by omega
    subst hi; subst hj
    exact ⟨rfl, fun m hm => absurd hm (Nat.not_lt_zero m)⟩
  | succ n ih =>
    intro i j h h0
    cases i with
    | zero =>
      rw [osa_zero_left] at h0
      subst h0
      exact ⟨rfl, fun m hm => absurd hm (Nat.not_lt_zero m)⟩
    | succ i =>
      cases j with
      | zero =>
        rw [osa_zero_right] at h0
        omega
      | succ j =>
        have h3 := ih i j (by omega)
        rw [osa_succ_succ] at h0
        simp only [] at h0
        have hthird : osa a b i j + (if a[i]? = b[j]? then 0 else 1) = 0 := by
          have hpos : 0 < Nat.min (osa a b i (j + 1) + 1) (osa a b (i + 1) j + 1) := by
            simp only [Nat.min_def]
            split_ifs <;> omega
          generalize Nat.min (osa a b i (j + 1) + 1) (osa a b (i + 1) j + 1) = u at h0 hpos
          generalize osa a b i j + (if a[i]? = b[j]? then 0 else 1) = v at h0 ⊢
          generalize hw : osa a b (i - 1) (j - 1) + 1 = w at h0
          have hwpos : 0 < w := by omega
          revert h0
          simp only [Nat.min_def]
          split_ifs <;> intro h0 <;> omega
        have hsub : osa a b i j = 0 ∧ a[i]? = b[j]? := by
          by_cases e : a[i]? = b[j]?
          · exact ⟨by simpa [e] using hthird, e⟩
          · simp [e] at hthird
        obtain ⟨hij, hpre⟩ := h3 hsub.1
        subst hij
        refine ⟨rfl, ?_⟩
        intro m hm
        by_cases hmi : m < i
        · exact hpre m hmi
        · have : m = i := by omega
          subst this
          exact hsub.2

theorem osaDistance_eq_zero_iff (a b : Str) : osaDistance a b = 0 ↔ a = b := by
  unfold osaDistance
  constructor
  · intro h
    obtain ⟨hlen, hpre⟩ := osa_eq_zero a b (a.length + b.length) a.length b.length
      (le_refl _) h
    apply List.ext_getElem? 
    intro m
    by_cases hm : m < a.length
    · exact hpre m hm
    · have h1 : a.length ≤ m := by omega
      have h2 : b.length ≤ m := by omega
      rw [List.getElem?_eq_none h1, List.getElem?_eq_none h2]
  · intro h
    subst h
    have h := osa_common_prefix a [] []
    simpa using h

/-- What `editDistance` returns, in terms of the specified distance. -/
theorem editDistance_eq (a b : Str) (max : Int) :
    editDistance a b max
      = if abs ((a.length : Int) - (b.length : Int)) > max then max + 1
        else if ((osaDistance a b : Nat) : Int) > max then max + 1
        else ((osaDistance a b : Nat) : Int) := by
  unfold editDistance osaDistance
  simp only [editTable_last]

/-- C40: for all texts `a`, `b` and every bound `max >= 0`, `editDistance` gives the same
value with its two texts exchanged, and it gives 0 exactly when the two texts are equal. -/
theorem C40_editDistance_symm_zero (a b : Str) (max : Int) (hmax : 0 ≤ max) :
    editDistance a b max = editDistance b a max ∧
      (editDistance a b max = 0 ↔ a = b) := by
  have hsym : osaDistance a b = osaDistance b a := by
    unfold osaDistance
    exact osa_symm a b (a.length + b.length) a.length b.length (le_refl _)
  have habs : abs ((a.length : Int) - (b.length : Int))
      = abs ((b.length : Int) - (a.length : Int)) := by
    unfold abs
    split_ifs <;> omega
  refine ⟨?_, ?_⟩
  · rw [editDistance_eq, editDistance_eq, hsym, habs]
  · rw [editDistance_eq]
    constructor
    · intro h
      have hz : osaDistance a b = 0 := by
        split_ifs at h <;> omega
      exact (osaDistance_eq_zero_iff a b).mp hz
    · intro h
      subst h
      have hz : osaDistance a a = 0 := (osaDistance_eq_zero_iff a a).mpr rfl
      have h0 : abs ((a.length : Int) - (a.length : Int)) = 0 := by
        unfold abs
        split_ifs <;> omega
      rw [h0, hz]
      split_ifs <;> omega

theorem C40_editDistance_symm_zero_witness :
    editDistance "强击".toList "击强之".toList 2 = editDistance "击强之".toList "强击".toList 2 ∧
      (editDistance "强击".toList "击强之".toList 2 = 0 ↔ "强击".toList = "击强之".toList) :=
  C40_editDistance_symm_zero "强击".toList "击强之".toList 2 (by decide)

/-! ## C38: the normalised side of a built index -/

theorem addEntry_NormIsRaw (isHan : Char → Bool) (cfg : MatcherConfig) (idx : slotIndex)
    (s : SkillPool) (h : idx.NormIsRaw) : (addEntry isHan cfg idx s).NormIsRaw := by
  obtain ⟨h1, h2, h3, h4, h5⟩ := h
  have hent : ∀ e ∈ (addEntry isHan cfg idx s).entries,
      e.NormFull = e.RawFull ∧ e.NormCore = e.RawCore ∧ e.NormLen = e.RawLen := by
    intro e he
    rw [addEntry_entries, List.mem_append] at he
    rcases he with he | he
    · exact h5 e he
    · have : e = mkEntry isHan cfg s := by simpa using he
      subst this
      exact ⟨rfl, rfl, rfl⟩
  refine ⟨?_, ?_, ?_, ?_, hent⟩
  · rw [addEntry_normFullIndex, addEntry_rawFullIndex, h1]
  · rw [addEntry_normCoreIndex, addEntry_rawCoreIndex, h2]
  · unfold addEntry
    simp only [mkEntry]
    split_ifs <;> simp only [h3]
  · unfold addEntry
    simp only [mkEntry]
    split_ifs <;> simp only [h4]

theorem buildSlotIndex_NormIsRaw (isHan : Char → Bool) (cfg : MatcherConfig)
    (pool : List SkillPool) : (buildSlotIndex isHan cfg pool).NormIsRaw := by
  have key : ∀ (l : List SkillPool) (idx : slotIndex), idx.NormIsRaw →
      (l.foldl (addEntry isHan cfg) idx).NormIsRaw := by
    intro l
    induction l with
    | nil => intro idx h; exact h
    | cons s rest ih =>
      intro idx h
      exact ih _ (addEntry_NormIsRaw isHan cfg idx s h)
  apply key
  exact ⟨rfl, rfl, rfl, rfl, fun e he => by simp [emptySlotIndex] at he⟩

theorem substringFull_norm (cleaned : Str) (cLen : Int) (es : List skillEntry)
    (h : ∀ e ∈ es, e.NormFull = e.RawFull ∧ e.NormCore = e.RawCore ∧ e.NormLen = e.RawLen) :
    substringFull true cleaned cLen es = substringFull false cleaned cLen es := by
  induction es with
  | nil => rfl
  | cons e rest ih =>
    obtain ⟨e1, _, e3⟩ := h e (List.mem_cons_self _ _)
    have ih2 := ih (fun x hx => h x (List.mem_cons_of_mem _ hx))
    unfold substringFull
    simp only [if_true, Bool.false_eq_true, if_false, e1, e3, ih2]

theorem substringCore_norm (core : Str) (coreLen : Int) (es : List skillEntry)
    (h : ∀ e ∈ es, e.NormFull = e.RawFull ∧ e.NormCore = e.RawCore ∧ e.NormLen = e.RawLen) :
    substringCore true core coreLen es = substringCore false core coreLen es := by
  induction es with
  | nil => rfl
  | cons e rest ih =>
    obtain ⟨_, e2, e3⟩ := h e (List.mem_cons_self _ _)
    have ih2 := ih (fun x hx => h x (List.mem_cons_of_mem _ hx))
    unfold substringCore
    simp only [if_true, Bool.false_eq_true, if_false, e2, e3, ih2]

theorem editFold_norm (cleaned : Str) (maxEd : Int) (es : List skillEntry)
    (h : ∀ e ∈ es, e.NormFull = e.RawFull ∧ e.NormCore = e.RawCore ∧ e.NormLen = e.RawLen)
    (best : Int × Int) :
    es.foldl (editStep true cleaned maxEd) best = es.foldl (editStep false cleaned maxEd) best := by
  induction es generalizing best with
  | nil => rfl
  | cons e rest ih =>
    obtain ⟨e1, _, _⟩ := h e (List.mem_cons_self _ _)
    have hstep : editStep true cleaned maxEd best e = editStep false cleaned maxEd best e := by
      unfold editStep
      simp only [if_true, Bool.false_eq_true, if_false, e1]
    rw [List.foldl_cons, List.foldl_cons, hstep]
    exact ih (fun x hx => h x (List.mem_cons_of_mem _ hx)) _

/-- On an index whose normalised side repeats the raw side, the two phases of the cascade
give the same answer on the same pair. -/
theorem attemptMatch_norm_eq_raw (slot : Int) (cleaned core : Str) (idx : slotIndex)
    (h : idx.NormIsRaw) :
    attemptMatch "norm" slot cleaned core idx = attemptMatch "raw" slot cleaned core idx := by
  obtain ⟨h1, h2, h3, h4, h5⟩ := h
  have hn : decide (("norm" : String) = "norm") = true := by decide
  have hr : decide (("raw" : String) = "norm") = false := by decide
  unfold attemptMatch
  unfold editFallback
  simp only [hn, hr, decide_True, if_true, Bool.false_eq_true, if_false, h1, h2, h3, h4,
    substringFull_norm cleaned _ idx.entries h5, substringCore_norm core _ idx.entries h5,
    editFold_norm cleaned _ idx.entries h5]

theorem mem_buildSlotIndices (isHan : Char → Bool) (cfg : MatcherConfig) (db : WeaponDatabase)
    (idx : slotIndex) (h : idx ∈ buildSlotIndices isHan cfg db) :
    ∃ pool, idx = buildSlotIndex isHan cfg pool := by
  unfold buildSlotIndices at h
  rw [List.mem_map] at h
  obtain ⟨i, _, hi⟩ := h
  exact ⟨_, hi.symm⟩

/-- How `matchSkillIDEnhanced` unfolds for a slot in range with a non-empty cleaned text
whose raw pass misses. -/
theorem matchSkillIDEnhanced_of_raw_miss (isHan : Char → Bool) (cfg : MatcherConfig)
    (slotIndices : List slotIndex) (slot : Int) (ocrText : Str) (idx : slotIndex)
    (h1 : 1 ≤ slot) (h3 : slot ≤ 3)
    (hidx : slotIndices[(slot - 1).toNat]? = some idx)
    (hne : cleanChinese isHan ocrText ≠ [])
    (hmiss : (attemptMatch "raw" slot (cleanChinese isHan ocrText)
      (trimStopSuffix cfg (cleanChinese isHan ocrText)) idx).2 = false) :
    matchSkillIDEnhanced isHan cfg slotIndices slot ocrText
      = match attemptMatch "norm" slot (normalizeSimilar cfg (cleanChinese isHan ocrText))
          (trimStopSuffix cfg (normalizeSimilar cfg (cleanChinese isHan ocrText))) idx with
        | (id, true) => some (id, true)
        | (_, false) => some (0, false) := by
  unfold matchSkillIDEnhanced
  have hs : ¬ (slot < 1 ∨ slot > 3) := by omega
  simp only [hs, if_false, hidx, hne]
  cases hraw : attemptMatch "raw" slot (cleanChinese isHan ocrText)
      (trimStopSuffix cfg (cleanChinese isHan ocrText)) idx with
  | mk id ok =>
    rw [hraw] at hmiss
    simp only at hmiss
    subst hmiss
    rfl

/-- C38: every index that `buildSlotIndices` produces carries the raw texts as normalised
texts, and on it `attemptMatch` in phase "norm" returns exactly what it returns in phase
"raw" on the same pair; so for a slot in 1..3 and a text whose cleaned form is left
unchanged by `normalizeSimilar`, a miss of the raw pass makes resolve fail. -/
theorem C38_norm_pass_repeats_raw (isHan : Char → Bool) (cfg : MatcherConfig)
    (db : WeaponDatabase) (slot : Int) (ocrText : Str) (h1 : 1 ≤ slot) (h3 : slot ≤ 3) :
    (∀ idx ∈ buildSlotIndices isHan cfg db,
      (∀ e ∈ idx.entries, e.NormFull = e.RawFull ∧ e.NormCore = e.RawCore) ∧
      ∀ (sl : Int) (cleaned core : Str),
        attemptMatch "norm" sl cleaned core idx = attemptMatch "raw" sl cleaned core idx) ∧
      (normalizeSimilar cfg (cleanChinese isHan ocrText) = cleanChinese isHan ocrText →
        (attemptMatch "raw" slot (cleanChinese isHan ocrText)
          (trimStopSuffix cfg (cleanChinese isHan ocrText))
          (buildSlotIndex isHan cfg (getPoolBySlot db slot))).2 = false →
        matchSkillIDEnhanced isHan cfg (buildSlotIndices isHan cfg db) slot ocrText
          = some (0, false)) := by
  refine ⟨?_, ?_⟩
  · intro idx hidx
    obtain ⟨pool, rfl⟩ := mem_buildSlotIndices isHan cfg db idx hidx
    have hn := buildSlotIndex_NormIsRaw isHan cfg pool
    exact ⟨fun e he => ⟨(hn.2.2.2.2 e he).1, (hn.2.2.2.2 e he).2.1⟩,
      fun sl cleaned core => attemptMatch_norm_eq_raw sl cleaned core _ hn⟩
  · intro hsame hmiss
    by_cases hne : cleanChinese isHan ocrText = []
    · unfold matchSkillIDEnhanced
      have hs : ¬ (slot < 1 ∨ slot > 3) := by omega
      simp only [hs, if_false, buildSlotIndices_get isHan cfg db slot h1 h3, hne, if_true]
    · rw [matchSkillIDEnhanced_of_raw_miss isHan cfg _ slot ocrText _ h1 h3
        (buildSlotIndices_get isHan cfg db slot h1 h3) hne hmiss, hsame,
        attemptMatch_norm_eq_raw _ _ _ _ (buildSlotIndex_NormIsRaw isHan cfg _)]
      cases hraw : attemptMatch "raw" slot (cleanChinese isHan ocrText)
          (trimStopSuffix cfg (cleanChinese isHan ocrText))
          (buildSlotIndex isHan cfg (getPoolBySlot db slot)) with
      | mk id ok =>
        rw [hraw] at hmiss
        simp only at hmiss
        subst hmiss
        rfl

theorem C38_norm_pass_repeats_raw_witness :
    (attemptMatch "raw" 1 (cleanChinese hanBlock "甲乙丙丁".toList)
        (trimStopSuffix cfgZhiLi (cleanChinese hanBlock "甲乙丙丁".toList))
        (buildSlotIndex hanBlock cfgZhiLi (getPoolBySlot (dbOfSlot1 poolScenario) 1))).2 = false ∧
      matchSkillIDEnhanced hanBlock cfgZhiLi
        (buildSlotIndices hanBlock cfgZhiLi (dbOfSlot1 poolScenario)) 1 "甲乙丙丁".toList
        = some (0, false) :=
  ⟨by decide,
    (C38_norm_pass_repeats_raw hanBlock cfgZhiLi (dbOfSlot1 poolScenario) 1 "甲乙丙丁".toList
      (by decide) (by decide)).2 (by decide) (by decide)⟩

/-! ## C37: the resolver answers with identifiers of the slot's pool -/

/-- Appending under key `key s` for the elements with a non-empty key, seen at one key. -/
theorem foldl_append_if_lookup {σ : Type} (proj : σ → IdMap) (stepFn : σ → SkillPool → σ)
    (key : SkillPool → Str)
    (hstep : ∀ st s, proj (stepFn st s)
      = if key s ≠ [] then (proj st).append (key s) s.ID else proj st)
    (pool : List SkillPool) (st : σ) (k : Str) :
    proj (pool.foldl stepFn st) k
      = proj st k ++ (pool.filter (fun s => decide (key s ≠ [] ∧ key s = k))).map (·.ID) := by
  induction pool generalizing st with
  | nil => simp
  | cons s rest ih =>
    rw [List.foldl_cons, ih, hstep]
    unfold IdMap.append
    by_cases hne : key s = []
    · simp [hne, List.filter_cons]
    · by_cases h : key s = k
      · subst h
        simp [hne, List.filter_cons]
      · have h2 : ¬ k = key s := fun e => h e.symm
        simp [hne, h, h2, List.filter_cons]

theorem addEntry_firstCharRaw (isHan : Char → Bool) (cfg : MatcherConfig) (idx : slotIndex)
    (s : SkillPool) :
    (addEntry isHan cfg idx s).firstCharRaw
      = if firstChar (cleanChinese isHan s.Chinese) ≠ [] then
          idx.firstCharRaw.append (firstChar (cleanChinese isHan s.Chinese)) s.ID
        else idx.firstCharRaw := by
  unfold addEntry
  simp only [mkEntry]
  split_ifs <;> rfl

theorem addEntry_lastCharRaw (isHan : Char → Bool) (cfg : MatcherConfig) (idx : slotIndex)
    (s : SkillPool) :
    (addEntry isHan cfg idx s).lastCharRaw
      = if lastChar (cleanChinese isHan s.Chinese) ≠ [] then
          idx.lastCharRaw.append (lastChar (cleanChinese isHan s.Chinese)) s.ID
        else idx.lastCharRaw := by
  unfold addEntry
  simp only [mkEntry]
  split_ifs <;> rfl

theorem buildSlotIndex_firstCharRaw (isHan : Char → Bool) (cfg : MatcherConfig)
    (pool : List SkillPool) (k : Str) :
    (buildSlotIndex isHan cfg pool).firstCharRaw k
      = (pool.filter (fun s => decide (firstChar (cleanChinese isHan s.Chinese) ≠ [] ∧
          firstChar (cleanChinese isHan s.Chinese) = k))).map (·.ID) := by
  have h := foldl_append_if_lookup (fun idx : slotIndex => idx.firstCharRaw)
    (addEntry isHan cfg) (fun s => firstChar (cleanChinese isHan s.Chinese))
    (addEntry_firstCharRaw isHan cfg) pool emptySlotIndex k
  simpa [buildSlotIndex, emptySlotIndex] using h

theorem buildSlotIndex_lastCharRaw (isHan : Char → Bool) (cfg : MatcherConfig)
    (pool : List SkillPool) (k : Str) :
    (buildSlotIndex isHan cfg pool).lastCharRaw k
      = (pool.filter (fun s => decide (lastChar (cleanChinese isHan s.Chinese) ≠ [] ∧
          lastChar (cleanChinese isHan s.Chinese) = k))).map (·.ID) := by
  have h := foldl_append_if_lookup (fun idx : slotIndex => idx.lastCharRaw)
    (addEntry isHan cfg) (fun s => lastChar (cleanChinese isHan s.Chinese))
    (addEntry_lastCharRaw isHan cfg) pool emptySlotIndex k
  simpa [buildSlotIndex, emptySlotIndex] using h

/-- An identifier read from a filtered pool is the identifier of a pool entry passing the
filter. -/
theorem mem_filter_map_ID (pool : List SkillPool) (p : SkillPool → Bool) (id : Int)
    (h : id ∈ (pool.filter p).map (·.ID)) : ∃ s ∈ pool, p s = true ∧ s.ID = id := by
  rw [List.mem_map] at h
  obtain ⟨s, hs, hid⟩ := h
  rw [List.mem_filter] at hs
  exact ⟨s, hs.1, hs.2, hid⟩

theorem substringFull_some (useNorm : Bool) (cleaned : Str) (cLen : Int)
    (es : List skillEntry) (id : Int) (h : substringFull useNorm cleaned cLen es = some id) :
    ∃ e ∈ es, e.ID = id := by
  induction es with
  | nil => simp [substringFull] at h
  | cons e rest ih =>
    unfold substringFull at h
    simp only [] at h
    split_ifs at h <;>
      first
      | exact ⟨e, List.mem_cons_self _ _, by simpa using h⟩
      | (obtain ⟨x, hx, hid⟩ := ih h
         exact ⟨x, List.mem_cons_of_mem _ hx, hid⟩)

theorem substringCore_some (useNorm : Bool) (core : Str) (coreLen : Int)
    (es : List skillEntry) (id : Int) (h : substringCore useNorm core coreLen es = some id) :
    ∃ e ∈ es, e.ID = id := by
  induction es with
  | nil => simp [substringCore] at h
  | cons e rest ih =>
    unfold substringCore at h
    simp only [] at h
    split_ifs at h <;>
      first
      | exact ⟨e, List.mem_cons_self _ _, by simpa using h⟩
      | (obtain ⟨x, hx, hid⟩ := ih h
         exact ⟨x, List.mem_cons_of_mem _ hx, hid⟩)

/-- The identifier the stage-6 loop holds is the one it started with or that of an
entry. -/
theorem editFold_id (useNorm : Bool) (cleaned : Str) (maxEd : Int) (es : List skillEntry)
    (best : Int × Int) :
    (es.foldl (editStep useNorm cleaned maxEd) best).1 = best.1 ∨
      ∃ e ∈ es, e.ID = (es.foldl (editStep useNorm cleaned maxEd) best).1 := by
  induction es generalizing best with
  | nil => exact Or.inl rfl
  | cons e rest ih =>
    rw [List.foldl_cons]
    rcases ih (editStep useNorm cleaned maxEd best e) with h | ⟨x, hx, hid⟩
    · have hstep : (editStep useNorm cleaned maxEd best e).1 = best.1 ∨
          (editStep useNorm cleaned maxEd best e).1 = e.ID := by
        unfold editStep
        simp only []
        split_ifs <;> simp
      rcases hstep with hs | hs
      · exact Or.inl (h.trans hs)
      · exact Or.inr ⟨e, List.mem_cons_self _ _, (h.trans hs).symm⟩
    · exact Or.inr ⟨x, List.mem_cons_of_mem _ hx, hid⟩

theorem singleChar_some (firstChar lastChar : IdMap) (cleaned : Str) (cLen : Int) (id : Int)
    (h : singleChar firstChar lastChar cleaned cLen = some id) :
    cLen = 1 ∧ (firstChar cleaned = [id] ∨ lastChar cleaned = [id]) := by
  unfold singleChar at h
  split_ifs at h with hc
  refine ⟨hc, ?_⟩
  split at h
  · left
    simp only [Option.some.injEq] at h
    subst h
    assumption
  · split at h
    · right
      simp only [Option.some.injEq] at h
      subst h
      assumption
    · cases h

/-- The raw pass on a built index answers with the identifier of a pool entry. -/
theorem attemptMatch_raw_sound (isHan : Char → Bool) (cfg : MatcherConfig)
    (pool : List SkillPool) (slot : Int) (cleaned core : Str) (id : Int)
    (h : attemptMatch "raw" slot cleaned core (buildSlotIndex isHan cfg pool) = (id, true)) :
    ∃ s ∈ pool, s.ID = id := by
  have hr : decide (("raw" : String) = "norm") = false := by decide
  have hentry : ∀ e ∈ (buildSlotIndex isHan cfg pool).entries, ∃ s ∈ pool, s.ID = e.ID := by
    intro e he
    rw [buildSlotIndex_entries, List.mem_map] at he
    obtain ⟨s, hs, rfl⟩ := he
    exact ⟨s, hs, rfl⟩
  unfold attemptMatch at h
  simp only [hr, Bool.false_eq_true, if_false] at h
  split at h
  · rename_i i tl hfull
    have hid : i = id := by simpa using congrArg Prod.fst h
    have hmem : i ∈ (buildSlotIndex isHan cfg pool).rawFullIndex cleaned := by
      rw [hfull]; exact List.mem_cons_self _ _
    rw [buildSlotIndex_rawFullIndex] at hmem
    obtain ⟨s, hs, _, hsid⟩ := mem_filter_map_ID pool _ i hmem
    exact ⟨s, hs, hsid.trans hid⟩
  · split at h
    · rename_i i tl hcore
      have hid : i = id := by simpa using congrArg Prod.fst h
      have hmem : i ∈ (buildSlotIndex isHan cfg pool).rawCoreIndex core := by
        rw [hcore]; exact List.mem_cons_self _ _
      rw [buildSlotIndex_rawCoreIndex] at hmem
      obtain ⟨s, hs, _, hsid⟩ := mem_filter_map_ID pool _ i hmem
      exact ⟨s, hs, hsid.trans hid⟩
    · split at h
      · rename_i i hsub
        have hid : i = id := by simpa using congrArg Prod.fst h
        obtain ⟨e, he, heid⟩ := substringFull_some _ _ _ _ _ hsub
        obtain ⟨s, hs, hsid⟩ := hentry e he
        exact ⟨s, hs, hsid.trans (heid.trans hid)⟩
      · split at h
        · rename_i i hsub
          have hid : i = id := by simpa using congrArg Prod.fst h
          obtain ⟨e, he, heid⟩ := substringCore_some _ _ _ _ _ hsub
          obtain ⟨s, hs, hsid⟩ := hentry e he
          exact ⟨s, hs, hsid.trans (heid.trans hid)⟩
        · split at h
          · rename_i i hsingle
            have hid : i = id := by simpa using congrArg Prod.fst h
            obtain ⟨_, hf | hl⟩ := singleChar_some _ _ _ _ _ hsingle
            · have hmem : i ∈ (buildSlotIndex isHan cfg pool).firstCharRaw cleaned := by
                rw [hf]; exact List.mem_cons_self _ _
              rw [buildSlotIndex_firstCharRaw] at hmem
              obtain ⟨s, hs, _, hsid⟩ := mem_filter_map_ID pool _ i hmem
              exact ⟨s, hs, hsid.trans hid⟩
            · have hmem : i ∈ (buildSlotIndex isHan cfg pool).lastCharRaw cleaned := by
                rw [hl]; exact List.mem_cons_self _ _
              rw [buildSlotIndex_lastCharRaw] at hmem
              obtain ⟨s, hs, _, hsid⟩ := mem_filter_map_ID pool _ i hmem
              exact ⟨s, hs, hsid.trans hid⟩
          · unfold editFallback at h
            simp only [] at h
            split_ifs at h with hz
            · have hid : (List.foldl (editStep false cleaned (maxEdOf (cleaned.length : Int)))
                  (0, maxEdOf (cleaned.length : Int) + 1)
                  (buildSlotIndex isHan cfg pool).entries).1 = id := by
                simpa using congrArg Prod.fst h
              rcases editFold_id false cleaned (maxEdOf (cleaned.length : Int))
                  (buildSlotIndex isHan cfg pool).entries
                  (0, maxEdOf (cleaned.length : Int) + 1) with h0 | ⟨e, he, heid⟩
              · exact absurd h0 hz
              · obtain ⟨s, hs, hsid⟩ := hentry e he
                exact ⟨s, hs, hsid.trans (heid.trans hid)⟩
            · simp at h

/-- What resolve returns depends on the array of indices through the position of the slot
only. -/
theorem matchSkillIDEnhanced_congr (isHan : Char → Bool) (cfg : MatcherConfig)
    (xs ys : List slotIndex) (slot : Int) (ocrText : Str)
    (h : xs[(slot - 1).toNat]? = ys[(slot - 1).toNat]?) :
    matchSkillIDEnhanced isHan cfg xs slot ocrText
      = matchSkillIDEnhanced isHan cfg ys slot ocrText := by
  unfold matchSkillIDEnhanced
  rw [h]

/-- A hit of resolve is a hit of one of the two passes. -/
theorem matchSkillIDEnhanced_hit (isHan : Char → Bool) (cfg : MatcherConfig)
    (slotIndices : List slotIndex) (slot : Int) (ocrText : Str) (idx : slotIndex) (id : Int)
    (h1 : 1 ≤ slot) (h3 : slot ≤ 3)
    (hidx : slotIndices[(slot - 1).toNat]? = some idx)
    (h : matchSkillIDEnhanced isHan cfg slotIndices slot ocrText = some (id, true)) :
    ∃ phase cleaned core, attemptMatch phase slot cleaned core idx = (id, true) ∧
      (phase = "raw" ∨ phase = "norm") := by
  unfold matchSkillIDEnhanced at h
  have hs : ¬ (slot < 1 ∨ slot > 3) := by omega
  simp only [hs, if_false, hidx] at h
  split_ifs at h with hempty
  · simp at h
  · cases hraw : attemptMatch "raw" slot (cleanChinese isHan ocrText)
        (trimStopSuffix cfg (cleanChinese isHan ocrText)) idx with
    | mk i ok =>
      cases ok with
      | true =>
        rw [hraw] at h
        simp only [Option.some.injEq, Prod.mk.injEq, and_true] at h
        subst h
        exact ⟨"raw", _, _, hraw, Or.inl rfl⟩
      | false =>
        rw [hraw] at h
        simp only [] at h
        cases hnorm : attemptMatch "norm" slot
            (normalizeSimilar cfg (cleanChinese isHan ocrText))
            (trimStopSuffix cfg (normalizeSimilar cfg (cleanChinese isHan ocrText))) idx with
        | mk j ok2 =>
          cases ok2 with
          | true =>
            rw [hnorm] at h
            simp only [Option.some.injEq, Prod.mk.injEq, and_true] at h
            subst h
            exact ⟨"norm", _, _, hnorm, Or.inr rfl⟩
          | false =>
            rw [hnorm] at h
            simp at h

/-- C37: for every database, configuration, slot in 1..3 and text, if resolve on the
built indices returns (id, matched) then id is the identifier of an entry of the pool of
that slot; and the result is the same for every database with the same pool in that slot,
so the pools of the other slots have no part in it. -/
theorem C37_resolver_soundness (isHan : Char → Bool) (cfg : MatcherConfig)
    (db : WeaponDatabase) (slot : Int) (ocrText : Str) (id : Int)
    (h1 : 1 ≤ slot) (h3 : slot ≤ 3)
    (h : matchSkillIDEnhanced isHan cfg (buildSlotIndices isHan cfg db) slot ocrText
      = some (id, true)) :
    (∃ s ∈ getPoolBySlot db slot, s.ID = id) ∧
      ∀ db2 : WeaponDatabase, getPoolBySlot db2 slot = getPoolBySlot db slot →
        matchSkillIDEnhanced isHan cfg (buildSlotIndices isHan cfg db2) slot ocrText
          = some (id, true) := by
  refine ⟨?_, ?_⟩
  · obtain ⟨phase, cleaned, core, hhit, hphase⟩ :=
      matchSkillIDEnhanced_hit isHan cfg _ slot ocrText _ id h1 h3
        (buildSlotIndices_get isHan cfg db slot h1 h3) h
    rcases hphase with rfl | rfl
    · exact attemptMatch_raw_sound isHan cfg _ slot cleaned core id hhit
    · rw [attemptMatch_norm_eq_raw _ _ _ _ (buildSlotIndex_NormIsRaw isHan cfg _)] at hhit
      exact attemptMatch_raw_sound isHan cfg _ slot cleaned core id hhit
  · intro db2 hpool
    rw [← h]
    apply matchSkillIDEnhanced_congr
    rw [buildSlotIndices_get isHan cfg db2 slot h1 h3,
      buildSlotIndices_get isHan cfg db slot h1 h3, hpool]

theorem C37_resolver_soundness_witness :
    matchSkillIDEnhanced hanBlock cfgZhiLi
        (buildSlotIndices hanBlock cfgZhiLi (dbOfSlot1 poolScenario)) 1 "强击之力".toList
        = some (1, true) ∧
      ∃ s ∈ getPoolBySlot (dbOfSlot1 poolScenario) 1, s.ID = 1 :=
  ⟨by decide,
    (C37_resolver_soundness hanBlock cfgZhiLi (dbOfSlot1 poolScenario) 1 "强击之力".toList 1
      (by decide) (by decide) (by decide)).1⟩

/-! ## C36: the single-character stage behind the substring stage -/

theorem firstChar_eq_singleton (t : Str) (c : Char) (h : firstChar t = [c]) :
    ∃ d, t = [c, d] := by
  rcases t with _ | ⟨a, _ | ⟨b, _ | ⟨x, r⟩⟩⟩ <;> simp [firstChar] at h
  exact ⟨b, by rw [h]⟩

theorem lastChar_eq_singleton (t : Str) (c : Char) (h : lastChar t = [c]) :
    ∃ d, t = [d, c] := by
  rcases t with _ | ⟨a, _ | ⟨b, _ | ⟨x, r⟩⟩⟩ <;> simp [lastChar] at h
  exact ⟨a, by rw [h]⟩

/-- Stage 3 on the entries of a built index and a one-rune text: the first entry of at
most three runes that contains the rune, in either phase. -/
theorem substringFull_one (isHan : Char → Bool) (cfg : MatcherConfig) (pool : List SkillPool)
    (useNorm : Bool) (c : Char) :
    substringFull useNorm [c] 1 (pool.map (mkEntry isHan cfg))
      = ((pool.map (mkEntry isHan cfg)).find? (shortWith c)).map (·.ID) := by
  induction pool with
  | nil => rfl
  | cons s rest ih =>
    have hfull : (if useNorm then (mkEntry isHan cfg s).NormFull
        else (mkEntry isHan cfg s).RawFull) = cleanChinese isHan s.Chinese := by
      cases useNorm <;> rfl
    have hlen : (if useNorm then (mkEntry isHan cfg s).NormLen
        else (mkEntry isHan cfg s).RawLen) = ((cleanChinese isHan s.Chinese).length : Int) := by
      cases useNorm <;> rfl
    have hshort : shortWith c (mkEntry isHan cfg s)
        = (decide (((cleanChinese isHan s.Chinese).length : Int) ≤ 3)
          && Contains (cleanChinese isHan s.Chinese) [c]) := rfl
    simp only [List.map_cons, List.find?_cons, hshort]
    unfold substringFull
    simp only [hfull, hlen, ih]
    by_cases h3 : ((cleanChinese isHan s.Chinese).length : Int) ≤ 3
    · have habs : ¬ abs (((cleanChinese isHan s.Chinese).length : Int) - 1) > 2 := by
        unfold abs
        split_ifs <;> omega
      rw [if_neg habs]
      by_cases hc : Contains (cleanChinese isHan s.Chinese) [c] = true
      · simp [h3, hc, mkEntry]
      · have hc2 : Contains (cleanChinese isHan s.Chinese) [c] = false := by simpa using hc
        simp [h3, hc2]
    · have habs : abs (((cleanChinese isHan s.Chinese).length : Int) - 1) > 2 := by
        unfold abs
        split_ifs <;> omega
      rw [if_pos habs]
      simp [h3]

/-- An entry of a built index whose text starts or ends a two-rune text with `c` is one
that stage 3 accepts for `[c]`. -/
theorem shortWith_of_pair (isHan : Char → Bool) (cfg : MatcherConfig) (s : SkillPool)
    (c d : Char)
    (h : cleanChinese isHan s.Chinese = [c, d] ∨ cleanChinese isHan s.Chinese = [d, c]) :
    shortWith c (mkEntry isHan cfg s) = true := by
  have hshort : shortWith c (mkEntry isHan cfg s)
      = (decide (((cleanChinese isHan s.Chinese).length : Int) ≤ 3)
        && Contains (cleanChinese isHan s.Chinese) [c]) := rfl
  rw [hshort]
  rcases h with h | h <;> rw [h] <;> simp [Contains, List.tails]

/-- On a built index stage 5 cannot hit where stage 3 misses. -/
theorem singleChar_shadowed (isHan : Char → Bool) (cfg : MatcherConfig)
    (pool : List SkillPool) (useNorm : Bool) (cleaned : Str)
    (h : singleChar
        (if useNorm then (buildSlotIndex isHan cfg pool).firstCharNorm
          else (buildSlotIndex isHan cfg pool).firstCharRaw)
        (if useNorm then (buildSlotIndex isHan cfg pool).lastCharNorm
          else (buildSlotIndex isHan cfg pool).lastCharRaw)
        cleaned (cleaned.length : Int) ≠ none) :
    substringFull useNorm cleaned (cleaned.length : Int)
      (buildSlotIndex isHan cfg pool).entries ≠ none := by
  obtain ⟨_, _, hn3, hn4, _⟩ := buildSlotIndex_NormIsRaw isHan cfg pool
  simp only [hn3, hn4, ite_self] at h
  cases hs : singleChar (buildSlotIndex isHan cfg pool).firstCharRaw
      (buildSlotIndex isHan cfg pool).lastCharRaw cleaned (cleaned.length : Int) with
  | none => exact absurd hs h
  | some id =>
    obtain ⟨hlen, hfl⟩ := singleChar_some _ _ _ _ _ hs
    have hlen1 : cleaned.length = 1 := by exact_mod_cast hlen
    obtain ⟨c, rfl⟩ := List.length_eq_one.mp hlen1
    have hex : ∃ s ∈ pool, ∃ d, cleanChinese isHan s.Chinese = [c, d] ∨
        cleanChinese isHan s.Chinese = [d, c] := by
      rcases hfl with hf | hl
      · have hmem : id ∈ (buildSlotIndex isHan cfg pool).firstCharRaw [c] := by
          rw [hf]; exact List.mem_cons_self _ _
        rw [buildSlotIndex_firstCharRaw] at hmem
        obtain ⟨s, hs1, hp, _⟩ := mem_filter_map_ID pool _ id hmem
        have hp2 : firstChar (cleanChinese isHan s.Chinese) = [c] := by
          simpa using (of_decide_eq_true hp).2
        obtain ⟨d, hd⟩ := firstChar_eq_singleton _ c hp2
        exact ⟨s, hs1, d, Or.inl hd⟩
      · have hmem : id ∈ (buildSlotIndex isHan cfg pool).lastCharRaw [c] := by
          rw [hl]; exact List.mem_cons_self _ _
        rw [buildSlotIndex_lastCharRaw] at hmem
        obtain ⟨s, hs1, hp, _⟩ := mem_filter_map_ID pool _ id hmem
        have hp2 : lastChar (cleanChinese isHan s.Chinese) = [c] := by
          simpa using (of_decide_eq_true hp).2
        obtain ⟨d, hd⟩ := lastChar_eq_singleton _ c hp2
        exact ⟨s, hs1, d, Or.inr hd⟩
    obtain ⟨s, hs1, d, hd⟩ := hex
    have hone : (([c] : Str).length : Int) = 1 := rfl
    rw [hone, buildSlotIndex_entries, substringFull_one]
    have hfind : ∃ e, (pool.map (mkEntry isHan cfg)).find? (shortWith c) = some e := by
      cases hf : (pool.map (mkEntry isHan cfg)).find? (shortWith c) with
      | some e => exact ⟨e, rfl⟩
      | none =>
        rw [List.find?_eq_none] at hf
        have := hf (mkEntry isHan cfg s) (List.mem_map_of_mem _ hs1)
        rw [shortWith_of_pair isHan cfg s c d hd] at this
        exact absurd rfl this
    obtain ⟨e, he⟩ := hfind
    rw [he]
    simp

/-- On a built index, a one-rune text that misses both exact stages is decided by
stage 3. -/
theorem attemptMatch_one_rune (isHan : Char → Bool) (cfg : MatcherConfig)
    (pool : List SkillPool) (phase : String) (slot : Int) (c : Char) (core : Str)
    (e : skillEntry)
    (hfull : (buildSlotIndex isHan cfg pool).rawFullIndex [c] = [])
    (hcore : (buildSlotIndex isHan cfg pool).rawCoreIndex core = [])
    (hfind : (buildSlotIndex isHan cfg pool).entries.find? (shortWith c) = some e) :
    attemptMatch phase slot [c] core (buildSlotIndex isHan cfg pool) = (e.ID, true) := by
  obtain ⟨hn1, hn2, _, _, _⟩ := buildSlotIndex_NormIsRaw isHan cfg pool
  have hone : (([c] : Str).length : Int) = 1 := rfl
  have hsub : substringFull (decide (phase = "norm")) [c] 1
      (buildSlotIndex isHan cfg pool).entries = some e.ID := by
    rw [buildSlotIndex_entries] at hfind ⊢
    rw [substringFull_one, hfind]
    rfl
  unfold attemptMatch
  simp only [hn1, hn2, ite_self, hfull, hcore, hone, hsub]

/-- C36 (as stated, refuted): in the pool with the entries (1, "强击") and (2, "强之力") and
the stop-suffix "之力", the leading-character lookup holds exactly one identifier for "强"
and the first entry of at most three runes containing "强" is entry 1, but the label "强"
resolves to entry 2: its core text is "强", and the exact core stage comes before the
substring stage. -/
theorem C36_counterexample :
    (buildSlotIndex hanBlock cfgZhiLi poolCoreShadow).firstCharRaw "强".toList = [1] ∧
      ((buildSlotIndex hanBlock cfgZhiLi poolCoreShadow).entries.find? (shortWith '强')).map
        (·.ID) = some 1 ∧
      matchSkillIDEnhanced hanBlock cfgZhiLi
        (buildSlotIndices hanBlock cfgZhiLi (dbOfSlot1 poolCoreShadow)) 1 "强".toList
        = some (2, true) := by
  decide

/-- C36 (amended): on every index that `buildSlotIndices` produces and in either phase,
whenever the single-character stage would hit, the full-text substring stage hits, so
`attemptMatch` never returns through the single-character stage; a one-rune text that
misses the two exact stages is resolved by the substring stage to the first entry (build
order) of at most three runes containing that rune, unique in the pool or not; and so is
a label whose cleaned form is that one rune, for a slot in 1..3. -/
theorem C36_single_char_shadowed (isHan : Char → Bool) (cfg : MatcherConfig)
    (db : WeaponDatabase) (slot : Int) (h1 : 1 ≤ slot) (h3 : slot ≤ 3) :
    (∀ (phase : String) (cleaned : Str),
      substringFull (decide (phase = "norm")) cleaned (cleaned.length : Int)
          (buildSlotIndex isHan cfg (getPoolBySlot db slot)).entries = none →
        singleChar
          (if decide (phase = "norm") then
            (buildSlotIndex isHan cfg (getPoolBySlot db slot)).firstCharNorm
            else (buildSlotIndex isHan cfg (getPoolBySlot db slot)).firstCharRaw)
          (if decide (phase = "norm") then
            (buildSlotIndex isHan cfg (getPoolBySlot db slot)).lastCharNorm
            else (buildSlotIndex isHan cfg (getPoolBySlot db slot)).lastCharRaw)
          cleaned (cleaned.length : Int) = none) ∧
      (∀ (phase : String) (c : Char) (core : Str) (e : skillEntry),
        (buildSlotIndex isHan cfg (getPoolBySlot db slot)).rawFullIndex [c] = [] →
        (buildSlotIndex isHan cfg (getPoolBySlot db slot)).rawCoreIndex core = [] →
        (buildSlotIndex isHan cfg (getPoolBySlot db slot)).entries.find? (shortWith c)
          = some e →
        attemptMatch phase slot [c] core (buildSlotIndex isHan cfg (getPoolBySlot db slot))
          = (e.ID, true)) ∧
      (∀ (ocrText : Str) (c : Char) (e : skillEntry),
        cleanChinese isHan ocrText = [c] →
        (buildSlotIndex isHan cfg (getPoolBySlot db slot)).rawFullIndex [c] = [] →
        (buildSlotIndex isHan cfg (getPoolBySlot db slot)).rawCoreIndex
          (trimStopSuffix cfg [c]) = [] →
        (buildSlotIndex isHan cfg (getPoolBySlot db slot)).entries.find? (shortWith c)
          = some e →
        matchSkillIDEnhanced isHan cfg (buildSlotIndices isHan cfg db) slot ocrText
          = some (e.ID, true)) := by
  refine ⟨?_, ?_, ?_⟩
  · intro phase cleaned hsub
    by_contra hne
    exact singleChar_shadowed isHan cfg _ _ cleaned hne hsub
  · intro phase c core e hfull hcore hfind
    exact attemptMatch_one_rune isHan cfg _ phase slot c core e hfull hcore hfind
  · intro ocrText c e hclean hfull hcore hfind
    apply matchSkillIDEnhanced_of_raw_hit isHan cfg _ slot ocrText _ e.ID h1 h3
      (buildSlotIndices_get isHan cfg db slot h1 h3)
    · rw [hclean]; simp
    · rw [hclean]
      exact attemptMatch_one_rune isHan cfg _ "raw" slot c _ e hfull hcore hfind

/-- Witness for C36 (amended): "强" occurs in two entries of the pool; the label "强"
resolves to the first of them. -/
theorem C36_single_char_shadowed_witness :
    matchSkillIDEnhanced hanBlock cfgZhiLi
        (buildSlotIndices hanBlock cfgZhiLi (dbOfSlot1 poolTwoWithQiang)) 1 "强".toList
      = some ((mkEntry hanBlock cfgZhiLi ⟨1, "", "守强".toList⟩).ID, true) :=
  (C36_single_char_shadowed hanBlock cfgZhiLi (dbOfSlot1 poolTwoWithQiang) 1
    (by decide) (by decide)).2.2 "强".toList '强' (mkEntry hanBlock cfgZhiLi ⟨1, "", "守强".toList⟩)
    (by decide) (by decide) (by decide) (by decide)

/-! ## C39: the matched count against the visited count -/

theorem RowCollect_counts (s : State) (arg : RowCollectArg) :
    (RowCollect s arg).1.matchedCount = s.matchedCount ∧
      (RowCollect s arg).1.visitedCount = s.visitedCount := by
  unfold RowCollect
  by_cases hd : arg.detailOk = true
  · by_cases hc : arg.controllerOk = true
    · by_cases hi : arg.imageOk = true
      · simp only [hd, hc, hi, Bool.not_true, Bool.false_eq_true, if_false]
        generalize (if arg.filtered.length = 0 then arg.all else arg.filtered) = results
        split_ifs <;> exact ⟨rfl, rfl⟩
      · simp [hd, hc, hi]
    · simp [hd, hc]
  · simp [hd]

theorem RowNextItem_counts (s : State) :
    (RowNextItem s).1.matchedCount = s.matchedCount ∧
      (RowNextItem s).1.visitedCount
        = s.visitedCount + (if (RowNextItem s).2.click.isSome then 1 else 0) := by
  unfold RowNextItem
  by_cases hend : s.rowIndex ≥ (s.rowBoxes.length : Int)
  · rw [if_pos hend]
    by_cases h : (decide ((s.rowBoxes.length : Int) = s.maxItemsPerRow)
        && !s.finalLargeScanUsed) = true
    · rw [if_pos h]
      cases hf : s.firstRowSwipeDone <;> simp
    · rw [if_neg h]
      simp
  · rw [if_neg hend]
    cases hb : (if s.rowIndex < 0 then none else s.rowBoxes[s.rowIndex.toNat]?) with
    | none => simp
    | some box => simp

theorem CheckItem_matched (s : State) (arg : CheckItemArg) :
    (CheckItem s arg).1.matchedCount = s.matchedCount := by
  unfold CheckItem
  simp only []
  split_ifs <;> first | rfl | (split <;> (try split_ifs) <;> rfl)

/-- The decision step adds at most one to the matched count. -/
theorem SkillDecision_matched (isHan : Char → Bool) (s : State) :
    (SkillDecision isHan s).1.matchedCount = s.matchedCount ∨
      (SkillDecision isHan s).1.matchedCount = s.matchedCount + 1 := by
  have hm := (MatchEssenceSkills_counters isHan s
    [s.currentSkills.1, s.currentSkills.2.1, s.currentSkills.2.2]).1
  unfold SkillDecision
  simp only []
  split
  · right
    simp only [hm]
  · left
    simp only [hm]

/-- No label resolves from an empty text. -/
theorem matchSkillIDEnhanced_nil (isHan : Char → Bool) (cfg : MatcherConfig)
    (slotIndices : List slotIndex) (slot : Int) (id : Int) :
    matchSkillIDEnhanced isHan cfg slotIndices slot [] ≠ some (id, true) := by
  unfold matchSkillIDEnhanced
  split_ifs
  · simp
  · split
    · simp
    · simp [cleanChinese]

/-- With an empty label buffer the decision step finds no match. -/
theorem SkillDecision_empty (isHan : Char → Bool) (s : State)
    (h : s.currentSkills = ([], [], [])) :
    (SkillDecision isHan s).1.matchedCount = s.matchedCount ∧
      (SkillDecision isHan s).2.next = some "EssenceFilterRowNextItem" := by
  have hnone : (MatchEssenceSkills isHan s [[], [], []]).1 = none := by
    unfold MatchEssenceSkills
    simp only [List.length_cons, List.length_nil, ne_eq, not_true_eq_false, if_false]
    have hr : resolveLabels isHan (ensureBuilt isHan s).matcherConfig
        (ensureBuilt isHan s).slotIndices 1 [[], [], []] = none :=
      resolveLabels_none isHan _ _ [[], [], []] 1 0 [] rfl
        (fun id => matchSkillIDEnhanced_nil isHan _ _ _ id)
    simp only [hr]
  have hm := (MatchEssenceSkills_counters isHan s [[], [], []]).1
  unfold SkillDecision
  simp only [h, hnone, hm, and_self]

/-- One callback, as far as the two counters go. -/
theorem step_counts (isHan : Char → Bool) (s : State) (cb : Callback) :
    ((step isHan s cb).1.matchedCount = s.matchedCount ∨
        (cb = Callback.skillDecision ∧
          (step isHan s cb).1.matchedCount = s.matchedCount + 1)) ∧
      ((step isHan s cb).1.visitedCount = s.visitedCount ∨
        (cb = Callback.rowNextItem ∧ (step isHan s cb).2.click.isSome = true ∧
          (step isHan s cb).1.visitedCount = s.visitedCount + 1)) := by
  cases cb with
  | rowCollect arg =>
    exact ⟨Or.inl (RowCollect_counts s arg).1, Or.inl (RowCollect_counts s arg).2⟩
  | rowNextItem =>
    refine ⟨Or.inl (RowNextItem_counts s).1, ?_⟩
    have h := (RowNextItem_counts s).2
    by_cases hc : (RowNextItem s).2.click.isSome = true
    · rw [if_pos hc] at h
      exact Or.inr ⟨rfl, hc, h⟩
    · rw [if_neg hc] at h
      exact Or.inl (h.trans (add_zero _))
  | checkItem arg =>
    exact ⟨Or.inl (CheckItem_matched s arg), Or.inl (CheckItem_frame s arg).1⟩
  | skillDecision =>
    refine ⟨?_, Or.inl (SkillDecision_frame isHan s).1⟩
    rcases SkillDecision_matched isHan s with h | h
    · exact Or.inl h
    · exact Or.inr ⟨rfl, h⟩
  | inventoryNumber arg =>
    have h : (step isHan s (Callback.inventoryNumber arg)).1 = s := InventoryNumber_frame s arg
    exact ⟨Or.inl (by rw [h]), Or.inl (by rw [h])⟩
  | trace => exact ⟨Or.inl rfl, Or.inl rfl⟩

/-- In a trace whose decision calls each come after a click of their own, the matched
count plus the pending click stays within the visited count. -/
theorem run_matched_le_visited (isHan : Char → Bool) (cbs : List Callback) :
    ∀ (s : State) (clicked : Bool),
      s.matchedCount + (if clicked then 1 else 0) ≤ s.visitedCount →
      clickedBefore clicked (runTrace isHan s cbs) = true →
      ∀ e ∈ runTrace isHan s cbs, e.2.1.matchedCount ≤ e.2.1.visitedCount := by
  induction cbs with
  | nil =>
    intro s clicked _ _ e he
    simp [runTrace] at he
  | cons cb rest ih =>
    intro s clicked hinv hord e he
    obtain ⟨hm, hv⟩ := step_counts isHan s cb
    have hle : s.matchedCount ≤ s.visitedCount := by
      cases clicked <;> simp at hinv <;> omega
    simp only [runTrace, List.mem_cons] at he
    cases cb with
    | skillDecision =>
      simp only [runTrace, clickedBefore, Bool.and_eq_true] at hord
      obtain ⟨hcl, hrest⟩ := hord
      subst hcl
      simp only [if_true] at hinv
      have hv2 : (step isHan s Callback.skillDecision).1.visitedCount = s.visitedCount := by
        rcases hv with h | ⟨h, _⟩
        · exact h
        · cases h
      have hm2 : (step isHan s Callback.skillDecision).1.matchedCount
          ≤ s.matchedCount + 1 := by
        rcases hm with h | ⟨_, h⟩ <;> omega
      rcases he with rfl | he
      · simp only []
        omega
      · exact ih _ false (by simp only [Bool.false_eq_true, if_false]; omega) hrest e he
    | rowNextItem =>
      simp only [runTrace, clickedBefore] at hord
      have hm2 : (step isHan s Callback.rowNextItem).1.matchedCount = s.matchedCount := by
        rcases hm with h | ⟨h, _⟩
        · exact h
        · cases h
      rcases hv with hv1 | ⟨_, hclick, hv1⟩
      · have hinv2 : (step isHan s Callback.rowNextItem).1.matchedCount
            + (if (clicked || (step isHan s Callback.rowNextItem).2.click.isSome) then 1 else 0)
            ≤ (step isHan s Callback.rowNextItem).1.visitedCount := by
          have hno : (step isHan s Callback.rowNextItem).2.click.isSome = false := by
            have h := (RowNextItem_counts s).2
            simp only [step] at hv1 ⊢
            cases hc : (RowNextItem s).2.click.isSome with
            | false => rfl
            | true =>
              rw [hc] at h
              simp only [if_true] at h
              omega
          rw [hno, Bool.or_false, hm2, hv1]
          exact hinv
        rcases he with rfl | he
        · simp only []
          omega
        · exact ih _ _ hinv2 hord e he
      · have hinv2 : (step isHan s Callback.rowNextItem).1.matchedCount
            + (if (clicked || (step isHan s Callback.rowNextItem).2.click.isSome) then 1 else 0)
            ≤ (step isHan s Callback.rowNextItem).1.visitedCount := by
          rw [hclick, Bool.or_true, hm2, hv1]
          simp only [if_true]
          omega
        rcases he with rfl | he
        · simp only []
          omega
        · exact ih _ _ hinv2 hord e he
    | rowCollect arg =>
      simp only [runTrace, clickedBefore] at hord
      have hm2 : (step isHan s (Callback.rowCollect arg)).1.matchedCount = s.matchedCount := by
        rcases hm with h | ⟨h, _⟩
        · exact h
        · cases h
      have hv2 : (step isHan s (Callback.rowCollect arg)).1.visitedCount = s.visitedCount := by
        rcases hv with h | ⟨h, _⟩
        · exact h
        · cases h
      rcases he with rfl | he
      · simp only []
        omega
      · exact ih _ clicked (by rw [hm2, hv2]; exact hinv) hord e he
    | checkItem arg =>
      simp only [runTrace, clickedBefore] at hord
      have hm2 : (step isHan s (Callback.checkItem arg)).1.matchedCount = s.matchedCount := by
        rcases hm with h | ⟨h, _⟩
        · exact h
        · cases h
      have hv2 : (step isHan s (Callback.checkItem arg)).1.visitedCount = s.visitedCount := by
        rcases hv with h | ⟨h, _⟩
        · exact h
        · cases h
      rcases he with rfl | he
      · simp only []
        omega
      · exact ih _ clicked (by rw [hm2, hv2]; exact hinv) hord e he
    | inventoryNumber arg =>
      simp only [runTrace, clickedBefore] at hord
      have hm2 : (step isHan s (Callback.inventoryNumber arg)).1.matchedCount
          = s.matchedCount := by
        rcases hm with h | ⟨h, _⟩
        · exact h
        · cases h
      have hv2 : (step isHan s (Callback.inventoryNumber arg)).1.visitedCount
          = s.visitedCount := by
        rcases hv with h | ⟨h, _⟩
        · exact h
        · cases h
      rcases he with rfl | he
      · simp only []
        omega
      · exact ih _ clicked (by rw [hm2, hv2]; exact hinv) hord e he
    | trace =>
      simp only [runTrace, clickedBefore] at hord
      have hm2 : (step isHan s Callback.trace).1.matchedCount = s.matchedCount := by
        rcases hm with h | ⟨h, _⟩
        · exact h
        · cases h
      have hv2 : (step isHan s Callback.trace).1.visitedCount = s.visitedCount := by
        rcases hv with h | ⟨h, _⟩
        · exact h
        · cases h
      rcases he with rfl | he
      · simp only []
        omega
      · exact ih _ clicked (by rw [hm2, hv2]; exact hinv) hord e he

/-- C39: in every callback sequence after a successful Init in which each decision call
comes after a clicking `RowNextItem` call made since the previous decision call,
`matchedCount <= visitedCount` holds after every callback; and a decision call made with
an empty label buffer, such as one right after another decision call, leaves
`matchedCount` as it was. -/
theorem C39_locked_le_visited (isHan : Char → Bool) (s0 : State) (arg : InitArg)
    (cbs : List Callback) (hok : (Init s0 arg).2.ok = true)
    (horder : clickedBefore false (runTrace isHan (Init s0 arg).1 cbs) = true) :
    (∀ e ∈ runTrace isHan (Init s0 arg).1 cbs, e.2.1.matchedCount ≤ e.2.1.visitedCount) ∧
      (∀ s : State, s.currentSkills = ([], [], []) →
        (SkillDecision isHan s).1.matchedCount = s.matchedCount) ∧
      (∀ s : State, (SkillDecision isHan (SkillDecision isHan s).1).1.matchedCount
        = (SkillDecision isHan s).1.matchedCount) := by
  obtain ⟨hv, hm, _⟩ := Init_ok_fields s0 arg hok
  refine ⟨?_, ?_, ?_⟩
  · apply run_matched_le_visited isHan cbs _ false _ horder
    rw [hv, hm]
    simp
  · intro s hs
    exact (SkillDecision_empty isHan s hs).1
  · intro s
    apply (SkillDecision_empty isHan _ _).1
    unfold SkillDecision
    simp only []
    split <;> rfl

/-- Witness for C39: the run over two items; the pairs (matched, visited) after each
callback. -/
theorem C39_locked_le_visited_witness :
    (Init stateScenario initArgScenario).2.ok = true ∧
      clickedBefore false (runTrace hanBlock (Init stateScenario initArgScenario).1 twoItemRun)
        = true ∧
      (runTrace hanBlock (Init stateScenario initArgScenario).1 twoItemRun).map
          (fun e => (e.2.1.matchedCount, e.2.1.visitedCount))
        = [(0, 0), (0, 1), (0, 1), (0, 1), (0, 1), (1, 1), (1, 2), (1, 2)] ∧
      ∀ e ∈ runTrace hanBlock (Init stateScenario initArgScenario).1 twoItemRun,
        e.2.1.matchedCount ≤ e.2.1.visitedCount :=
  ⟨by decide, by decide, by decide,
    (C39_locked_le_visited hanBlock stateScenario initArgScenario twoItemRun
      (by decide) (by decide)).1⟩

/-! ## Digit runs and `strconv.Atoi` -/

theorem digitRunsScan_flatten (t cur : Str) :
    (digitRunsScan t cur).flatten = cur ++ t.filter isDigit := by
  induction t generalizing cur with
  | nil =>
    unfold digitRunsScan
    split_ifs with h
    · simp [h]
    · simp
  | cons c rest ih =>
    unfold digitRunsScan
    by_cases hc : isDigit c = true
    · simp [hc, ih]
    · by_cases hcur : cur = []
      · simp [hc, hcur, ih]
      · simp [hc, hcur, ih]

/-- Every run is a non-empty string of digits. -/
theorem digitRunsScan_runs (t cur : Str) (hcur : cur.all isDigit = true) :
    ∀ r ∈ digitRunsScan t cur, r ≠ [] ∧ r.all isDigit = true := by
  induction t generalizing cur with
  | nil =>
    intro r hr
    unfold digitRunsScan at hr
    split_ifs at hr with h
    · simp at hr
    · have : r = cur := by simpa using hr
      subst this
      exact ⟨h, hcur⟩
  | cons c rest ih =>
    intro r hr
    unfold digitRunsScan at hr
    by_cases hc : isDigit c = true
    · simp only [hc, if_true] at hr
      exact ih (cur ++ [c]) (by simp [List.all_append, hcur, hc]) r hr
    · simp only [hc, Bool.false_eq_true, if_false] at hr
      by_cases hcur2 : cur = []
      · simp only [hcur2, if_true] at hr
        exact ih [] rfl r hr
      · simp only [hcur2, if_false, List.mem_cons] at hr
        rcases hr with rfl | hr
        · exact ⟨hcur2, hcur⟩
        · exact ih [] rfl r hr

theorem digitRuns_flatten (t : Str) : (digitRuns t).flatten = t.filter isDigit := by
  unfold digitRuns
  rw [digitRunsScan_flatten]
  rfl

theorem digitRuns_runs (t : Str) : ∀ r ∈ digitRuns t, r ≠ [] ∧ r.all isDigit = true :=
  digitRunsScan_runs t [] rfl

/-- A text has no digit run exactly when it has no digit. -/
theorem digitRuns_eq_nil_iff (t : Str) : digitRuns t = [] ↔ ∀ c ∈ t, isDigit c = false := by
  constructor
  · intro h c hc
    have hf := digitRuns_flatten t
    rw [h] at hf
    have hnil : t.filter isDigit = [] := by simpa using hf.symm
    rw [List.filter_eq_nil_iff] at hnil
    simpa using hnil c hc
  · intro h
    cases hr : digitRuns t with
    | nil => rfl
    | cons r rest =>
      exfalso
      have hne := (digitRuns_runs t r (by rw [hr]; exact List.mem_cons_self _ _)).1
      have hf := digitRuns_flatten t
      rw [hr] at hf
      have hnil : t.filter isDigit = [] := by
        rw [List.filter_eq_nil_iff]
        intro c hc
        simp [h c hc]
      rw [hnil] at hf
      have : r = [] := by
        have h2 : r ++ rest.flatten = [] := by simpa using hf
        exact (List.append_eq_nil.mp h2).1
      exact hne this

theorem digitRunsScan_head (t cur : Str) (hcur : cur ≠ []) :
    ∃ rest, digitRunsScan t cur = (cur ++ t.takeWhile isDigit) :: rest := by
  induction t generalizing cur with
  | nil =>
    unfold digitRunsScan
    exact ⟨[], by simp [hcur]⟩
  | cons c rest ih =>
    unfold digitRunsScan
    by_cases hc : isDigit c = true
    · obtain ⟨tl, htl⟩ := ih (cur ++ [c]) (by simp)
      exact ⟨tl, by simp [hc, htl, List.takeWhile_cons]⟩
    · exact ⟨digitRunsScan rest [], by simp [hc, hcur, List.takeWhile_cons]⟩

/-- The first digit run is the run of digits that starts at the first digit. -/
theorem digitRuns_head (t r : Str) (rest : List Str) (h : digitRuns t = r :: rest) :
    r = (t.dropWhile (fun c => !isDigit c)).takeWhile isDigit := by
  unfold digitRuns at h
  induction t with
  | nil => simp [digitRunsScan] at h
  | cons c tl ih =>
    unfold digitRunsScan at h
    by_cases hc : isDigit c = true
    · simp only [hc, if_true, List.nil_append] at h
      obtain ⟨tl2, htl2⟩ := digitRunsScan_head tl [c] (by simp)
      rw [htl2] at h
      have hr : r = [c] ++ tl.takeWhile isDigit := by
        have := (List.cons.inj h).1
        exact this.symm
      rw [hr]
      simp [List.dropWhile_cons, List.takeWhile_cons, hc]
    · simp only [hc, Bool.false_eq_true, if_false, if_true] at h
      rw [ih h]
      simp [List.dropWhile_cons, hc]

theorem digitVal_of_isDigit (c : Char) (h : isDigit c = true) :
    digitVal c = ((c.toNat - 48 : Nat) : Int) := by
  unfold isDigit at h
  unfold digitVal
  have h2 := of_decide_eq_true h
  omega

/-- The accumulation loop computes the positional value of a string of digits. -/
theorem digitsValue_eq_decimalValue (s : Str) (h : s.all isDigit = true) :
    digitsValue s = (decimalValue s : Int) := by
  induction s using List.reverseRecOn with
  | nil => rfl
  | append_singleton s c ih =>
    rw [List.all_append, Bool.and_eq_true] at h
    have hc : isDigit c = true := by simpa using h.2
    have h1 : digitsValue (s ++ [c]) = digitsValue s * 10 + digitVal c := by
      unfold digitsValue
      rw [List.foldl_append]
      rfl
    have h2 : decimalValue (s ++ [c]) = (c.toNat - 48) + 10 * decimalValue s := by
      unfold decimalValue
      simp [Nat.ofDigits_cons]
    rw [h1, h2, ih h.1, digitVal_of_isDigit c hc]
    push_cast
    ring

/-- What `Atoi` answers on a non-empty string of digits. -/
theorem Atoi_digits (s : Str) (hne : s ≠ []) (h : s.all isDigit = true) :
    Atoi s = if digitsValue s ≤ maxInt then some (digitsValue s) else none := by
  unfold Atoi
  simp [hne, h]

theorem foldl_append_flatten (runs : List Str) (acc : Str) :
    runs.foldl (fun acc run => acc ++ run) acc = acc ++ runs.flatten := by
  induction runs generalizing acc with
  | nil => simp
  | cons r rest ih => simp [ih]

/-! ## C34: `extractNumbersFromText` -/

/-- C34: for every text, `extractNumbersFromText` returns (n, true), n being the decimal
value of the digits of the text concatenated in order, when the text has a digit and that
value is at most `maxInt`, and (0, false) otherwise; the text "1,234" gives 1234. -/
theorem C34_digit_extraction (text : Str) :
    extractNumbersFromText text
        = (if text.filter isDigit ≠ [] ∧ (decimalValue (text.filter isDigit) : Int) ≤ maxInt
            then ((decimalValue (text.filter isDigit) : Int), true) else (0, false)) ∧
      extractNumbersFromText "1,234".toList = (1234, true) ∧
      extractNumbersFromText "no digit".toList = (0, false) ∧
      extractNumbersFromText "9223372036854775808".toList = (0, false) := by
  refine ⟨?_, by decide, by decide, by decide⟩
  have hall : (text.filter isDigit).all isDigit = true := by
    simp [List.all_eq_true]
  unfold extractNumbersFromText
  simp only [foldl_append_flatten, List.nil_append, digitRuns_flatten]
  by_cases hnil : text.filter isDigit = []
  · have hruns : digitRuns text = [] := by
      rw [digitRuns_eq_nil_iff]
      rw [List.filter_eq_nil_iff] at hnil
      intro c hc
      simpa using hnil c hc
    simp [hruns, hnil]
  · have hruns : (digitRuns text).length > 0 := by
      cases hr : digitRuns text with
      | nil =>
        exfalso
        have hf := digitRuns_flatten text
        rw [hr] at hf
        exact hnil (by simpa using hf.symm)
      | cons r rest => simp
    rw [if_pos hruns, Atoi_digits _ hnil hall, digitsValue_eq_decimalValue _ hall]
    by_cases hfit : (decimalValue (text.filter isDigit) : Int) ≤ maxInt
    · simp [hnil, hfit]
    · simp [hnil, hfit]

/-! ## C31: the inventory count -/

/-- How `inventoryCount` reads a text with a first digit run. -/
theorem inventoryCount_of_run (raw r : Str) (rest : List Str)
    (h : digitRuns (TrimSpace raw) = r :: rest) :
    inventoryCount (some raw) = if digitsValue r ≤ maxInt then some (digitsValue r) else none := by
  have hr := digitRuns_runs (TrimSpace raw) r (by rw [h]; exact List.mem_cons_self _ _)
  have hne : TrimSpace raw ≠ [] := by
    intro hnil
    rw [hnil] at h
    simp [digitRuns, digitRunsScan] at h
  unfold inventoryCount
  simp only [hne, if_false, h]
  exact Atoi_digits r hr.1 hr.2

theorem inventoryCount_of_no_run (raw : Str) (h : digitRuns (TrimSpace raw) = []) :
    inventoryCount (some raw) = none := by
  unfold inventoryCount
  simp only [h]
  split_ifs <;> rfl

/-- C31 (as stated, refuted): the text "99999999999999999999/5" is not empty and has
digits, and its digit run "5" fits an int; the action fails, because the first digit run
does not fit an int. -/
theorem C31_counterexample :
    TrimSpace "99999999999999999999/5".toList ≠ [] ∧
      digitRuns (TrimSpace "99999999999999999999/5".toList)
        = ["99999999999999999999".toList, "5".toList] ∧
      Atoi "5".toList = some 5 ∧
      (OCREssenceInventoryNumber stateScenario (some "99999999999999999999/5".toList)).2.ok
        = false := by
  decide

/-- C31 (amended): for every recognised text, the action reads the first run of ASCII
digits of the trimmed text as the count; when that run is at most `maxInt` it succeeds and
overrides the next step to `EssenceDetectFinal` iff the count is <= 45; it fails iff the
trimmed text is empty, has no digit, or its first digit run exceeds `maxInt`; the state is
left as it was. -/
theorem C31_inventory_routing (s : State) (raw : Str) :
    ((OCREssenceInventoryNumber s (some raw)).2.ok = false ↔
        (TrimSpace raw = [] ∨ (∀ c ∈ TrimSpace raw, isDigit c = false) ∨
          ∃ r rest, digitRuns (TrimSpace raw) = r :: rest ∧ maxInt < digitsValue r)) ∧
      (∀ r rest, digitRuns (TrimSpace raw) = r :: rest →
        r = ((TrimSpace raw).dropWhile (fun c => !isDigit c)).takeWhile isDigit ∧
        digitsValue r = (decimalValue r : Int) ∧
        (digitsValue r ≤ maxInt →
          (OCREssenceInventoryNumber s (some raw)).2
            = { ok := true,
                next := if digitsValue r ≤ 45 then some "EssenceDetectFinal" else none,
                click := none })) ∧
      (OCREssenceInventoryNumber s (some raw)).1 = s := by
  refine ⟨?_, ?_, ?_⟩
  · cases hruns : digitRuns (TrimSpace raw) with
    | nil =>
      have hno := (digitRuns_eq_nil_iff (TrimSpace raw)).mp hruns
      unfold OCREssenceInventoryNumber InventoryNumber
      simp only [inventoryCount_of_no_run raw hruns, true_iff]
      exact Or.inr (Or.inl hno)
    | cons r rest =>
      have hne : TrimSpace raw ≠ [] := by
        intro hnil
        rw [hnil] at hruns
        simp [digitRuns, digitRunsScan] at hruns
      have hdig : ¬ ∀ c ∈ TrimSpace raw, isDigit c = false := by
        intro hall
        rw [(digitRuns_eq_nil_iff (TrimSpace raw)).mpr hall] at hruns
        cases hruns
      unfold OCREssenceInventoryNumber InventoryNumber
      simp only [inventoryCount_of_run raw r rest hruns]
      by_cases hfit : digitsValue r ≤ maxInt
      · simp only [hfit, if_true]
        constructor
        · intro h
          split_ifs at h
        · rintro (h | h | ⟨r2, rest2, h2, hbig⟩)
          · exact absurd h hne
          · exact absurd h hdig
          · have : r2 = r := (List.cons.inj h2).1.symm
            subst this
            omega
      · simp only [hfit, if_false, true_iff]
        exact Or.inr (Or.inr ⟨r, rest, rfl, by omega⟩)
  · intro r rest hruns
    have hr := digitRuns_runs (TrimSpace raw) r (by rw [hruns]; exact List.mem_cons_self _ _)
    refine ⟨digitRuns_head _ r rest hruns, digitsValue_eq_decimalValue r hr.2, ?_⟩
    intro hfit
    unfold OCREssenceInventoryNumber InventoryNumber
    simp only [inventoryCount_of_run raw r rest hruns, hfit, if_true]
    split_ifs <;> rfl
  · unfold OCREssenceInventoryNumber
    exact InventoryNumber_frame s _

/-- Witness for C31 (amended): the text " 37/120 " gives the count 37 and routes to the
fallback full scan; " 52/120" gives 52 and does not. -/
theorem C31_inventory_routing_witness :
    (OCREssenceInventoryNumber stateScenario (some " 37/120 ".toList)).2
        = { ok := true, next := some "EssenceDetectFinal", click := none } ∧
      (OCREssenceInventoryNumber stateScenario (some " 52/120".toList)).2
        = { ok := true, next := none, click := none } :=
  ⟨((C31_inventory_routing stateScenario " 37/120 ".toList).2.1 "37".toList ["120".toList]
      (by decide)).2.2 (by decide),
    ((C31_inventory_routing stateScenario " 52/120".toList).2.1 "52".toList ["120".toList]
      (by decide)).2.2 (by decide)⟩

/-! ## C32: the blueprint queue -/

theorem all_takeWhile (p : Char → Bool) (l : Str) : (l.takeWhile p).all p = true := by
  induction l with
  | nil => rfl
  | cons c rest ih =>
    rw [List.takeWhile_cons]
    split_ifs with h
    · simp only [List.all_cons, h, Bool.true_and]
      exact ih
    · rfl

/-- A match at the head of a text is "EF" followed by a non-empty alphanumeric run. -/
theorem codeAt_form (t code : Str) (h : codeAt t = some code) :
    ∃ tail, code = 'E' :: 'F' :: tail ∧ tail ≠ [] ∧ tail.all isAlnum = true := by
  unfold codeAt at h
  split at h
  · rename_i c1 c2 rest
    split_ifs at h with hc
    obtain ⟨rfl, rfl, hne⟩ := hc
    have : code = 'E' :: 'F' :: rest.takeWhile isAlnum := by
      simpa using h.symm
    exact ⟨rest.takeWhile isAlnum, this, hne, all_takeWhile isAlnum rest⟩
  · cases h

theorem codeScan_form (t : Str) : ∀ (skip : Nat), ∀ code ∈ codeScan t skip,
    ∃ tail, code = 'E' :: 'F' :: tail ∧ tail ≠ [] ∧ tail.all isAlnum = true := by
  induction t with
  | nil =>
    intro skip code h
    simp [codeScan] at h
  | cons c rest ih =>
    intro skip code h
    cases skip with
    | succ k =>
      rw [codeScan] at h
      exact ih k code h
    | zero =>
      rw [codeScan] at h
      cases hat : codeAt (c :: rest) with
      | none =>
        simp only [hat] at h
        exact ih 0 code h
      | some found =>
        simp only [hat, List.mem_cons] at h
        rcases h with rfl | h
        · exact codeAt_form _ _ hat
        · exact ih _ code h

/-- As many calls as the queue is long take its codes in order and leave it empty. -/
theorem enterCodes_all (codes : List Str) :
    enterCodes codes.length codes
      = ([], codes.map (fun code => { ok := true, input := some code, stop := false })) := by
  induction codes with
  | nil => rfl
  | cons code rest ih =>
    simp only [List.length_cons, enterCodes, ImportBluePrintsEnterCode, ih, List.map_cons]

theorem enterCodes_succ (codes : List Str) :
    enterCodes (codes.length + 1) codes
      = ([], codes.map (fun code => { ok := true, input := some code, stop := false })
          ++ [{ ok := false, input := none, stop := false }]) := by
  induction codes with
  | nil => rfl
  | cons code rest ih =>
    have h : enterCodes ((code :: rest).length + 1) (code :: rest)
        = ((enterCodes (rest.length + 1) rest).1,
            { ok := true, input := some code, stop := false }
              :: (enterCodes (rest.length + 1) rest).2) := rfl
    rw [h, ih]
    rfl

/-- C32: when the text given to `ImportBluePrintsInitTextAction` holds the codes
c1..cn, n >= 1 (the matches of "EF" followed by one or more ASCII alphanumerics, from left
to right), the action succeeds and the queue is c1..cn; the next n
`ImportBluePrintsEnterCodeAction` calls succeed and input c1..cn in that order, and the
call after them fails; `ImportBluePrintsFinishAction` succeeds, leaves the queue as it is,
and requests a stop iff the queue is empty. -/
theorem C32_blueprint_fifo (queue : List Str) (text : Str)
    (hne : parseBlueprintCodes text ≠ []) :
    ImportBluePrintsInitText queue (some text)
        = (parseBlueprintCodes text, { ok := true, input := none, stop := false }) ∧
      enterCodes (parseBlueprintCodes text).length (parseBlueprintCodes text)
        = ([], (parseBlueprintCodes text).map
            (fun code => { ok := true, input := some code, stop := false })) ∧
      enterCodes ((parseBlueprintCodes text).length + 1) (parseBlueprintCodes text)
        = ([], (parseBlueprintCodes text).map
            (fun code => { ok := true, input := some code, stop := false })
          ++ [{ ok := false, input := none, stop := false }]) ∧
      (∀ q : List Str, (ImportBluePrintsFinish q).1 = q ∧
        (ImportBluePrintsFinish q).2.ok = true ∧
        ((ImportBluePrintsFinish q).2.stop = true ↔ q = [])) ∧
      (∀ code ∈ parseBlueprintCodes text,
        ∃ tail, code = 'E' :: 'F' :: tail ∧ tail ≠ [] ∧ tail.all isAlnum = true) := by
  refine ⟨?_, enterCodes_all _, enterCodes_succ _, ?_, codeScan_form text 0⟩
  · unfold ImportBluePrintsInitText
    have hlen : (parseBlueprintCodes text).length ≠ 0 := by
      intro h
      exact hne (List.length_eq_zero.mp h)
    simp only [hlen, if_false]
  · intro q
    unfold ImportBluePrintsFinish
    cases q with
    | nil => simp
    | cons a b => simp

/-- Witness for C32: a text with three codes among other runes. -/
theorem C32_blueprint_fifo_witness :
    parseBlueprintCodes "a EF12,EFab EF! xEFEF9".toList
        = ["EF12".toList, "EFab".toList, "EFEF9".toList] ∧
      (enterCodes 4 (ImportBluePrintsInitText [] (some "a EF12,EFab EF! xEFEF9".toList)).1).2
        = [{ ok := true, input := some "EF12".toList, stop := false },
           { ok := true, input := some "EFab".toList, stop := false },
           { ok := true, input := some "EFEF9".toList, stop := false },
           { ok := false, input := none, stop := false }] ∧
      ImportBluePrintsInitText [] (some "a EF12,EFab EF! xEFEF9".toList)
        = (parseBlueprintCodes "a EF12,EFab EF! xEFEF9".toList,
            { ok := true, input := none, stop := false }) :=
  ⟨by decide, by decide,
    (C32_blueprint_fifo [] "a EF12,EFab EF! xEFEF9".toList (by decide)).1⟩

/-! ## C33: the record picked after the resell scan -/

/-- The loop variable `maxProfit`: never below its start value, never below a profit
seen, and equal to its start value or to a profit seen. -/
theorem trackMax_fold (records : List ProfitRecord) (m0 : Int) :
    m0 ≤ records.foldl (fun maxProfit record =>
        if record.Profit > maxProfit then record.Profit else maxProfit) m0 ∧
      (∀ r ∈ records, r.Profit ≤ records.foldl (fun maxProfit record =>
        if record.Profit > maxProfit then record.Profit else maxProfit) m0) ∧
      (records.foldl (fun maxProfit record =>
          if record.Profit > maxProfit then record.Profit else maxProfit) m0 = m0 ∨
        ∃ r ∈ records, r.Profit = records.foldl (fun maxProfit record =>
          if record.Profit > maxProfit then record.Profit else maxProfit) m0) := by
  induction records generalizing m0 with
  | nil => simp
  | cons x rest ih =>
    rw [List.foldl_cons]
    obtain ⟨h1, h2, h3⟩ := ih (if x.Profit > m0 then x.Profit else m0)
    have hstep : m0 ≤ (if x.Profit > m0 then x.Profit else m0) ∧
        x.Profit ≤ (if x.Profit > m0 then x.Profit else m0) := by
      split_ifs <;> omega
    refine ⟨le_trans hstep.1 h1, ?_, ?_⟩
    · intro r hr
      rcases List.mem_cons.mp hr with rfl | hr
      · exact le_trans hstep.2 h1
      · exact h2 r hr
    · rcases h3 with h | ⟨r, hr, hrp⟩
      · by_cases hx : x.Profit > m0
        · right
          refine ⟨x, List.mem_cons_self _ _, ?_⟩
          rw [h, if_pos hx]
        · left
          rw [h, if_neg hx]
      · exact Or.inr ⟨r, List.mem_cons_of_mem _ hr, hrp⟩

/-- When some record has a profit of at least 0, the action picks the first record with
the largest profit and overrides the next step iff that profit reaches `MinimumProfit`. -/
theorem ResellInit_first_max (MinimumProfit : Int) (records : List ProfitRecord)
    (hpos : ∃ r ∈ records, 0 ≤ r.Profit) :
    ∃ pre m post, records = pre ++ m :: post ∧
      (∀ r ∈ records, r.Profit ≤ m.Profit) ∧ (∀ r ∈ pre, r.Profit < m.Profit) ∧
      ResellInit MinimumProfit records
        = { ok := true, selected := some m,
            next := if m.Profit ≥ MinimumProfit then some (selectTaskName m.Row m.Col)
              else none } := by
  obtain ⟨h1, h2, h3⟩ := trackMax_fold records 0
  have hmem : ∃ r ∈ records, r.Profit = trackMaxProfit records := by
    rcases h3 with h | h
    · obtain ⟨r, hr, hr0⟩ := hpos
      have hle := h2 r hr
      exact ⟨r, hr, by unfold trackMaxProfit; omega⟩
    · exact h
  obtain ⟨r, hr, hrp⟩ := hmem
  cases hfind : findMaxRecord (trackMaxProfit records) records with
  | none =>
    unfold findMaxRecord at hfind
    rw [List.find?_eq_none] at hfind
    exact absurd hrp (by simpa using hfind r hr)
  | some m =>
    have hfind2 := hfind
    unfold findMaxRecord at hfind2
    have hm : m.Profit = trackMaxProfit records := by
      simpa using List.find?_some hfind2
    obtain ⟨_, pre, post, hsplit, hpre⟩ := List.find?_eq_some.mp hfind2
    refine ⟨pre, m, post, hsplit, ?_, ?_, ?_⟩
    · intro x hx
      rw [hm]
      exact h2 x hx
    · intro x hx
      have hx2 : x ∈ records := by rw [hsplit]; exact List.mem_append_left _ hx
      have hne : x.Profit ≠ trackMaxProfit records := by simpa using hpre x hx
      have hle := h2 x hx2
      rw [hm]
      unfold trackMaxProfit at hne ⊢
      omega
    · unfold ResellInit
      simp only [hfind]
      split_ifs <;> rfl

/-- C33 (the code at the failing input): the scan read one item, in row 1 at the first
position, with cost price 15 and sale price 10; `MinimumProfit` is -10.  The record has
the largest profit, -5, which is at least `MinimumProfit`; but `maxProfit` stays at its
start value 0, no record equals it, and nothing is selected and no next step is
overridden. -/
theorem C33_negative_profits_unselected :
    (scanRecord 0 72 15 10).Profit = -5 ∧
      trackMaxProfit [scanRecord 0 72 15 10] = 0 ∧
      ResellInit (-10) [scanRecord 0 72 15 10]
        = { ok := true, selected := none, next := none } ∧
      ResellInit (-10) [scanRecord 0 72 15 10, scanRecord 0 222 10 10]
        = { ok := true, selected := some (scanRecord 0 222 10 10),
            next := some "ResellSelectProductRow1Col2" } := by
  decide

/-! ## C35: the skill rotation -/

/-- One skill action with 2 to 4 characters and the index inside the rotation. -/
theorem skillAction_rotate (c j : Int) (h2 : 2 ≤ c) (h4 : c ≤ 4) (hj0 : 0 ≤ j)
    (hj : j < c - 1) :
    RealTimeAutoFightSkillAction ⟨c, j⟩
      = (⟨c, (j + 1) % (c - 1)⟩, some (50 + j % (c - 1))) := by
  unfold RealTimeAutoFightSkillAction
  have hc0 : ¬ (c = 0 ∨ c > 4) := by omega
  have hc1 : ¬ c = 1 := by omega
  have hgt : c > 1 := by omega
  have e1 : Int.tmod j (c - 1) = j % (c - 1) := Int.tmod_eq_emod hj0 (by omega)
  have e2 : Int.tmod (j + 1) (c - 1) = (j + 1) % (c - 1) :=
    Int.tmod_eq_emod (by omega) (by omega)
  simp only [hc0, hc1, hgt, if_false, if_true, e1, e2]

/-- The rotation from an index `j` inside it. -/
theorem skillActions_from (c : Int) (h2 : 2 ≤ c) (h4 : c ≤ 4) (k : Nat) :
    ∀ j : Int, 0 ≤ j → j < c - 1 →
      skillActions k ⟨c, j⟩
        = (⟨c, (j + (k : Int)) % (c - 1)⟩,
          (List.range k).map (fun (i : Nat) => some (50 + (j + (i : Int)) % (c - 1)))) := by
  induction k with
  | zero =>
    intro j hj0 hj
    have : j % (c - 1) = j := Int.emod_eq_of_lt hj0 hj
    simp [skillActions, this]
  | succ k ih =>
    intro j hj0 hj
    have hpos : 0 < c - 1 := by omega
    have hj1 : 0 ≤ (j + 1) % (c - 1) := Int.emod_nonneg _ (by omega)
    have hj2 : (j + 1) % (c - 1) < c - 1 := Int.emod_lt_of_pos _ hpos
    have hstep := skillAction_rotate c j h2 h4 hj0 hj
    have hrec := ih ((j + 1) % (c - 1)) hj1 hj2
    have hshift : ∀ i : Int, ((j + 1) % (c - 1) + i) % (c - 1) = (j + (i + 1)) % (c - 1) := by
      intro i
      rw [Int.emod_add_cancel_right i |>.mpr (Int.emod_emod_of_dvd (j + 1) (dvd_refl _))]
      congr 1
      ring
    unfold skillActions
    simp only [hstep, hrec, List.range_succ_eq_map, List.map_cons, List.map_map]
    refine Prod.ext ?_ ?_
    · simp only [hshift]
      push_cast
      rfl
    · simp only [Nat.cast_zero, add_zero, List.cons.injEq]
      refine ⟨trivial, ?_⟩
      apply List.map_congr_left
      intro i _
      simp only [Function.comp, hshift]
      push_cast
      rfl

/-- C35: a successful entry recognition sets the character count and puts the rotation
index at 0.  With a count c in {2, 3, 4}, the k-th skill action from then on (k = 0, 1,
...) presses key code 50 + (k mod (c - 1)), and the index stays in [0, c - 1) after every
action; with c = 1 every action presses 49 and leaves the index alone; with c = 0 or c > 4
an action presses nothing and leaves the index alone. -/
theorem C35_skill_rotation (s : AutoFight) (n k : Nat) :
    RealTimeAutoFightEntryRecognition s (some n)
        = ({ autoFightCharacterCount := (n : Int), autoFightSkillLastIndex := 0 }, true) ∧
      (2 ≤ n → n ≤ 4 →
        (skillActions k ⟨(n : Int), 0⟩).2
            = (List.range k).map (fun (i : Nat) => some (50 + (i : Int) % ((n : Int) - 1))) ∧
          (skillActions k ⟨(n : Int), 0⟩).1.autoFightCharacterCount = (n : Int) ∧
          0 ≤ (skillActions k ⟨(n : Int), 0⟩).1.autoFightSkillLastIndex ∧
          (skillActions k ⟨(n : Int), 0⟩).1.autoFightSkillLastIndex < (n : Int) - 1 ∧
          (RealTimeAutoFightSkillAction (skillActions k ⟨(n : Int), 0⟩).1).2
            = some (50 + (k : Int) % ((n : Int) - 1))) ∧
      (∀ i : Int, RealTimeAutoFightSkillAction ⟨1, i⟩ = (⟨1, i⟩, some 49)) ∧
      (∀ c i : Int, c = 0 ∨ c > 4 → RealTimeAutoFightSkillAction ⟨c, i⟩ = (⟨c, i⟩, none)) := by
  refine ⟨rfl, ?_, ?_, ?_⟩
  · intro h2 h4
    have hc2 : (2 : Int) ≤ (n : Int) := by exact_mod_cast h2
    have hc4 : (n : Int) ≤ 4 := by exact_mod_cast h4
    have hpos : (0 : Int) < (n : Int) - 1 := by omega
    have hrun := skillActions_from (n : Int) hc2 hc4 k 0 (le_refl _) hpos
    simp only [zero_add] at hrun
    have hk0 : 0 ≤ (k : Int) % ((n : Int) - 1) := Int.emod_nonneg _ (by omega)
    have hk1 : (k : Int) % ((n : Int) - 1) < (n : Int) - 1 := Int.emod_lt_of_pos _ hpos
    rw [hrun]
    refine ⟨rfl, rfl, hk0, hk1, ?_⟩
    rw [skillAction_rotate (n : Int) _ hc2 hc4 hk0 hk1, Int.emod_emod_of_dvd _ (dvd_refl _)]
  · intro i
    unfold RealTimeAutoFightSkillAction
    simp
  · intro c i hc
    unfold RealTimeAutoFightSkillAction
    simp only [hc, if_true]

/-- Witness for C35: four characters, seven skill actions after entry. -/
theorem C35_skill_rotation_witness :
    (skillActions 7 (RealTimeAutoFightEntryRecognition ⟨0, 5⟩ (some 4)).1).2
        = [some 50, some 51, some 52, some 50, some 51, some 52, some 50] ∧
      (skillActions 7 ⟨((4 : Nat) : Int), 0⟩).2
        = (List.range 7).map (fun (i : Nat) => some (50 + (i : Int) % (((4 : Nat) : Int) - 1))) :=
  ⟨by decide,
    ((C35_skill_rotation ⟨0, 5⟩ 4 7).2.1 (by decide) (by decide)).1⟩

/-! ## C5: which entry a single edit resolves to -/

theorem substringFull_some_raw (cleaned : Str) (cLen : Int) (es : List skillEntry) (id : Int)
    (h : substringFull false cleaned cLen es = some id) :
    ∃ e ∈ es, e.ID = id ∧ ¬ abs (e.RawLen - cLen) > 2 ∧ Contains e.RawFull cleaned = true := by
  induction es with
  | nil => simp [substringFull] at h
  | cons e rest ih =>
    unfold substringFull at h
    simp only [Bool.false_eq_true, if_false] at h
    by_cases hw : abs (e.RawLen - cLen) > 2
    · rw [if_pos hw] at h
      obtain ⟨x, hx, hid⟩ := ih h
      exact ⟨x, List.mem_cons_of_mem _ hx, hid⟩
    · rw [if_neg hw] at h
      by_cases hc : Contains e.RawFull cleaned = true
      · rw [if_pos hc] at h
        exact ⟨e, List.mem_cons_self _ _, by simpa using h, hw, hc⟩
      · rw [if_neg hc] at h
        obtain ⟨x, hx, hid⟩ := ih h
        exact ⟨x, List.mem_cons_of_mem _ hx, hid⟩

theorem substringCore_some_raw (core : Str) (coreLen : Int) (es : List skillEntry) (id : Int)
    (h : substringCore false core coreLen es = some id) :
    ∃ e ∈ es, e.ID = id ∧ ¬ abs (e.RawLen - coreLen) > 2 ∧ core ≠ [] ∧
      Contains e.RawCore core = true := by
  induction es with
  | nil => simp [substringCore] at h
  | cons e rest ih =>
    unfold substringCore at h
    simp only [Bool.false_eq_true, if_false] at h
    by_cases hw : abs (e.RawLen - coreLen) > 2
    · rw [if_pos hw] at h
      obtain ⟨x, hx, hid⟩ := ih h
      exact ⟨x, List.mem_cons_of_mem _ hx, hid⟩
    · rw [if_neg hw] at h
      by_cases hc : core ≠ [] ∧ Contains e.RawCore core = true
      · rw [if_pos hc] at h
        exact ⟨e, List.mem_cons_self _ _, by simpa using h, hw, hc.1, hc.2⟩
      · rw [if_neg hc] at h
        obtain ⟨x, hx, hid⟩ := ih h
        exact ⟨x, List.mem_cons_of_mem _ hx, hid⟩

/-- The identifier the stage-6 loop holds is the one it started with or that of an entry
within the bound. -/
theorem editFold_id_within (cleaned : Str) (maxEd : Int) (es : List skillEntry)
    (best : Int × Int) :
    (es.foldl (editStep false cleaned maxEd) best).1 = best.1 ∨
      ∃ e ∈ es, e.ID = (es.foldl (editStep false cleaned maxEd) best).1 ∧
        editDistance cleaned e.RawFull maxEd ≤ maxEd := by
  induction es generalizing best with
  | nil => exact Or.inl rfl
  | cons e rest ih =>
    rw [List.foldl_cons]
    rcases ih (editStep false cleaned maxEd best e) with h | ⟨x, hx, hid, hd⟩
    · have hstep : (editStep false cleaned maxEd best e).1 = best.1 ∨
          ((editStep false cleaned maxEd best e).1 = e.ID ∧
            editDistance cleaned e.RawFull maxEd ≤ maxEd) := by
        unfold editStep
        simp only [Bool.false_eq_true, if_false]
        by_cases hc : editDistance cleaned e.RawFull maxEd ≤ maxEd ∧
            editDistance cleaned e.RawFull maxEd < best.2
        · rw [if_pos hc]
          exact Or.inr ⟨rfl, hc.1⟩
        · rw [if_neg hc]
          exact Or.inl rfl
      rcases hstep with hs | ⟨hs, hd⟩
      · exact Or.inl (h.trans hs)
      · exact Or.inr ⟨e, List.mem_cons_self _ _, (h.trans hs).symm, hd⟩
    · exact Or.inr ⟨x, List.mem_cons_of_mem _ hx, hid, hd⟩

/-- A hit of the raw pass on a built index carries the identifier of a pool entry that one
of the six stages accepts. -/
theorem attemptMatch_raw_accepts (isHan : Char → Bool) (cfg : MatcherConfig)
    (pool : List SkillPool) (slot : Int) (cleaned core : Str) (id : Int)
    (h : attemptMatch "raw" slot cleaned core (buildSlotIndex isHan cfg pool) = (id, true)) :
    ∃ f ∈ pool, f.ID = id ∧ stageAccepts cleaned core (mkEntry isHan cfg f) = true := by
  have hr : decide (("raw" : String) = "norm") = false := by decide
  have hentry : ∀ e ∈ (buildSlotIndex isHan cfg pool).entries,
      ∃ f ∈ pool, e = mkEntry isHan cfg f := by
    intro e he
    rw [buildSlotIndex_entries, List.mem_map] at he
    obtain ⟨f, hf, rfl⟩ := he
    exact ⟨f, hf, rfl⟩
  unfold attemptMatch at h
  simp only [hr, Bool.false_eq_true, if_false] at h
  split at h
  · rename_i i tl hfull
    have hid : i = id := by simpa using congrArg Prod.fst h
    have hmem : i ∈ (buildSlotIndex isHan cfg pool).rawFullIndex cleaned := by
      rw [hfull]; exact List.mem_cons_self _ _
    rw [buildSlotIndex_rawFullIndex] at hmem
    obtain ⟨f, hf, hp, hfid⟩ := mem_filter_map_ID pool _ i hmem
    have hp2 : cleanChinese isHan f.Chinese = cleaned := of_decide_eq_true hp
    exact ⟨f, hf, hfid.trans hid, by simp [stageAccepts, mkEntry, hp2]⟩
  · split at h
    · rename_i i tl hcore
      have hid : i = id := by simpa using congrArg Prod.fst h
      have hmem : i ∈ (buildSlotIndex isHan cfg pool).rawCoreIndex core := by
        rw [hcore]; exact List.mem_cons_self _ _
      rw [buildSlotIndex_rawCoreIndex] at hmem
      obtain ⟨f, hf, hp, hfid⟩ := mem_filter_map_ID pool _ i hmem
      have hp2 : trimStopSuffix cfg (cleanChinese isHan f.Chinese) = core :=
        of_decide_eq_true hp
      exact ⟨f, hf, hfid.trans hid, by simp [stageAccepts, mkEntry, hp2]⟩
    · split at h
      · rename_i i hsub
        have hid : i = id := by simpa using congrArg Prod.fst h
        obtain ⟨e, he, heid, hw, hc⟩ := substringFull_some_raw _ _ _ _ hsub
        obtain ⟨f, hf, rfl⟩ := hentry e he
        exact ⟨f, hf, heid.trans hid, by simp [stageAccepts, hw, hc]⟩
      · split at h
        · rename_i i hsub
          have hid : i = id := by simpa using congrArg Prod.fst h
          obtain ⟨e, he, heid, hw, hne, hc⟩ := substringCore_some_raw _ _ _ _ hsub
          obtain ⟨f, hf, rfl⟩ := hentry e he
          exact ⟨f, hf, heid.trans hid, by simp [stageAccepts, hw, hne, hc]⟩
        · split at h
          · rename_i i hsingle
            have hid : i = id := by simpa using congrArg Prod.fst h
            obtain ⟨hlen, hf | hl⟩ := singleChar_some _ _ _ _ _ hsingle
            · have hmem : i ∈ (buildSlotIndex isHan cfg pool).firstCharRaw cleaned := by
                rw [hf]; exact List.mem_cons_self _ _
              rw [buildSlotIndex_firstCharRaw] at hmem
              obtain ⟨f, hf2, hp, hfid⟩ := mem_filter_map_ID pool _ i hmem
              have hp2 : firstChar (cleanChinese isHan f.Chinese) = cleaned :=
                (of_decide_eq_true hp).2
              exact ⟨f, hf2, hfid.trans hid, by simp [stageAccepts, mkEntry, hlen, hp2]⟩
            · have hmem : i ∈ (buildSlotIndex isHan cfg pool).lastCharRaw cleaned := by
                rw [hl]; exact List.mem_cons_self _ _
              rw [buildSlotIndex_lastCharRaw] at hmem
              obtain ⟨f, hf2, hp, hfid⟩ := mem_filter_map_ID pool _ i hmem
              have hp2 : lastChar (cleanChinese isHan f.Chinese) = cleaned :=
                (of_decide_eq_true hp).2
              exact ⟨f, hf2, hfid.trans hid, by simp [stageAccepts, mkEntry, hlen, hp2]⟩
          · unfold editFallback at h
            simp only [] at h
            split_ifs at h with hz
            · have hid : (List.foldl (editStep false cleaned (maxEdOf (cleaned.length : Int)))
                  (0, maxEdOf (cleaned.length : Int) + 1)
                  (buildSlotIndex isHan cfg pool).entries).1 = id := by
                simpa using congrArg Prod.fst h
              rcases editFold_id_within cleaned (maxEdOf (cleaned.length : Int))
                  (buildSlotIndex isHan cfg pool).entries
                  (0, maxEdOf (cleaned.length : Int) + 1) with h0 | ⟨e, he, heid, hd⟩
              · exact absurd h0 hz
              · obtain ⟨f, hf, rfl⟩ := hentry e he
                exact ⟨f, hf, heid.trans hid, by simp [stageAccepts, hd]⟩
            · simp at h

/-- Stage 6 on a built index: when some pool entry is within the bound and every pool
entry within the bound has a non-zero identifier, the stage hits with the identifier of a
pool entry within the bound. -/
theorem editFallback_hit_within (isHan : Char → Bool) (cfg : MatcherConfig)
    (pool : List SkillPool) (cleaned : Str)
    (hids : ∀ f ∈ pool, editDistance cleaned (cleanChinese isHan f.Chinese)
      (maxEdOf (cleaned.length : Int)) ≤ maxEdOf (cleaned.length : Int) → f.ID ≠ 0)
    (hex : ∃ f ∈ pool, editDistance cleaned (cleanChinese isHan f.Chinese)
      (maxEdOf (cleaned.length : Int)) ≤ maxEdOf (cleaned.length : Int)) :
    ∃ f ∈ pool, editFallback false cleaned (cleaned.length : Int)
        (buildSlotIndex isHan cfg pool).entries = (f.ID, true) ∧
      editDistance cleaned (cleanChinese isHan f.Chinese)
        (maxEdOf (cleaned.length : Int)) ≤ maxEdOf (cleaned.length : Int) := by
  have hfold := editFold_finds_hit isHan cfg pool cleaned (maxEdOf (cleaned.length : Int)) pool
    (fun f hf => hf) (0, maxEdOf (cleaned.length : Int) + 1) rfl hex
  obtain ⟨_, f, hf, hfid, hfd⟩ := hfold
  refine ⟨f, hf, ?_, hfd⟩
  unfold editFallback
  simp only [buildSlotIndex_entries]
  rw [← hfid] at *
  have hne := hids f hf hfd
  rw [← hfid] at hne
  rw [if_pos hne]

/-- C5 (amended): let `E` be an entry of the pool of a slot in 1..3 whose raw full text has
at least four runes, let `c` arise from that text by one single-rune substitution,
insertion or deletion, and let every pool entry within the edit-distance bound of the
cleaned `c` have a non-zero identifier.  Then resolve on `c` is matched, and the
identifier it returns is that of a pool entry that one of the six stages of the raw pass
accepts for the cleaned `c`.  So resolve returns the identifier of `E` whenever every pool
entry that a stage accepts carries that identifier; and also whenever stages 1 to 5 miss
and every pool entry within the bound carries that identifier. -/
theorem C5_single_edit_matched (isHan : Char → Bool) (cfg : MatcherConfig)
    (db : WeaponDatabase) (slot : Int) (E : SkillPool) (c : Str)
    (h1 : 1 ≤ slot) (h3 : slot ≤ 3) (hE : E ∈ getPoolBySlot db slot)
    (hlen : 4 ≤ (cleanChinese isHan E.Chinese).length)
    (hedit : SingleEdit (cleanChinese isHan E.Chinese) c)
    (hids : ∀ f ∈ getPoolBySlot db slot,
      editDistance (cleanChinese isHan c) (cleanChinese isHan f.Chinese)
        (maxEdOf ((cleanChinese isHan c).length : Int))
        ≤ maxEdOf ((cleanChinese isHan c).length : Int) → f.ID ≠ 0) :
    (∃ id, matchSkillIDEnhanced isHan cfg (buildSlotIndices isHan cfg db) slot c
        = some (id, true) ∧
      ∃ f ∈ getPoolBySlot db slot, f.ID = id ∧
        stageAccepts (cleanChinese isHan c) (trimStopSuffix cfg (cleanChinese isHan c))
          (mkEntry isHan cfg f) = true) ∧
      ((∀ f ∈ getPoolBySlot db slot,
          stageAccepts (cleanChinese isHan c) (trimStopSuffix cfg (cleanChinese isHan c))
            (mkEntry isHan cfg f) = true → f.ID = E.ID) →
        matchSkillIDEnhanced isHan cfg (buildSlotIndices isHan cfg db) slot c
          = some (E.ID, true)) ∧
      (earlyMiss false (cleanChinese isHan c) (trimStopSuffix cfg (cleanChinese isHan c))
          (buildSlotIndex isHan cfg (getPoolBySlot db slot)) →
        (∀ f ∈ getPoolBySlot db slot,
          editDistance (cleanChinese isHan c) (cleanChinese isHan f.Chinese)
            (maxEdOf ((cleanChinese isHan c).length : Int))
            ≤ maxEdOf ((cleanChinese isHan c).length : Int) → f.ID = E.ID) →
        matchSkillIDEnhanced isHan cfg (buildSlotIndices isHan cfg db) slot c
          = some (E.ID, true)) := by
  have hidx := buildSlotIndices_get isHan cfg db slot h1 h3
  obtain ⟨hosa, hclen⟩ := clean_single_edit isHan (cleanChinese isHan E.Chinese) c
    (cleanChinese_idem isHan E.Chinese) hedit
  have hne : cleanChinese isHan c ≠ [] := by
    intro h0
    rw [h0] at hclen
    simp at hclen
    omega
  have hmax : (1 : Int) ≤ maxEdOf ((cleanChinese isHan c).length : Int) := by
    unfold maxEdOf; split_ifs <;> omega
  have hdE : editDistance (cleanChinese isHan c) (cleanChinese isHan E.Chinese)
      (maxEdOf ((cleanChinese isHan c).length : Int))
      ≤ maxEdOf ((cleanChinese isHan c).length : Int) := by
    have := editDistance_le_of_osa_le (cleanChinese isHan c) (cleanChinese isHan E.Chinese)
      (maxEdOf ((cleanChinese isHan c).length : Int)) 1 hosa (by simpa using hmax)
    have h2 : ((1 : Nat) : Int) = 1 := rfl
    omega
  obtain ⟨f, hf, hfall, hfd⟩ := editFallback_hit_within isHan cfg (getPoolBySlot db slot)
    (cleanChinese isHan c) hids ⟨E, hE, hdE⟩
  obtain ⟨id2, hid2⟩ := attemptMatch_hit_of_fallback slot (cleanChinese isHan c)
    (trimStopSuffix cfg (cleanChinese isHan c)) _ f.ID hfall
  have hres := matchSkillIDEnhanced_of_raw_hit isHan cfg _ slot c _ id2 h1 h3 hidx hne hid2
  obtain ⟨g, hg, hgid, hgacc⟩ := attemptMatch_raw_accepts isHan cfg _ slot _ _ id2 hid2
  refine ⟨⟨id2, hres, g, hg, hgid, hgacc⟩, ?_, ?_⟩
  · intro hall
    rw [hres, ← hgid, hall g hg hgacc]
  · intro hmiss honly
    apply matchSkillIDEnhanced_of_raw_hit isHan cfg _ slot c _ E.ID h1 h3 hidx hne
    rw [attemptMatch_of_earlyMiss slot _ _ _ hmiss, hfall, honly f hf hfd]

/-- Witness for C5 (amended): the pool with the single entry (7, "甲乙丙丁"); the text
"甲乙丙", its last rune deleted, and the text "甲乙a丙丁", a Latin letter inserted, both
resolve to 7, decided by the substring stage and the exact stage. -/
theorem C5_single_edit_matched_witness :
    matchSkillIDEnhanced hanBlock cfgZhiLi
        (buildSlotIndices hanBlock cfgZhiLi (dbOfSlot1 poolOneLong)) 1 "甲乙丙".toList
        = some (7, true) ∧
      matchSkillIDEnhanced hanBlock cfgZhiLi
        (buildSlotIndices hanBlock cfgZhiLi (dbOfSlot1 poolOneLong)) 1 "甲乙a丙丁".toList
        = some (7, true) :=
  ⟨(C5_single_edit_matched hanBlock cfgZhiLi (dbOfSlot1 poolOneLong) 1
      ⟨7, "", "甲乙丙丁".toList⟩ "甲乙丙".toList (by decide) (by decide) (by decide) (by decide)
      ⟨"甲乙丙".toList, [], '丁', '丁', Or.inr (Or.inr ⟨by decide, by decide⟩)⟩
      (by decide)).2.1 (by decide),
    (C5_single_edit_matched hanBlock cfgZhiLi (dbOfSlot1 poolOneLong) 1
      ⟨7, "", "甲乙丙丁".toList⟩ "甲乙a丙丁".toList (by decide) (by decide) (by decide) (by decide)
      ⟨"甲乙".toList, "丙丁".toList, 'a', 'a', Or.inr (Or.inl ⟨by decide, by decide⟩)⟩
      (by decide)).2.1 (by decide)⟩

end EssenceFilter
